import Mathlib

/-!
Verification development for the `hash_containers` repository: an
open-addressed (closed) hash table with linear probing, two erase policies
(`erase_policy_rehash`, backward shift; `erase_policy_use_marker`,
tombstones) and a standalone second implementation
(`closed_linear_probing_hash_table2`).

The embedding instantiates the C++ templates at `K = V = Nat` with an
arbitrary hash function `hash : Nat → Nat` (the `hash_functor` template
parameter).  `size_t` values are modelled as `Nat`; the `meta_t = uint32_t`
metadata words are `Nat` kept below `2 ^ 32` by the well-formedness
invariant, with `uint32_t` complement written via `^^^ 0xFFFFFFFF`.
Slots whose state is not OCCUPIED hold indeterminate bytes in C++; the
model keeps the previous `Nat` there (`internal::destroy` does not change
the bytes of a trivially destructible object), and such slots are never
read on any well-formed path.

Loops are modelled with explicit fuel.  Every fuel value used is proved
sufficient on the paths the theorems below traverse; paths the C++ source
guards with `assert` (growth during a rehash, no free slot found) are
modelled as `Option.none`.

The C++ probing loops cache the current metadata word in `valid_val`,
shift it right by `META_BITS_PER_ELEMENT` per step and refresh it exactly
when the slot index crosses a word boundary (`(idx & (EPW - 1)) == 0`,
which also covers the wrap to slot 0 because the capacity is a power of
two).  The cached value therefore always equals
`valid[idx / EPW] >> (B * (idx % EPW))`, and the model reads the metadata
word afresh at each step, which is extensionally the same.
-/

namespace HashContainers

/-- The two erase policies of the template parameter `erase_policy`. -/
inductive erase_policy where
  | rehash
  | use_marker
deriving DecidableEq

/-- `META_BITS_PER_ELEMENT`: 1 for `erase_policy_rehash`, 2 for
`erase_policy_use_marker`. -/
def META_BITS_PER_ELEMENT : erase_policy → Nat
  | .rehash => 1
  | .use_marker => 2

/-- `META_ELEMENTS_PER_WORD = META_BITS_PER_WORD / META_BITS_PER_ELEMENT`
with `META_BITS_PER_WORD = 32` (`meta_t = uint32_t`). -/
def META_ELEMENTS_PER_WORD (p : erase_policy) : Nat :=
  32 / META_BITS_PER_ELEMENT p

/-- Slot state `INVALID` (EMPTY), 0 in both policies. -/
def INVALID : Nat := 0

/-- Slot state `VALID` (OCCUPIED), 1 in both policies. -/
def VALID : Nat := 1

/-- Slot state `DELETED` (tombstone), 2; only used by
`erase_policy_use_marker`. -/
def DELETED : Nat := 2

/-- The field mask `(meta_t(1) << META_BITS_PER_ELEMENT) - 1`. -/
def fieldMask (p : erase_policy) : Nat :=
  (1 <<< META_BITS_PER_ELEMENT p) - 1

/-- The bit offset of slot `idx` inside its metadata word:
`META_BITS_PER_ELEMENT * (idx & (META_ELEMENTS_PER_WORD - 1))`. -/
def metaShift (p : erase_policy) (idx : Nat) : Nat :=
  META_BITS_PER_ELEMENT p * (idx &&& (META_ELEMENTS_PER_WORD p - 1))

/-- Bitwise complement on `uint32_t` (`~x` for `x < 2^32`). -/
def not32 (x : Nat) : Nat := x ^^^ 0xFFFFFFFF

/-- `internal::closed_linear_probing_hash_table_data_t<K, V, erase_policy>`:
parallel key / value arrays, the packed metadata word array `valid`, the
occupancy count `size` and `capacity_minus_1`. -/
structure table_data_t where
  key_table : List Nat
  value_table : List Nat
  valid : List Nat
  size : Nat
  capacity_minus_1 : Nat
deriving DecidableEq

/-- Number of metadata words covering the table:
`(capacity_minus_1 + META_ELEMENTS_PER_WORD) / META_ELEMENTS_PER_WORD`. -/
def num_valid_words (p : erase_policy) (st : table_data_t) : Nat :=
  (st.capacity_minus_1 + META_ELEMENTS_PER_WORD p) / META_ELEMENTS_PER_WORD p

/-- Read the `B`-bit state of slot `idx`:
`(valid[idx / EPW] >> (B * (idx & (EPW-1)))) & ((1 << B) - 1)`. -/
def getStatus (p : erase_policy) (st : table_data_t) (idx : Nat) : Nat :=
  (st.valid.getD (idx / META_ELEMENTS_PER_WORD p) 0 >>> metaShift p idx) &&& fieldMask p

/-- Clear the state field of slot `idx`:
`valid[word] &= ~(((meta_t(1) << B) - 1) << shift)`. -/
def clearStatus (p : erase_policy) (st : table_data_t) (idx : Nat) : table_data_t :=
  let word := idx / META_ELEMENTS_PER_WORD p
  let w := st.valid.getD word 0
  { st with valid := st.valid.set word (w &&& not32 (fieldMask p <<< metaShift p idx)) }

/-- Or a value into the (pre-cleared) state field of slot `idx`:
`valid[word] |= v << shift`. -/
def orStatus (p : erase_policy) (st : table_data_t) (idx v : Nat) : table_data_t :=
  let word := idx / META_ELEMENTS_PER_WORD p
  let w := st.valid.getD word 0
  { st with valid := st.valid.set word (w ||| (v <<< metaShift p idx)) }

/-- Clear-then-set write of the state field of slot `idx`:
`valid[word] = (valid[word] & ~(mask << shift)) | (v << shift)`. -/
def setStatus (p : erase_policy) (st : table_data_t) (idx v : Nat) : table_data_t :=
  orStatus p (clearStatus p st idx) idx v

/-- The `data_t(size_t capacity)` constructor: metadata words zeroed
(`DEFAULT_META_VALUE = 0`), `size = 0`; key and value arrays are
uninitialised in C++ and modelled as zero-filled. -/
def fresh_data (p : erase_policy) (capacity : Nat) : table_data_t :=
  { key_table := List.replicate capacity 0
    value_table := List.replicate capacity 0
    valid := List.replicate ((capacity + (META_ELEMENTS_PER_WORD p - 1)) / META_ELEMENTS_PER_WORD p) 0
    size := 0
    capacity_minus_1 := capacity - 1 }

/-- The default constructor of `closed_linear_probing_hash_table`
(inline buffers, metadata zeroed): same contents as `fresh_data` at
`default_size`. -/
def empty_table (p : erase_policy) (default_size : Nat) : table_data_t :=
  fresh_data p default_size

/-- The probing loop of `get_index`.  Walk from `orig_idx`; stop with
`none` on an EMPTY slot or after a full revolution, stop with `some idx`
on an OCCUPIED slot holding `key`; DELETED (marker policy) and foreign
OCCUPIED slots continue the walk.  Fuel bounds the number of slot visits;
`capacity` is always sufficient because the walk stops when the index
returns to `orig_idx`. -/
def get_index_loop (p : erase_policy) (st : table_data_t) (key : Nat) :
    Nat → Nat → Nat → Option Nat
  | 0, _, _ => none
  | fuel + 1, orig_idx, idx =>
    if getStatus p st idx = INVALID then none
    else if getStatus p st idx = VALID ∧ st.key_table.getD idx 0 = key then some idx
    else if (idx + 1) &&& st.capacity_minus_1 = orig_idx then none
    else get_index_loop p st key fuel orig_idx ((idx + 1) &&& st.capacity_minus_1)

/-- `get_index(valid, key, data, hash)`: start the probing walk at
`hash & capacity_minus_1`.  `some idx` models the `valid = true` out
parameter, `none` the not-found return. -/
def get_index (p : erase_policy) (st : table_data_t) (key hashval : Nat) : Option Nat :=
  let orig_idx := hashval &&& st.capacity_minus_1
  get_index_loop p st key (st.capacity_minus_1 + 1) orig_idx orig_idx

/-- Write a new element into slot `idx`: mark the field VALID
(clear-then-set, as in `add_new` of the policy-based table), construct the
key and the value in place, increment `size`. -/
def store_at (p : erase_policy) (st : table_data_t) (idx key value : Nat) : table_data_t :=
  let st' := setStatus p st idx VALID
  { st' with
      key_table := st'.key_table.set idx key
      value_table := st'.value_table.set idx value
      size := st'.size + 1 }

/-- Result of one pass of the `add_new` walk. -/
inductive add_result where
  | placed (st : table_data_t) (idx : Nat)
  | need_grow
  | exhausted
deriving DecidableEq

/-- One pass of the `add_new` walk (no growth): accept the first slot
whose state is not VALID; on a collision check the load factor
(`size * 2 > capacity_minus_1`) and report `need_grow`; report
`exhausted` after a full revolution (the C++ `assert(0)` path). -/
def add_new_loop (p : erase_policy) (st : table_data_t) (key value : Nat) :
    Nat → Nat → Nat → add_result
  | 0, _, _ => .exhausted
  | fuel + 1, orig_idx, idx =>
    if getStatus p st idx ≠ VALID then
      .placed (store_at p st idx key value) idx
    else if st.size * 2 > st.capacity_minus_1 then .need_grow
    else if (idx + 1) &&& st.capacity_minus_1 = orig_idx then .exhausted
    else add_new_loop p st key value fuel orig_idx ((idx + 1) &&& st.capacity_minus_1)

/-- Count-trailing-zeros with fuel (`__builtin_ctz`, only ever applied to
nonzero words). -/
def ctz_fuel : Nat → Nat → Nat
  | 0, _ => 0
  | fuel + 1, x => if x % 2 = 1 then 0 else ctz_fuel fuel (x / 2) + 1

/-- `internal::bsf32_nonzero`: position of the lowest set bit of a
nonzero `uint32_t`. -/
def bsf32_nonzero (x : Nat) : Nat := ctz_fuel 32 x

/-- The word value a policy scans for occupied slots: the raw word for
the rehash policy, `word & 0x55555555` (VALID low bits only) for the
marker policy. -/
def occWord (p : erase_policy) (w : Nat) : Nat :=
  match p with
  | .rehash => w
  | .use_marker => w &&& 0x55555555

/-- The word-scanning loop shared by `get_first` and the second phase of
`get_next`: find the first word (starting at index `word`) whose occupancy
view is nonzero and return the slot of its lowest occupied bit. -/
def scan_words (p : erase_policy) : List Nat → Nat → Option Nat
  | [], _ => none
  | w :: rest, word =>
    if occWord p w = 0 then scan_words p rest (word + 1)
    else some (word * META_ELEMENTS_PER_WORD p +
               bsf32_nonzero (occWord p w) / META_BITS_PER_ELEMENT p)

/-- `get_first`: scan the `num_valid_words` metadata words for the first
occupied slot; `none` models the `~size_t(0)` sentinel. -/
def get_first (p : erase_policy) (st : table_data_t) : Option Nat :=
  scan_words p (st.valid.take (num_valid_words p st)) 0

/-- The same-word mask of `get_next`: for the rehash policy
`(~meta_t(0) << (off * 1)) << 1` (bits strictly above `off`), for the
marker policy `~meta_t(0) << (off * 2 + 1)` (later intersected with
`0x55555555`). -/
def next_mask (p : erase_policy) (w off : Nat) : Nat :=
  match p with
  | .rehash => w &&& ((0xFFFFFFFF <<< (off * 1)) <<< 1)
  | .use_marker => w &&& (0xFFFFFFFF <<< (off * 2 + 1))

/-- `get_next(old_pos)`: continue the bitmap scan after slot `old_pos`.
The word-aligned base `old_pos & ~(EPW - 1)` is written
`old_pos / EPW * EPW`. -/
def get_next (p : erase_policy) (st : table_data_t) (old_pos : Nat) : Option Nat :=
  let word0 := old_pos / META_ELEMENTS_PER_WORD p
  let w := st.valid.getD word0 0
  let nm := occWord p (next_mask p w (old_pos &&& (META_ELEMENTS_PER_WORD p - 1)))
  if nm ≠ 0 then
    some (old_pos / META_ELEMENTS_PER_WORD p * META_ELEMENTS_PER_WORD p +
          bsf32_nonzero nm / META_BITS_PER_ELEMENT p)
  else
    scan_words p ((st.valid.take (num_valid_words p st)).drop (word0 + 1)) (word0 + 1)

/-- Iteration tail: repeated `get_next` until the end sentinel. -/
def iter_go (p : erase_policy) (st : table_data_t) : Nat → Nat → List Nat
  | 0, _ => []
  | fuel + 1, pos =>
    match get_next p st pos with
    | none => []
    | some q => q :: iter_go p st fuel q

/-- The full iteration sequence `begin()` .. `end()`:
`get_first` then repeated `get_next`. -/
def iter_list (p : erase_policy) (st : table_data_t) : List Nat :=
  match get_first p st with
  | none => []
  | some q => q :: iter_go p st (st.capacity_minus_1 + 1) q

/-- The rehash loop of `increase_table_size`: re-insert the listed
occupied slots of `old` into `acc` via the `add_new` walk.  The C++
source asserts that this walk neither grows nor fails
(`assert(&data == &this->data)`, `assert(0)`); those paths are `none`. -/
def rehash_into (p : erase_policy) (hash : Nat → Nat) (old : table_data_t) :
    List Nat → table_data_t → Option table_data_t
  | [], acc => some acc
  | i :: rest, acc =>
    let key := old.key_table.getD i 0
    let orig_idx := hash key &&& acc.capacity_minus_1
    match add_new_loop p acc key (old.value_table.getD i 0)
        (acc.capacity_minus_1 + 1) orig_idx orig_idx with
    | .placed acc' _ => rehash_into p hash old rest acc'
    | _ => none

/-- `increase_table_size(new_size)`: allocate fresh data of the new
capacity, re-insert every occupied slot in iteration order
(`get_first` / `get_next`), destroy the originals (byte-level no-op) and
replace the data. -/
def increase_table_size (p : erase_policy) (hash : Nat → Nat)
    (st : table_data_t) (new_size : Nat) : Option table_data_t :=
  rehash_into p hash st (iter_list p st) (fresh_data p new_size)

/-- The `restart` loop of `add_new`: run a walk pass; on `need_grow`,
double the capacity and restart.  The fuel bounds the number of growth
rounds; `size + 2` rounds always suffice (each round doubles the
capacity, and growth requires `size * 2 > capacity - 1`). -/
def add_new_go (p : erase_policy) (hash : Nat → Nat) (key value hashval : Nat) :
    Nat → table_data_t → Option (table_data_t × Nat)
  | 0, _ => none
  | gfuel + 1, st =>
    let orig_idx := hashval &&& st.capacity_minus_1
    match add_new_loop p st key value (st.capacity_minus_1 + 1) orig_idx orig_idx with
    | .placed st' idx => some (st', idx)
    | .need_grow =>
      match increase_table_size p hash st ((st.capacity_minus_1 + 1) * 2) with
      | some st' => add_new_go p hash key value hashval gfuel st'
      | none => none
    | .exhausted => none

/-- `add_new(key, value, data, hash)`. -/
def add_new (p : erase_policy) (hash : Nat → Nat) (st : table_data_t)
    (key value hashval : Nat) : Option (table_data_t × Nat) :=
  add_new_go p hash key value hashval (st.size + 2) st

/-- Public `insert(key, value)`: look up, return `false` without
modification if present, otherwise `add_new` and return `true`. -/
def insert (p : erase_policy) (hash : Nat → Nat) (st : table_data_t)
    (key value : Nat) : Option (Bool × table_data_t) :=
  let hashval := hash key
  match get_index p st key hashval with
  | some _ => some (false, st)
  | none =>
    match add_new p hash st key value hashval with
    | some (st', _) => some (true, st')
    | none => none

/-- The skip condition of the backward-shift loop in
`erase_policy_rehash::do_erase`:
`(idx <= idx2) ? ((idx < key2) && (key2 <= idx2)) : ((idx < key2) || (key2 <= idx2))`,
i.e. the home slot `key2` lies strictly inside the circular interval
`(idx, idx2]`. -/
def shift_keep (idx idx2 key2 : Nat) : Prop :=
  if idx ≤ idx2 then idx < key2 ∧ key2 ≤ idx2 else idx < key2 ∨ key2 ≤ idx2

instance (idx idx2 key2 : Nat) : Decidable (shift_keep idx idx2 key2) := by
  unfold shift_keep; infer_instance

/-- Move the entry at `idx2` into the hole `idx` during backward-shift:
construct key and value at `idx` from `idx2`, destroy them at `idx2`
(byte-level no-op), mark `idx` VALID (`|=` into the pre-cleared field)
and clear `idx2` (done by the next loop-head in the C++ source; nothing
is read in between). -/
def shift_entry (p : erase_policy) (st : table_data_t) (idx idx2 : Nat) : table_data_t :=
  clearStatus p (orStatus p
    { st with
        key_table := st.key_table.set idx (st.key_table.getD idx2 0)
        value_table := st.value_table.set idx (st.value_table.getD idx2 0) }
    idx (fieldMask p)) idx2

/-- The backward-shift loop of `erase_policy_rehash::do_erase` after the
initial clearing of the erased slot.  `idx` is the current hole, `idx2`
the probe cursor; each step advances `idx2`, stops on an EMPTY slot,
skips entries whose home is strictly inside `(idx, idx2]` and otherwise
shifts the entry into the hole.  Fuel exhaustion (never reached with the
fuel chosen in `do_erase_rehash`) returns the state unchanged. -/
def do_erase_loop (hash : Nat → Nat) (st : table_data_t) (idx idx2 : Nat) :
    Nat → table_data_t
  | 0 => st
  | fuel + 1 =>
    if getStatus .rehash st ((idx2 + 1) &&& st.capacity_minus_1) = INVALID then st
    else if shift_keep idx ((idx2 + 1) &&& st.capacity_minus_1)
        (hash (st.key_table.getD ((idx2 + 1) &&& st.capacity_minus_1) 0) &&&
          st.capacity_minus_1) then
      do_erase_loop hash st idx ((idx2 + 1) &&& st.capacity_minus_1) fuel
    else
      do_erase_loop hash (shift_entry .rehash st idx ((idx2 + 1) &&& st.capacity_minus_1))
        ((idx2 + 1) &&& st.capacity_minus_1) ((idx2 + 1) &&& st.capacity_minus_1) fuel

/-- `erase_policy_rehash::do_erase(orig_idx, ...)`: clear the erased slot
and run the backward-shift loop.  The fuel `C^3 + C` dominates the loop
measure `C * (total home displacement) + (cursor distance)`, which
strictly decreases every iteration. -/
def do_erase_rehash (hash : Nat → Nat) (st : table_data_t) (orig_idx : Nat) : table_data_t :=
  let c := st.capacity_minus_1 + 1
  do_erase_loop hash (clearStatus .rehash st orig_idx) orig_idx orig_idx (c * c * c + c)

/-- `erase_policy_use_marker::do_erase(idx, ...)`: overwrite the state
field with DELETED, no rearrangement. -/
def do_erase_marker (st : table_data_t) (idx : Nat) : table_data_t :=
  setStatus .use_marker st idx DELETED

/-- Public `erase(key)`: locate the key (no-op when absent), destroy key
and value at the slot (byte-level no-op), apply the policy's `do_erase`,
decrement `size`. -/
def erase (p : erase_policy) (hash : Nat → Nat) (st : table_data_t) (key : Nat) :
    table_data_t :=
  match get_index p st key (hash key) with
  | none => st
  | some idx =>
    match p with
    | .rehash =>
      let st' := do_erase_rehash hash st idx
      { st' with size := st'.size - 1 }
    | .use_marker =>
      let st' := do_erase_marker st idx
      { st' with size := st'.size - 1 }

/-- Public `count(key)`: 1 when the lookup succeeds, 0 otherwise. -/
def count (p : erase_policy) (hash : Nat → Nat) (st : table_data_t) (key : Nat) : Nat :=
  match get_index p st key (hash key) with
  | some _ => 1
  | none => 0

/-- Public `find(key)`: the iterator position, `none` for `end()`
(the `~size_t(0)` sentinel). -/
def find (p : erase_policy) (hash : Nat → Nat) (st : table_data_t) (key : Nat) : Option Nat :=
  get_index p st key (hash key)

/-- Public `capacity()`. -/
def capacity (st : table_data_t) : Nat := st.capacity_minus_1 + 1

/-- `internal::round_up_to_next_power_of_2(uint32_t)`: the bit-smearing
computation with `uint32_t` wrap-around.  (The copy of this helper in one
`common.h` variant falls off the end without a `return` statement; this
is the value its statements compute, which the other variant returns.) -/
def round_up_to_next_power_of_2_u32 (orig : Nat) : Nat :=
  let v0 := (orig + 0xFFFFFFFF) % 0x100000000
  let v1 := v0 ||| (v0 >>> 1)
  let v2 := v1 ||| (v1 >>> 2)
  let v3 := v2 ||| (v2 >>> 4)
  let v4 := v3 ||| (v3 >>> 8)
  let v5 := v4 ||| (v4 >>> 16)
  (v5 + 1) % 0x100000000

/-- `internal::round_up_to_next_power_of_2(uint64_t)`. -/
def round_up_to_next_power_of_2_u64 (orig : Nat) : Nat :=
  let v0 := (orig + 0xFFFFFFFFFFFFFFFF) % 0x10000000000000000
  let v1 := v0 ||| (v0 >>> 1)
  let v2 := v1 ||| (v1 >>> 2)
  let v3 := v2 ||| (v2 >>> 4)
  let v4 := v3 ||| (v3 >>> 8)
  let v5 := v4 ||| (v4 >>> 16)
  let v6 := v5 ||| (v5 >>> 32)
  (v6 + 1) % 0x10000000000000000

/-- Public `reserve(new_capacity)`: no-op unless the request exceeds the
current capacity; otherwise round up to the next power of two (the
`size_t` argument selects the `uint64_t` overload) and grow directly. -/
def reserve (p : erase_policy) (hash : Nat → Nat) (st : table_data_t)
    (new_capacity : Nat) : Option table_data_t :=
  if new_capacity > st.capacity_minus_1 + 1 then
    increase_table_size p hash st (round_up_to_next_power_of_2_u64 new_capacity)
  else some st

/-- Public `clear()`: destroy every occupied entry (byte-level no-op),
memset the metadata words to zero, reset `size`; capacity preserved. -/
def clear (p : erase_policy) (st : table_data_t) : table_data_t :=
  { st with
      valid := List.replicate ((capacity st + (META_ELEMENTS_PER_WORD p - 1)) /
        META_ELEMENTS_PER_WORD p) 0
      size := 0 }

/-- Public `operator[]`: return the slot of the present entry, otherwise
insert a default-constructed value (`V()` is 0 for `V = Nat`) and return
its slot; paired with the possibly grown table. -/
def op_index (p : erase_policy) (hash : Nat → Nat) (st : table_data_t)
    (key : Nat) : Option (table_data_t × Nat) :=
  let hashval := hash key
  match get_index p st key hashval with
  | some idx => some (st, idx)
  | none => add_new p hash st key 0 hashval

/-!
The standalone `closed_linear_probing_hash_table2` (rehash-on-erase,
`META_BITS_PER_ELEMENT = 1`, `META_ELEMENTS_PER_WORD = 32`).  Its
`data_t` has the same shape as the policy-based table's, so
`table_data_t` is reused; its member functions are embedded separately
below (suffix `2`) because their bodies differ in small ways from the
policy-based table (boolean tests on the one-bit field, `|=` stores, a
linear rather than bit-scan rehash loop, `memcpy` relocation).
-/

/-- `data_t(size_t capacity)` of `closed_linear_probing_hash_table2`. -/
def fresh_data2 (capacity : Nat) : table_data_t :=
  { key_table := List.replicate capacity 0
    value_table := List.replicate capacity 0
    valid := List.replicate ((capacity + 31) / 32) 0
    size := 0
    capacity_minus_1 := capacity - 1 }

/-- The default constructor of `closed_linear_probing_hash_table2`. -/
def empty_table2 (default_size : Nat) : table_data_t :=
  fresh_data2 default_size

/-- Read the one-bit state of slot `idx` in table2:
`(valid[idx / 32] >> (1 * (idx & 31))) & ((meta_t(1) << 1) - 1)`. -/
def getStatus_2 (st : table_data_t) (idx : Nat) : Nat :=
  (st.valid.getD (idx / 32) 0 >>> (1 * (idx &&& 31))) &&& 1

/-- `valid[word] &= ~(((meta_t(1) << 1) - 1) << (1 * (idx & 31)))`. -/
def clearStatus_2 (st : table_data_t) (idx : Nat) : table_data_t :=
  let word := idx / 32
  let w := st.valid.getD word 0
  { st with valid := st.valid.set word (w &&& not32 (1 <<< (1 * (idx &&& 31)))) }

/-- `valid[word] |= v << (1 * (idx & 31))`. -/
def orStatus_2 (st : table_data_t) (idx v : Nat) : table_data_t :=
  let word := idx / 32
  let w := st.valid.getD word 0
  { st with valid := st.valid.set word (w ||| (v <<< (1 * (idx &&& 31)))) }

/-- The probing loop of table2's `get_index`: like the policy-based one
but with `if (!m) break;` and an unguarded key comparison afterwards. -/
def get_index_loop2 (st : table_data_t) (key : Nat) : Nat → Nat → Nat → Option Nat
  | 0, _, _ => none
  | fuel + 1, orig_idx, idx =>
    if getStatus_2 st idx = 0 then none
    else if st.key_table.getD idx 0 = key then some idx
    else if (idx + 1) &&& st.capacity_minus_1 = orig_idx then none
    else get_index_loop2 st key fuel orig_idx ((idx + 1) &&& st.capacity_minus_1)

/-- Table2's `get_index(valid, key, data, hash)`. -/
def get_index2 (st : table_data_t) (key hashval : Nat) : Option Nat :=
  let orig_idx := hashval &&& st.capacity_minus_1
  get_index_loop2 st key (st.capacity_minus_1 + 1) orig_idx orig_idx

/-- Table2's in-place store: `*valid_ptr |= 1u << (1 * (idx & 31))`,
construct key and value, increment `size`. -/
def store_at2 (st : table_data_t) (idx key value : Nat) : table_data_t :=
  let st' := orStatus_2 st idx 1
  { st' with
      key_table := st'.key_table.set idx key
      value_table := st'.value_table.set idx value
      size := st'.size + 1 }

/-- One pass of table2's `add_new` walk: accept `if (!(valid_val & 1))`. -/
def add_new_loop2 (st : table_data_t) (key value : Nat) : Nat → Nat → Nat → add_result
  | 0, _, _ => .exhausted
  | fuel + 1, orig_idx, idx =>
    if getStatus_2 st idx = 0 then
      .placed (store_at2 st idx key value) idx
    else if st.size * 2 > st.capacity_minus_1 then .need_grow
    else if (idx + 1) &&& st.capacity_minus_1 = orig_idx then .exhausted
    else add_new_loop2 st key value fuel orig_idx ((idx + 1) &&& st.capacity_minus_1)

/-- Table2's rehash loop in `increase_table_size`: a linear scan
`for (i = 0; i <= capacity_minus_1; i++) if (valid_val & 1) add_new(...)`. -/
def rehash_linear2 (hash : Nat → Nat) (old : table_data_t) :
    List Nat → table_data_t → Option table_data_t
  | [], acc => some acc
  | i :: rest, acc =>
    if getStatus_2 old i ≠ 0 then
      let key := old.key_table.getD i 0
      let orig_idx := hash key &&& acc.capacity_minus_1
      match add_new_loop2 acc key (old.value_table.getD i 0)
          (acc.capacity_minus_1 + 1) orig_idx orig_idx with
      | .placed acc' _ => rehash_linear2 hash old rest acc'
      | _ => none
    else rehash_linear2 hash old rest acc

/-- Table2's `increase_table_size(new_size)`. -/
def increase_table_size2 (hash : Nat → Nat) (st : table_data_t) (new_size : Nat) :
    Option table_data_t :=
  rehash_linear2 hash st (List.range (st.capacity_minus_1 + 1)) (fresh_data2 new_size)

/-- Table2's `add_new` restart loop. -/
def add_new_go2 (hash : Nat → Nat) (key value hashval : Nat) :
    Nat → table_data_t → Option (table_data_t × Nat)
  | 0, _ => none
  | gfuel + 1, st =>
    let orig_idx := hashval &&& st.capacity_minus_1
    match add_new_loop2 st key value (st.capacity_minus_1 + 1) orig_idx orig_idx with
    | .placed st' idx => some (st', idx)
    | .need_grow =>
      match increase_table_size2 hash st ((st.capacity_minus_1 + 1) * 2) with
      | some st' => add_new_go2 hash key value hashval gfuel st'
      | none => none
    | .exhausted => none

/-- Table2's `add_new(key, value, data, hash)`. -/
def add_new2 (hash : Nat → Nat) (st : table_data_t) (key value hashval : Nat) :
    Option (table_data_t × Nat) :=
  add_new_go2 hash key value hashval (st.size + 2) st

/-- Table2's public `insert(key, value)`. -/
def insert2 (hash : Nat → Nat) (st : table_data_t) (key value : Nat) :
    Option (Bool × table_data_t) :=
  let hashval := hash key
  match get_index2 st key hashval with
  | some _ => some (false, st)
  | none =>
    match add_new2 hash st key value hashval with
    | some (st', _) => some (true, st')
    | none => none

/-- The relocation step of table2's erase loop: `memcpy` the key and
value bytes from `idx2` to `idx`, then `valid[word] |= mask << shift`
for `idx`; `idx2` is cleared by the next loop head. -/
def shift_entry2 (st : table_data_t) (idx idx2 : Nat) : table_data_t :=
  clearStatus_2 (orStatus_2
    { st with
        key_table := st.key_table.set idx (st.key_table.getD idx2 0)
        value_table := st.value_table.set idx (st.value_table.getD idx2 0) }
    idx 1) idx2

/-- The backward-shift loop embedded in table2's `erase`; identical
control structure to `erase_policy_rehash::do_erase`. -/
def do_erase_loop2 (hash : Nat → Nat) (st : table_data_t) (idx idx2 : Nat) :
    Nat → table_data_t
  | 0 => st
  | fuel + 1 =>
    if getStatus_2 st ((idx2 + 1) &&& st.capacity_minus_1) = 0 then st
    else if shift_keep idx ((idx2 + 1) &&& st.capacity_minus_1)
        (hash (st.key_table.getD ((idx2 + 1) &&& st.capacity_minus_1) 0) &&&
          st.capacity_minus_1) then
      do_erase_loop2 hash st idx ((idx2 + 1) &&& st.capacity_minus_1) fuel
    else
      do_erase_loop2 hash (shift_entry2 st idx ((idx2 + 1) &&& st.capacity_minus_1))
        ((idx2 + 1) &&& st.capacity_minus_1) ((idx2 + 1) &&& st.capacity_minus_1) fuel

/-- Table2's public `erase(key)`: locate, destroy in place, run the
backward-shift loop, decrement `size`. -/
def erase2 (hash : Nat → Nat) (st : table_data_t) (key : Nat) : table_data_t :=
  match get_index2 st key (hash key) with
  | none => st
  | some orig_idx =>
    let c := st.capacity_minus_1 + 1
    let st' := do_erase_loop2 hash (clearStatus_2 st orig_idx) orig_idx orig_idx
      (c * c * c + c)
    { st' with size := st'.size - 1 }

/-- Table2's `get_first`: scan raw metadata words for the first nonzero
one; slot `word * 32 + bsf(word_value) / 1`. -/
def get_first2 (st : table_data_t) : Option Nat :=
  scan_words .rehash (st.valid.take ((st.capacity_minus_1 + 32) / 32)) 0

/-- Table2's `get_next(old_pos)`:
same-word mask `*valid_ptr & ((~meta_t(0)) << ((old_pos & 31) * 1) << 1)`,
then word-wise scan. -/
def get_next2 (st : table_data_t) (old_pos : Nat) : Option Nat :=
  let word0 := old_pos / 32
  let w := st.valid.getD word0 0
  let nm := w &&& ((0xFFFFFFFF <<< ((old_pos &&& 31) * 1)) <<< 1)
  if nm ≠ 0 then some (old_pos / 32 * 32 + bsf32_nonzero nm / 1)
  else scan_words .rehash ((st.valid.take ((st.capacity_minus_1 + 32) / 32)).drop (word0 + 1))
    (word0 + 1)

/-- Table2's iteration tail. -/
def iter_go2 (st : table_data_t) : Nat → Nat → List Nat
  | 0, _ => []
  | fuel + 1, pos =>
    match get_next2 st pos with
    | none => []
    | some q => q :: iter_go2 st fuel q

/-- Table2's full iteration sequence. -/
def iter_list2 (st : table_data_t) : List Nat :=
  match get_first2 st with
  | none => []
  | some q => q :: iter_go2 st (st.capacity_minus_1 + 1) q

/-- Table2's public `count(key)`. -/
def count2 (hash : Nat → Nat) (st : table_data_t) (key : Nat) : Nat :=
  match get_index2 st key (hash key) with
  | some _ => 1
  | none => 0

/-- Table2's public `find(key)`. -/
def find2 (hash : Nat → Nat) (st : table_data_t) (key : Nat) : Option Nat :=
  get_index2 st key (hash key)

/-- Table2's public `reserve(new_capacity)`.  The source spells the
member `capcity_minus_1`, an identifier that does not exist (the member
function is ill-formed if ever instantiated); following the
specification's stated reading, the obvious `capacity_minus_1` is
modelled. -/
def reserve2 (hash : Nat → Nat) (st : table_data_t) (new_capacity : Nat) :
    Option table_data_t :=
  if new_capacity > st.capacity_minus_1 + 1 then
    increase_table_size2 hash st (round_up_to_next_power_of_2_u64 new_capacity)
  else some st

/-- Table2's public `clear()`. -/
def clear2 (st : table_data_t) : table_data_t :=
  { st with valid := List.replicate ((st.capacity_minus_1 + 1 + 31) / 32) 0, size := 0 }

/-- Table2's public `operator[]`. -/
def op_index2 (hash : Nat → Nat) (st : table_data_t) (key : Nat) :
    Option (table_data_t × Nat) :=
  let hashval := hash key
  match get_index2 st key hashval with
  | some idx => some (st, idx)
  | none => add_new2 hash st key 0 hashval

def dista (c a x : Nat) : Nat := if a ≤ x then x - a else c + x - a
/-- Well-formedness of a table state:
capacity is a positive power of two; the three arrays have their declared
lengths; metadata words fit in `uint32_t`; every in-range slot state is
EMPTY, OCCUPIED or (marker policy) DELETED; slots beyond the capacity
read EMPTY; `size` counts the OCCUPIED slots; OCCUPIED slots hold
pairwise distinct keys; and probe-chain integrity: for every OCCUPIED
slot `pos` and every EMPTY slot `q`, the home slot of the key at `pos`
lies strictly inside the circular interval `(q, pos]` (equivalently, the
probe path from the home slot to `pos` crosses no EMPTY slot). -/
structure WF (p : erase_policy) (hash : Nat → Nat) (st : table_data_t) : Prop where
  cap_pow : ∃ t, st.capacity_minus_1 + 1 = 2 ^ t
  keys_len : st.key_table.length = st.capacity_minus_1 + 1
  vals_len : st.value_table.length = st.capacity_minus_1 + 1
  words_len : st.valid.length = num_valid_words p st
  words_lt : ∀ w ∈ st.valid, w < 2 ^ 32
  status_le : ∀ i, i ≤ st.capacity_minus_1 → getStatus p st i ≤ DELETED
  tail_zero : ∀ i, st.capacity_minus_1 < i → getStatus p st i = 0
  size_eq : st.size = ((List.range (st.capacity_minus_1 + 1)).filter
      (fun i => getStatus p st i = VALID)).length
  uniq : ∀ i j, i ≤ st.capacity_minus_1 → j ≤ st.capacity_minus_1 →
      getStatus p st i = VALID → getStatus p st j = VALID →
      st.key_table.getD i 0 = st.key_table.getD j 0 → i = j
  chain : ∀ pos q, pos ≤ st.capacity_minus_1 → q ≤ st.capacity_minus_1 →
      getStatus p st pos = VALID → getStatus p st q = INVALID →
      shift_keep q pos (hash (st.key_table.getD pos 0) &&& st.capacity_minus_1)
/-- The abstract key-value map of a table state. -/
def mapsTo (p : erase_policy) (st : table_data_t) (k v : Nat) : Prop :=
  ∃ i, i ≤ st.capacity_minus_1 ∧ getStatus p st i = VALID ∧
    st.key_table.getD i 0 = k ∧ st.value_table.getD i 0 = v
/-- The total displacement of the occupied entries from their home
slots; the strictly decreasing part of the loop measure. -/
def dispSum (hash : Nat → Nat) (st : table_data_t) : Nat :=
  ∑ x ∈ Finset.range (st.capacity_minus_1 + 1),
    (if getStatus .rehash st x = VALID then
      dista (st.capacity_minus_1 + 1)
        (hash (st.key_table.getD x 0) &&& st.capacity_minus_1) x
     else 0)
/-- Loop invariant of the backward-shift erase: `st0` is the state
before the erase, `i0` the erased slot, `cur` the current state, `i` the
current hole and `j` the probe cursor. -/
structure EraseInv (hash : Nat → Nat) (st0 : table_data_t) (i0 : Nat)
    (cur : table_data_t) (i j : Nat) : Prop where
  cap : cur.capacity_minus_1 = st0.capacity_minus_1
  klen : cur.key_table.length = st0.capacity_minus_1 + 1
  vlen : cur.value_table.length = st0.capacity_minus_1 + 1
  wlen : cur.valid.length = num_valid_words .rehash cur
  wlt : ∀ w ∈ cur.valid, w < 2 ^ 32
  hi : i ≤ st0.capacity_minus_1
  hj : j ≤ st0.capacity_minus_1
  hole : getStatus .rehash cur i = INVALID
  seg : ∀ x, x ≤ st0.capacity_minus_1 → shift_keep i j x →
    getStatus .rehash cur x = VALID
  empt : ∀ x, x ≤ st0.capacity_minus_1 → getStatus .rehash cur x = INVALID →
    x = i ∨ getStatus .rehash st0 x = INVALID
  tail : ∀ x, st0.capacity_minus_1 < x → getStatus .rehash cur x = 0
  cnt : ((List.range (st0.capacity_minus_1 + 1)).filter
      (fun x => decide (getStatus .rehash cur x = VALID))).length + 1 =
    ((List.range (st0.capacity_minus_1 + 1)).filter
      (fun x => decide (getStatus .rehash st0 x = VALID))).length
  content : ∀ x, x ≤ st0.capacity_minus_1 → getStatus .rehash cur x = VALID →
    ∃ y, y ≤ st0.capacity_minus_1 ∧ y ≠ i0 ∧ getStatus .rehash st0 y = VALID ∧
      st0.key_table.getD y 0 = cur.key_table.getD x 0 ∧
      st0.value_table.getD y 0 = cur.value_table.getD x 0
  complete : ∀ y, y ≤ st0.capacity_minus_1 → y ≠ i0 → getStatus .rehash st0 y = VALID →
    ∃ x, x ≤ st0.capacity_minus_1 ∧ getStatus .rehash cur x = VALID ∧
      cur.key_table.getD x 0 = st0.key_table.getD y 0 ∧
      cur.value_table.getD x 0 = st0.value_table.getD y 0
  uniqc : ∀ x1 x2, x1 ≤ st0.capacity_minus_1 → x2 ≤ st0.capacity_minus_1 →
    getStatus .rehash cur x1 = VALID → getStatus .rehash cur x2 = VALID →
    cur.key_table.getD x1 0 = cur.key_table.getD x2 0 → x1 = x2
  chain1 : ∀ pos q, pos ≤ st0.capacity_minus_1 → q ≤ st0.capacity_minus_1 →
    getStatus .rehash cur pos = VALID → getStatus .rehash cur q = INVALID → q ≠ i →
    shift_keep q pos (hash (cur.key_table.getD pos 0) &&& st0.capacity_minus_1)
  chain2 : ∀ pos, pos ≤ st0.capacity_minus_1 → getStatus .rehash cur pos = VALID →
    shift_keep i j pos →
    shift_keep i pos (hash (cur.key_table.getD pos 0) &&& st0.capacity_minus_1)
/-- Postcondition of the backward-shift loop. -/
structure ErasePost (hash : Nat → Nat) (st0 : table_data_t) (i0 : Nat)
    (st' : table_data_t) : Prop where
  cap : st'.capacity_minus_1 = st0.capacity_minus_1
  klen : st'.key_table.length = st0.capacity_minus_1 + 1
  vlen : st'.value_table.length = st0.capacity_minus_1 + 1
  wlen : st'.valid.length = num_valid_words .rehash st'
  wlt : ∀ w ∈ st'.valid, w < 2 ^ 32
  tail : ∀ x, st0.capacity_minus_1 < x → getStatus .rehash st' x = 0
  cnt : ((List.range (st0.capacity_minus_1 + 1)).filter
      (fun x => decide (getStatus .rehash st' x = VALID))).length + 1 =
    ((List.range (st0.capacity_minus_1 + 1)).filter
      (fun x => decide (getStatus .rehash st0 x = VALID))).length
  content : ∀ x, x ≤ st0.capacity_minus_1 → getStatus .rehash st' x = VALID →
    ∃ y, y ≤ st0.capacity_minus_1 ∧ y ≠ i0 ∧ getStatus .rehash st0 y = VALID ∧
      st0.key_table.getD y 0 = st'.key_table.getD x 0 ∧
      st0.value_table.getD y 0 = st'.value_table.getD x 0
  complete : ∀ y, y ≤ st0.capacity_minus_1 → y ≠ i0 → getStatus .rehash st0 y = VALID →
    ∃ x, x ≤ st0.capacity_minus_1 ∧ getStatus .rehash st' x = VALID ∧
      st'.key_table.getD x 0 = st0.key_table.getD y 0 ∧
      st'.value_table.getD x 0 = st0.value_table.getD y 0
  uniqc : ∀ x1 x2, x1 ≤ st0.capacity_minus_1 → x2 ≤ st0.capacity_minus_1 →
    getStatus .rehash st' x1 = VALID → getStatus .rehash st' x2 = VALID →
    st'.key_table.getD x1 0 = st'.key_table.getD x2 0 → x1 = x2
  chain : ∀ pos q, pos ≤ st0.capacity_minus_1 → q ≤ st0.capacity_minus_1 →
    getStatus .rehash st' pos = VALID → getStatus .rehash st' q = INVALID →
    shift_keep q pos (hash (st'.key_table.getD pos 0) &&& st0.capacity_minus_1)
/-- An abstract operation of the common public interface of the two
tables; the observation-only operations (`find`, `count`, `size`,
`capacity`, iteration) are pure and compared separately. -/
inductive Op where
  | ins (k v : Nat)
  | del (k : Nat)
  | sub (k : Nat)
  | res (m : Nat)
  | clr

/-- The asserted input ranges: `reserve` arguments stay within the
`round_up_to_next_power_of_2` precondition. -/
def Op.ok : Op → Prop
  | .res m => m ≤ 2 ^ 63
  | _ => True

/-- Run a sequence of operations on the policy-based table
(`erase_policy_rehash`); `none` models any hit `assert`. -/
def run1 (hash : Nat → Nat) : table_data_t → List Op → Option table_data_t
  | st, [] => some st
  | st, op :: rest =>
    match op with
    | .ins k v =>
      match insert .rehash hash st k v with
      | some (_, st') => run1 hash st' rest
      | none => none
    | .del k => run1 hash (erase .rehash hash st k) rest
    | .sub k =>
      match op_index .rehash hash st k with
      | some (st', _) => run1 hash st' rest
      | none => none
    | .res m =>
      match reserve .rehash hash st m with
      | some st' => run1 hash st' rest
      | none => none
    | .clr => run1 hash (clear .rehash st) rest

/-- Run the same sequence on `closed_linear_probing_hash_table2`. -/
def run2 (hash : Nat → Nat) : table_data_t → List Op → Option table_data_t
  | st, [] => some st
  | st, op :: rest =>
    match op with
    | .ins k v =>
      match insert2 hash st k v with
      | some (_, st') => run2 hash st' rest
      | none => none
    | .del k => run2 hash (erase2 hash st k) rest
    | .sub k =>
      match op_index2 hash st k with
      | some (st', _) => run2 hash st' rest
      | none => none
    | .res m =>
      match reserve2 hash st m with
      | some st' => run2 hash st' rest
      | none => none
    | .clr => run2 hash (clear2 st) rest

/-!  Bit-field toolkit: reading and writing `B`-bit fields of 32-bit
metadata words. -/

/-- Extraction of the `B`-bit field at bit offset `sh` of a word. -/
def extractF (B sh w : Nat) : Nat := (w >>> sh) &&& (2 ^ B - 1)

theorem testBit_extractF (B sh w i : Nat) :
    (extractF B sh w).testBit i = (w.testBit (sh + i) && decide (i < B)) := by
  simp only [extractF, Nat.testBit_and, Nat.testBit_shiftRight, Nat.testBit_two_pow_sub_one]

theorem extractF_lt (B sh w : Nat) : extractF B sh w < 2 ^ B :=
  Nat.and_lt_two_pow _ (Nat.sub_lt (Nat.pos_pow_of_pos _ (by omega)) (by omega))

theorem extractF_le (B sh w : Nat) : extractF B sh w ≤ 2 ^ B - 1 :=
  Nat.le_of_lt_succ (by have := extractF_lt B sh w; omega)

theorem testBit_not32 (m k : Nat) :
    (not32 m).testBit k = (m.testBit k != decide (k < 32)) := by
  have h : (0xFFFFFFFF : Nat) = 2 ^ 32 - 1 := by norm_num
  rw [not32, h, Nat.testBit_xor, Nat.testBit_two_pow_sub_one]

theorem testBit_mask_shifted (B sh k : Nat) :
    ((2 ^ B - 1) <<< sh).testBit k = decide (sh ≤ k ∧ k - sh < B) := by
  rcases Nat.lt_or_ge k sh with h | h
  · simp [Nat.testBit_shiftLeft, Nat.not_le.mpr h, h]
  · simp [Nat.testBit_shiftLeft, h, Nat.le_of_lt, Nat.testBit_two_pow_sub_one]

/-- Clearing a field zeroes it. -/
theorem extractF_clear_self (B sh w : Nat) (hsh : sh + B ≤ 32) :
    extractF B sh (w &&& not32 ((2 ^ B - 1) <<< sh)) = 0 := by
  apply Nat.eq_of_testBit_eq
  intro i
  rcases Nat.lt_or_ge i B with hi | hi
  · simp only [testBit_extractF, Nat.testBit_and, testBit_not32, testBit_mask_shifted,
      Nat.zero_testBit]
    have h1 : sh ≤ sh + i ∧ sh + i - sh < B := ⟨Nat.le_add_right _ _, by omega⟩
    have h2 : sh + i < 32 := by omega
    simp [h1, h2]
  · simp [testBit_extractF, Nat.not_lt.mpr hi]

/-- Clearing a field leaves disjoint fields unchanged. -/
theorem extractF_clear_other (B B' sh sh' w : Nat) (hw : w < 2 ^ 32)
    (hdisj : sh' + B' ≤ sh ∨ sh + B ≤ sh') :
    extractF B' sh' (w &&& not32 ((2 ^ B - 1) <<< sh)) = extractF B' sh' w := by
  apply Nat.eq_of_testBit_eq
  intro i
  rcases Nat.lt_or_ge i B' with hi | hi
  · simp only [testBit_extractF, Nat.testBit_and, testBit_not32, testBit_mask_shifted]
    rcases Nat.lt_or_ge (sh' + i) 32 with h32 | h32
    · have hnot : ¬(sh ≤ sh' + i ∧ sh' + i - sh < B) := by omega
      simp [hnot, h32]
    · have : w.testBit (sh' + i) = false :=
        Nat.testBit_lt_two_pow (lt_of_lt_of_le hw (Nat.pow_le_pow_right (by omega) h32))
      simp [this]
  · simp [testBit_extractF, Nat.not_lt.mpr hi]

/-- Or-ing a value into a zero field deposits it. -/
theorem extractF_or_self (B sh w v : Nat) (hzero : extractF B sh w = 0) (hv : v < 2 ^ B) :
    extractF B sh (w ||| (v <<< sh)) = v := by
  apply Nat.eq_of_testBit_eq
  intro i
  rcases Nat.lt_or_ge i B with hi | hi
  · have hwb : w.testBit (sh + i) = false := by
      have := congrArg (fun x => x.testBit i) hzero
      simpa [testBit_extractF, hi] using this
    simp [testBit_extractF, Nat.testBit_or, Nat.testBit_shiftLeft, hwb, hi,
      Nat.le_add_right]
  · have hvb : v.testBit i = false := Nat.testBit_lt_two_pow (lt_of_lt_of_le hv (Nat.pow_le_pow_right (by omega) hi))
    simp [testBit_extractF, Nat.not_lt.mpr hi, hvb]

/-- Or-ing a shifted value leaves disjoint fields unchanged. -/
theorem extractF_or_other (B B' sh sh' w v : Nat) (hv : v < 2 ^ B)
    (hdisj : sh' + B' ≤ sh ∨ sh + B ≤ sh') :
    extractF B' sh' (w ||| (v <<< sh)) = extractF B' sh' w := by
  apply Nat.eq_of_testBit_eq
  intro i
  rcases Nat.lt_or_ge i B' with hi | hi
  · have hvb : (v <<< sh).testBit (sh' + i) = false := by
      rcases Nat.lt_or_ge (sh' + i) sh with h | h
      · simp [Nat.testBit_shiftLeft, Nat.not_le.mpr h]
      · have : v.testBit (sh' + i - sh) = false :=
          Nat.testBit_lt_two_pow (lt_of_lt_of_le hv (Nat.pow_le_pow_right (by omega) (by omega)))
        simp [Nat.testBit_shiftLeft, h, this]
    simp [testBit_extractF, Nat.testBit_or, hvb]
  · simp [testBit_extractF, Nat.not_lt.mpr hi]

theorem and_not32_lt (w m : Nat) (hw : w < 2 ^ 32) : w &&& not32 m < 2 ^ 32 :=
  lt_of_le_of_lt Nat.and_le_left hw

theorem or_shift_lt (w v B sh : Nat) (hw : w < 2 ^ 32) (hv : v < 2 ^ B)
    (hsh : sh + B ≤ 32) : w ||| (v <<< sh) < 2 ^ 32 := by
  apply Nat.or_lt_two_pow hw
  rw [Nat.shiftLeft_eq]
  calc v * 2 ^ sh < 2 ^ B * 2 ^ sh := by
        exact Nat.mul_lt_mul_of_lt_of_le hv (Nat.le_refl _) (Nat.pos_pow_of_pos _ (by omega))
    _ = 2 ^ (B + sh) := by rw [← Nat.pow_add]
    _ ≤ 2 ^ 32 := Nat.pow_le_pow_right (by omega) (by omega)

/-!  Policy constants and the slot-state view of the metadata words. -/

theorem B_pos (p : erase_policy) : 0 < META_BITS_PER_ELEMENT p := by
  cases p <;> simp [META_BITS_PER_ELEMENT]

theorem EPW_pos (p : erase_policy) : 0 < META_ELEMENTS_PER_WORD p := by
  cases p <;> simp [META_ELEMENTS_PER_WORD, META_BITS_PER_ELEMENT]

theorem and_epw_sub_one (p : erase_policy) (i : Nat) :
    i &&& (META_ELEMENTS_PER_WORD p - 1) = i % META_ELEMENTS_PER_WORD p := by
  cases p
  · simpa using Nat.and_pow_two_sub_one_eq_mod i 5
  · simpa using Nat.and_pow_two_sub_one_eq_mod i 4

theorem fieldMask_eq (p : erase_policy) :
    fieldMask p = 2 ^ META_BITS_PER_ELEMENT p - 1 := by
  cases p <;> rfl

theorem metaShift_eq (p : erase_policy) (i : Nat) :
    metaShift p i = META_BITS_PER_ELEMENT p * (i % META_ELEMENTS_PER_WORD p) := by
  rw [metaShift, and_epw_sub_one]

theorem metaShift_add_B_le (p : erase_policy) (i : Nat) :
    metaShift p i + META_BITS_PER_ELEMENT p ≤ 32 := by
  rw [metaShift_eq]
  cases p
  · have : i % 32 < 32 := Nat.mod_lt _ (by omega)
    simp only [META_BITS_PER_ELEMENT, META_ELEMENTS_PER_WORD] at *
    omega
  · have : i % 16 < 16 := Nat.mod_lt _ (by omega)
    simp only [META_BITS_PER_ELEMENT, META_ELEMENTS_PER_WORD] at *
    omega

theorem metaShift_disjoint (p : erase_policy) {i j : Nat}
    (h : i % META_ELEMENTS_PER_WORD p ≠ j % META_ELEMENTS_PER_WORD p) :
    metaShift p i + META_BITS_PER_ELEMENT p ≤ metaShift p j ∨
      metaShift p j + META_BITS_PER_ELEMENT p ≤ metaShift p i := by
  rw [metaShift_eq, metaShift_eq]
  cases p <;> simp only [META_BITS_PER_ELEMENT, META_ELEMENTS_PER_WORD] at * <;> omega

theorem slot_eq_of_word_off (p : erase_policy) {i j : Nat}
    (hw : i / META_ELEMENTS_PER_WORD p = j / META_ELEMENTS_PER_WORD p)
    (ho : i % META_ELEMENTS_PER_WORD p = j % META_ELEMENTS_PER_WORD p) : i = j := by
  have hi := Nat.div_add_mod i (META_ELEMENTS_PER_WORD p)
  have hj := Nat.div_add_mod j (META_ELEMENTS_PER_WORD p)
  rw [hw, ho] at hi
  omega

theorem getStatus_def (p : erase_policy) (st : table_data_t) (i : Nat) :
    getStatus p st i =
      extractF (META_BITS_PER_ELEMENT p) (metaShift p i)
        (st.valid.getD (i / META_ELEMENTS_PER_WORD p) 0) := by
  rw [getStatus, extractF, fieldMask_eq]

theorem getStatus_lt (p : erase_policy) (st : table_data_t) (i : Nat) :
    getStatus p st i < 2 ^ META_BITS_PER_ELEMENT p := by
  rw [getStatus_def]; exact extractF_lt _ _ _

theorem getStatus_rehash_cases (st : table_data_t) (i : Nat) :
    getStatus .rehash st i = 0 ∨ getStatus .rehash st i = 1 := by
  have := getStatus_lt .rehash st i
  simp only [META_BITS_PER_ELEMENT] at this
  omega

theorem extractF_zero (B sh : Nat) : extractF B sh 0 = 0 := by
  simp [extractF]

theorem getD_lt_of_words_lt {l : List Nat} (h : ∀ w ∈ l, w < 2 ^ 32) (n : Nat) :
    l.getD n 0 < 2 ^ 32 := by
  rcases Nat.lt_or_ge n l.length with hn | hn
  · rw [List.getD_eq_getElem?_getD, List.getElem?_eq_getElem hn]
    exact h _ (List.getElem_mem _)
  · rw [List.getD_eq_getElem?_getD, List.getElem?_eq_none hn]
    simp

theorem getD_set_self {l : List Nat} {a : Nat} (h : a < l.length) (x : Nat) :
    (l.set a x).getD a 0 = x := by
  rw [List.getD_eq_getElem?_getD, List.getElem?_set_self (by omega)]
  simp

theorem getD_set_ne {l : List Nat} {a b : Nat} (h : a ≠ b) (x : Nat) :
    (l.set a x).getD b 0 = l.getD b 0 := by
  rw [List.getD_eq_getElem?_getD, List.getElem?_set_ne h, ← List.getD_eq_getElem?_getD]

/-- Simp lemmas: the metadata writes leave the other components alone. -/
@[simp] theorem clearStatus_key_table (p st i) : (clearStatus p st i).key_table = st.key_table := rfl
@[simp] theorem clearStatus_value_table (p st i) : (clearStatus p st i).value_table = st.value_table := rfl
@[simp] theorem clearStatus_size (p st i) : (clearStatus p st i).size = st.size := rfl
@[simp] theorem clearStatus_capm1 (p st i) : (clearStatus p st i).capacity_minus_1 = st.capacity_minus_1 := rfl
@[simp] theorem clearStatus_valid_length (p st i) : (clearStatus p st i).valid.length = st.valid.length := by
  simp [clearStatus]
@[simp] theorem orStatus_key_table (p st i v) : (orStatus p st i v).key_table = st.key_table := rfl
@[simp] theorem orStatus_value_table (p st i v) : (orStatus p st i v).value_table = st.value_table := rfl
@[simp] theorem orStatus_size (p st i v) : (orStatus p st i v).size = st.size := rfl
@[simp] theorem orStatus_capm1 (p st i v) : (orStatus p st i v).capacity_minus_1 = st.capacity_minus_1 := rfl
@[simp] theorem orStatus_valid_length (p st i v) : (orStatus p st i v).valid.length = st.valid.length := by
  simp [orStatus]
@[simp] theorem setStatus_key_table (p st i v) : (setStatus p st i v).key_table = st.key_table := rfl
@[simp] theorem setStatus_value_table (p st i v) : (setStatus p st i v).value_table = st.value_table := rfl
@[simp] theorem setStatus_size (p st i v) : (setStatus p st i v).size = st.size := rfl
@[simp] theorem setStatus_capm1 (p st i v) : (setStatus p st i v).capacity_minus_1 = st.capacity_minus_1 := rfl
@[simp] theorem setStatus_valid_length (p st i v) : (setStatus p st i v).valid.length = st.valid.length := by
  simp [setStatus]

theorem words_lt_clearStatus (p : erase_policy) (st : table_data_t) (i : Nat)
    (h : ∀ w ∈ st.valid, w < 2 ^ 32) :
    ∀ w ∈ (clearStatus p st i).valid, w < 2 ^ 32 := by
  intro w hw
  rcases List.mem_or_eq_of_mem_set hw with h' | h'
  · exact h _ h'
  · subst h'
    exact and_not32_lt _ _ (getD_lt_of_words_lt h _)

theorem words_lt_orStatus (p : erase_policy) (st : table_data_t) (i v : Nat)
    (hv : v < 2 ^ META_BITS_PER_ELEMENT p)
    (h : ∀ w ∈ st.valid, w < 2 ^ 32) :
    ∀ w ∈ (orStatus p st i v).valid, w < 2 ^ 32 := by
  intro w hw
  rcases List.mem_or_eq_of_mem_set hw with h' | h'
  · exact h _ h'
  · subst h'
    exact or_shift_lt _ _ _ _ (getD_lt_of_words_lt h _) hv (metaShift_add_B_le p i)

theorem words_lt_setStatus (p : erase_policy) (st : table_data_t) (i v : Nat)
    (hv : v < 2 ^ META_BITS_PER_ELEMENT p)
    (h : ∀ w ∈ st.valid, w < 2 ^ 32) :
    ∀ w ∈ (setStatus p st i v).valid, w < 2 ^ 32 :=
  words_lt_orStatus p _ i v hv (words_lt_clearStatus p st i h)

/-- Reading after clearing: the cleared slot reads 0, the rest are
unchanged. -/
theorem getStatus_clearStatus (p : erase_policy) (st : table_data_t)
    (hwords : ∀ w ∈ st.valid, w < 2 ^ 32) (i j : Nat) :
    getStatus p (clearStatus p st i) j = if j = i then 0 else getStatus p st j := by
  rcases Nat.lt_or_ge (i / META_ELEMENTS_PER_WORD p) st.valid.length with hlen | hlen
  · split
    · subst i
      rw [getStatus_def, clearStatus]
      simp only []
      rw [getD_set_self hlen]
      rw [fieldMask_eq]
      exact extractF_clear_self _ _ _ (metaShift_add_B_le p j)
    · rename_i hne
      rw [getStatus_def, getStatus_def, clearStatus]
      simp only []
      by_cases hword : j / META_ELEMENTS_PER_WORD p = i / META_ELEMENTS_PER_WORD p
      · rw [hword, getD_set_self hlen]
        have hoff : j % META_ELEMENTS_PER_WORD p ≠ i % META_ELEMENTS_PER_WORD p :=
          fun hc => hne (slot_eq_of_word_off p hword hc)
        rw [fieldMask_eq]
        exact extractF_clear_other _ _ _ _ _ (getD_lt_of_words_lt hwords _)
          (metaShift_disjoint p hoff)
      · rw [getD_set_ne (fun hc => hword hc.symm)]
  · have hcl : clearStatus p st i = st := by
      rw [clearStatus]
      cases st
      simp only [table_data_t.mk.injEq, and_true, true_and]
      exact List.set_eq_of_length_le hlen
    rw [hcl]
    split
    · subst i
      rw [getStatus_def]
      rw [List.getD_eq_getElem?_getD, List.getElem?_eq_none hlen]
      simp [extractF_zero]
    · rfl

/-- Reading after or-ing into a zero field. -/
theorem getStatus_orStatus (p : erase_policy) (st : table_data_t)
    (hwords : ∀ w ∈ st.valid, w < 2 ^ 32) (i j v : Nat)
    (hv : v < 2 ^ META_BITS_PER_ELEMENT p)
    (hz : getStatus p st i = 0)
    (hlen : i / META_ELEMENTS_PER_WORD p < st.valid.length) :
    getStatus p (orStatus p st i v) j = if j = i then v else getStatus p st j := by
  split
  · subst i
    rw [getStatus_def, orStatus]
    simp only []
    rw [getD_set_self hlen]
    exact extractF_or_self _ _ _ _ (by rw [getStatus_def] at hz; exact hz) hv
  · rename_i hne
    rw [getStatus_def, getStatus_def, orStatus]
    simp only []
    by_cases hword : j / META_ELEMENTS_PER_WORD p = i / META_ELEMENTS_PER_WORD p
    · rw [hword, getD_set_self hlen]
      have hoff : j % META_ELEMENTS_PER_WORD p ≠ i % META_ELEMENTS_PER_WORD p :=
        fun hc => hne (slot_eq_of_word_off p hword hc)
      exact extractF_or_other _ _ _ _ _ _ hv (metaShift_disjoint p hoff)
    · rw [getD_set_ne (fun hc => hword hc.symm)]

/-- Reading after the clear-then-set store. -/
theorem getStatus_setStatus (p : erase_policy) (st : table_data_t)
    (hwords : ∀ w ∈ st.valid, w < 2 ^ 32) (i j v : Nat)
    (hv : v < 2 ^ META_BITS_PER_ELEMENT p)
    (hlen : i / META_ELEMENTS_PER_WORD p < st.valid.length) :
    getStatus p (setStatus p st i v) j = if j = i then v else getStatus p st j := by
  rw [setStatus]
  rw [getStatus_orStatus p _ (words_lt_clearStatus p st i hwords) i j v hv
    (by rw [getStatus_clearStatus p st hwords]; simp)
    (by simpa using hlen)]
  split
  · rfl
  · rw [getStatus_clearStatus p st hwords]
    simp_all

/-!  Circular-distance toolkit.  `dista c a x` is the number of forward
steps from `a` to `x` on a ring of `c` slots; `shift_keep a b x` (the
erase predicate of the source) says `x` lies strictly inside the circular
interval `(a, b]`. -/


theorem dista_self (c a : Nat) : dista c a a = 0 := by simp [dista]

theorem dista_lt {c a x : Nat} (ha : a < c) (hx : x < c) : dista c a x < c := by
  unfold dista; split <;> omega

theorem dista_eq_zero_iff {c a x : Nat} (ha : a < c) (hx : x < c) :
    dista c a x = 0 ↔ x = a := by
  unfold dista; split <;> omega

theorem succ_mod_eq {c x : Nat} (hx : x < c) :
    (x + 1) % c = if x + 1 = c then 0 else x + 1 := by
  split
  · simp_all
  · exact Nat.mod_eq_of_lt (by omega)

theorem dista_succ {c a x : Nat} (ha : a < c) (hx : x < c)
    (hne : (x + 1) % c ≠ a) :
    dista c a ((x + 1) % c) = dista c a x + 1 := by
  rw [succ_mod_eq hx] at *
  unfold dista
  split_ifs at * <;> omega

/-- The source predicate characterised by distances. -/
theorem shift_keep_iff_dist {c a b x : Nat} (ha : a < c) (hb : b < c) (hx : x < c) :
    shift_keep a b x ↔ 1 ≤ dista c a x ∧ dista c a x ≤ dista c a b := by
  unfold shift_keep dista
  split_ifs <;> omega

/-!  The well-formedness invariant maintained at every public-API
boundary. -/


theorem step_and_eq_mod (st : table_data_t) {t : Nat}
    (hc : st.capacity_minus_1 + 1 = 2 ^ t) (x : Nat) :
    x &&& st.capacity_minus_1 = x % (st.capacity_minus_1 + 1) := by
  have h1 : st.capacity_minus_1 = 2 ^ t - 1 := by omega
  rw [h1, Nat.and_pow_two_sub_one_eq_mod]
  congr 1
  omega

/-!  Lookup correctness. -/

/-- The walk's positive outcome: a returned slot is OCCUPIED, holds the
key and is in range. -/
theorem get_index_loop_some (p : erase_policy) (st : table_data_t) (key : Nat) :
    ∀ fuel orig idx r, idx ≤ st.capacity_minus_1 →
      get_index_loop p st key fuel orig idx = some r →
      r ≤ st.capacity_minus_1 ∧ getStatus p st r = VALID ∧
        st.key_table.getD r 0 = key := by
  intro fuel
  induction fuel with
  | zero => intro orig idx r _ h; simp [get_index_loop] at h
  | succ n ih =>
    intro orig idx r hidx h
    rw [get_index_loop] at h
    by_cases h1 : getStatus p st idx = INVALID
    · rw [if_pos h1] at h; cases h
    · rw [if_neg h1] at h
      by_cases h2 : getStatus p st idx = VALID ∧ st.key_table.getD idx 0 = key
      · rw [if_pos h2] at h
        cases h
        exact ⟨hidx, h2.1, h2.2⟩
      · rw [if_neg h2] at h
        by_cases h3 : (idx + 1) &&& st.capacity_minus_1 = orig
        · rw [if_pos h3] at h; cases h
        · rw [if_neg h3] at h
          exact ih orig _ r Nat.and_le_right h

/-- The walk's negative outcome at a slot where it stops. -/
theorem get_index_some_of_eq (p : erase_policy) (hash : Nat → Nat)
    (st : table_data_t) (key hashval r : Nat)
    (h : get_index p st key hashval = some r) :
    r ≤ st.capacity_minus_1 ∧ getStatus p st r = VALID ∧
      st.key_table.getD r 0 = key :=
  get_index_loop_some p st key _ _ _ r Nat.and_le_right h

/-- Core walk lemma: if the target slot is OCCUPIED with the key and
every slot strictly before it on the remaining path is non-EMPTY and does
not hold the key, the walk finds the target. -/
theorem get_index_loop_finds (p : erase_policy) (st : table_data_t) (key target : Nat)
    (htl : target ≤ st.capacity_minus_1)
    (hvalid : getStatus p st target = VALID)
    (hkey : st.key_table.getD target 0 = key)
    {t : Nat} (hc : st.capacity_minus_1 + 1 = 2 ^ t) :
    ∀ fuel orig idx,
      idx ≤ st.capacity_minus_1 → orig ≤ st.capacity_minus_1 →
      dista (st.capacity_minus_1 + 1) orig target ≥
        dista (st.capacity_minus_1 + 1) idx target →
      dista (st.capacity_minus_1 + 1) orig idx =
        dista (st.capacity_minus_1 + 1) orig target -
          dista (st.capacity_minus_1 + 1) idx target →
      (∀ u, u ≤ st.capacity_minus_1 →
        dista (st.capacity_minus_1 + 1) idx u <
          dista (st.capacity_minus_1 + 1) idx target →
        getStatus p st u ≠ INVALID ∧
          ¬(getStatus p st u = VALID ∧ st.key_table.getD u 0 = key)) →
      fuel ≥ dista (st.capacity_minus_1 + 1) idx target + 1 →
      get_index_loop p st key fuel orig idx = some target := by
  set c := st.capacity_minus_1 + 1 with hcdef
  intro fuel
  induction fuel with
  | zero => intro orig idx _ _ _ _ _ hf; omega
  | succ n ih =>
    intro orig idx hidx horig hle hsum hpath hfuel
    by_cases htgt : idx = target
    · subst htgt
      rw [get_index_loop]
      have h1 : ¬(getStatus p st idx = INVALID) := by
        rw [hvalid]; simp [VALID, INVALID]
      rw [if_neg h1, if_pos ⟨hvalid, hkey⟩]
    · have hd0 : dista c idx target ≠ 0 := by
        intro h0
        exact htgt ((dista_eq_zero_iff (by omega) (by omega)).mp h0).symm
      have hD0 := dista_lt (c := c) (a := orig) (x := target) (by omega) (by omega)
      have hstep := hpath idx hidx (by rw [dista_self]; omega)
      rw [get_index_loop, if_neg hstep.1, if_neg hstep.2]
      rw [step_and_eq_mod st hc, succ_mod_eq (show idx < c by omega)]
      by_cases hwrap : idx + 1 = c
      · simp only [if_pos hwrap]
        have hne2 : ¬(0 = orig) := by
          intro h
          unfold dista at hle hsum hd0
          split_ifs at hle hsum hd0 <;> omega
        rw [if_neg hne2]
        refine ih orig 0 (by omega) horig ?_ ?_ ?_ ?_
        · unfold dista at hle hsum hd0 ⊢
          split_ifs at hle hsum hd0 ⊢ <;> omega
        · unfold dista at hle hsum hd0 ⊢
          split_ifs at hle hsum hd0 ⊢ <;> omega
        · intro u hu hlt
          refine hpath u hu ?_
          unfold dista at hlt hd0 ⊢
          split_ifs at hlt hd0 ⊢ <;> omega
        · unfold dista at hfuel hd0 ⊢
          split_ifs at hfuel hd0 ⊢ <;> omega
      · simp only [if_neg hwrap]
        have hne2 : ¬(idx + 1 = orig) := by
          intro h
          unfold dista at hle hsum hd0
          split_ifs at hle hsum hd0 <;> omega
        rw [if_neg hne2]
        refine ih orig (idx + 1) (by omega) horig ?_ ?_ ?_ ?_
        · unfold dista at hle hsum hd0 ⊢
          split_ifs at hle hsum hd0 ⊢ <;> omega
        · unfold dista at hle hsum hd0 ⊢
          split_ifs at hle hsum hd0 ⊢ <;> omega
        · intro u hu hlt
          refine hpath u hu ?_
          unfold dista at hlt hd0 ⊢
          split_ifs at hlt hd0 ⊢ <;> omega
        · unfold dista at hfuel hd0 ⊢
          split_ifs at hfuel hd0 ⊢ <;> omega

/-- Under well-formedness, `get_index` locates every stored key at its
slot. -/
theorem get_index_finds (p : erase_policy) (hash : Nat → Nat) (st : table_data_t)
    (hwf : WF p hash st) (target : Nat)
    (htl : target ≤ st.capacity_minus_1)
    (hvalid : getStatus p st target = VALID) :
    get_index p st (st.key_table.getD target 0)
      (hash (st.key_table.getD target 0)) = some target := by
  obtain ⟨t, hc⟩ := hwf.cap_pow
  set c := st.capacity_minus_1 + 1 with hcdef
  set key := st.key_table.getD target 0 with hkeydef
  set h0 := hash key &&& st.capacity_minus_1 with hh0
  have hh0le : h0 ≤ st.capacity_minus_1 := Nat.and_le_right
  rw [get_index]
  apply get_index_loop_finds p st key target htl hvalid rfl hc _ h0 h0 hh0le hh0le
    (le_refl _) (by rw [dista_self]; omega)
  · intro u hu hlt
    constructor
    · intro hinv
      have hch := hwf.chain target u htl hu hvalid hinv
      rw [← hkeydef, ← hh0] at hch
      rw [shift_keep_iff_dist (c := c) (by omega) (by omega) (by omega)] at hch
      unfold dista at hch hlt
      split_ifs at hch hlt <;> omega
    · rintro ⟨hv, hk⟩
      have := hwf.uniq u target hu htl hv hvalid (by rw [hk])
      subst this
      omega
  · have h1 := dista_lt (c := c) (a := h0) (x := target) (by omega) (by omega)
    rw [← hcdef]
    omega

/-- Under well-formedness, a failed lookup means the key is nowhere in
the table. -/
theorem get_index_none_iff (p : erase_policy) (hash : Nat → Nat) (st : table_data_t)
    (hwf : WF p hash st) (key : Nat) :
    get_index p st key (hash key) = none ↔
      ∀ i, i ≤ st.capacity_minus_1 → getStatus p st i = VALID →
        st.key_table.getD i 0 ≠ key := by
  constructor
  · intro hnone i hi hv hk
    have := get_index_finds p hash st hwf i hi hv
    rw [hk] at this
    rw [hnone] at this
    cases this
  · intro habs
    cases hidx : get_index p st key (hash key) with
    | none => rfl
    | some r =>
      obtain ⟨hr, hv, hk⟩ := get_index_some_of_eq p hash st key _ r hidx
      exact absurd hk (habs r hr hv)

/-- Under well-formedness a successful lookup is exactly at the unique
slot holding the key. -/
theorem get_index_eq_some_of (p : erase_policy) (hash : Nat → Nat) (st : table_data_t)
    (hwf : WF p hash st) {i key : Nat} (hi : i ≤ st.capacity_minus_1)
    (hv : getStatus p st i = VALID) (hk : st.key_table.getD i 0 = key) :
    get_index p st key (hash key) = some i := by
  subst hk
  exact get_index_finds p hash st hwf i hi hv

/-!  Iteration: correctness of the bit-scan over the metadata words. -/

/-- `ctz_fuel` returns the position of the lowest set bit. -/
theorem ctz_fuel_spec : ∀ fuel x, x ≠ 0 → x < 2 ^ fuel →
    x.testBit (ctz_fuel fuel x) = true ∧
      ∀ i, i < ctz_fuel fuel x → x.testBit i = false := by
  intro fuel
  induction fuel with
  | zero => intro x hx hlt; interval_cases x <;> simp_all
  | succ n ih =>
    intro x hx hlt
    by_cases hodd : x % 2 = 1
    · rw [ctz_fuel, if_pos hodd]
      exact ⟨by simp [hodd], by omega⟩
    · rw [ctz_fuel, if_neg hodd]
      have hx2 : x / 2 ≠ 0 := by omega
      have hlt2 : x / 2 < 2 ^ n := by
        rw [pow_succ] at hlt
        omega
      obtain ⟨h1, h2⟩ := ih (x / 2) hx2 hlt2
      constructor
      · rw [Nat.testBit_add_one]
        exact h1
      · intro i hi
        match i with
        | 0 => simp [hodd]
        | j + 1 =>
          rw [Nat.testBit_add_one]
          exact h2 j (by omega)

theorem bsf32_nonzero_spec (x : Nat) (hx : x ≠ 0) (hlt : x < 2 ^ 32) :
    x.testBit (bsf32_nonzero x) = true ∧
      ∀ i, i < bsf32_nonzero x → x.testBit i = false :=
  ctz_fuel_spec 32 x hx hlt

theorem testBit_0x55 (k : Nat) :
    (0x55555555 : Nat).testBit k = (decide (k < 32) && decide (k % 2 = 0)) := by
  rcases Nat.lt_or_ge k 32 with hk | hk
  · interval_cases k <;> decide
  · have : (0x55555555 : Nat) < 2 ^ k := by
      calc (0x55555555 : Nat) < 2 ^ 32 := by norm_num
        _ ≤ 2 ^ k := Nat.pow_le_pow_right (by omega) hk
    simp [Nat.testBit_lt_two_pow this, hk]

/-- The low bit of a slot's metadata field in its word. -/
theorem word_testBit_status (p : erase_policy) (st : table_data_t) (s : Nat) :
    (st.valid.getD (s / META_ELEMENTS_PER_WORD p) 0).testBit (metaShift p s) =
      decide (getStatus p st s % 2 = 1) := by
  have h0 : (getStatus p st s).testBit 0 = decide (getStatus p st s % 2 = 1) :=
    Nat.testBit_zero _
  rw [← h0, getStatus_def, testBit_extractF]
  have := B_pos p
  simp [this]

/-- Characterisation of the bits of the occupancy view of a metadata
word: bit `k` is set exactly when it is the low bit of the field of an
OCCUPIED slot. -/
theorem occWord_testBit (p : erase_policy) (st : table_data_t) (wd k : Nat)
    (hw : st.valid.getD wd 0 < 2 ^ 32)
    (hst : getStatus p st (wd * META_ELEMENTS_PER_WORD p +
      k / META_BITS_PER_ELEMENT p) ≤ 2) :
    (occWord p (st.valid.getD wd 0)).testBit k =
      (decide (k < 32) && decide (k % META_BITS_PER_ELEMENT p = 0) &&
        decide (getStatus p st (wd * META_ELEMENTS_PER_WORD p +
          k / META_BITS_PER_ELEMENT p) = VALID)) := by
  rcases Nat.lt_or_ge k 32 with hk | hk
  · cases p
    · -- rehash: occWord is the raw word, one bit per slot
      simp only [occWord]
      set s := wd * 32 + k with hs
      have hdiv : s / META_ELEMENTS_PER_WORD .rehash = wd := by
        simp only [META_ELEMENTS_PER_WORD, META_BITS_PER_ELEMENT]
        omega
      have hsh : metaShift .rehash s = k := by
        rw [metaShift_eq]
        simp only [META_ELEMENTS_PER_WORD, META_BITS_PER_ELEMENT]
        omega
      have := word_testBit_status .rehash st s
      rw [hdiv, hsh] at this
      simp only [META_ELEMENTS_PER_WORD, META_BITS_PER_ELEMENT] at *
      rw [show wd * 32 + k / 1 = s by omega] at *
      rw [this]
      have hc := getStatus_rehash_cases st s
      rcases hc with hc | hc <;> simp [hc, hk, VALID, Nat.mod_one]
    · -- marker: occWord keeps the even (VALID) bits only
      simp only [occWord, Nat.testBit_and, testBit_0x55]
      by_cases heven : k % 2 = 0
      · set s := wd * 16 + k / 2 with hs
        have hdiv : s / META_ELEMENTS_PER_WORD .use_marker = wd := by
          simp only [META_ELEMENTS_PER_WORD, META_BITS_PER_ELEMENT]
          omega
        have hsh : metaShift .use_marker s = k := by
          rw [metaShift_eq]
          simp only [META_ELEMENTS_PER_WORD, META_BITS_PER_ELEMENT]
          omega
        have hbit := word_testBit_status .use_marker st s
        rw [hdiv, hsh] at hbit
        simp only [META_ELEMENTS_PER_WORD, META_BITS_PER_ELEMENT] at *
        rw [show wd * 16 + k / 2 = s by omega] at *
        rw [hbit]
        have hle : getStatus .use_marker st s ≤ 2 := hst
        have : getStatus .use_marker st s = 0 ∨ getStatus .use_marker st s = 1 ∨
            getStatus .use_marker st s = 2 := by omega
        rcases this with hc | hc | hc <;> simp [hc, hk, heven, VALID]
      · simp [heven, META_BITS_PER_ELEMENT]
  · have h1 : (occWord p (st.valid.getD wd 0)).testBit k = false := by
      apply Nat.testBit_lt_two_pow
      have : occWord p (st.valid.getD wd 0) ≤ st.valid.getD wd 0 := by
        cases p
        · simp [occWord]
        · exact Nat.and_le_left
      calc occWord p (st.valid.getD wd 0) ≤ st.valid.getD wd 0 := this
        _ < 2 ^ 32 := hw
        _ ≤ 2 ^ k := Nat.pow_le_pow_right (by omega) hk
    rw [h1]
    simp [show ¬(k < 32) by omega]

theorem WF.status_le_all (p : erase_policy) (hash : Nat → Nat) (st : table_data_t)
    (hwf : WF p hash st) : ∀ s, getStatus p st s ≤ 2 := by
  intro s
  rcases le_or_lt s st.capacity_minus_1 with h | h
  · exact hwf.status_le s h
  · rw [hwf.tail_zero s h]; omega

theorem WF.word_lt (p : erase_policy) (hash : Nat → Nat) (st : table_data_t)
    (hwf : WF p hash st) (wd : Nat) : st.valid.getD wd 0 < 2 ^ 32 :=
  getD_lt_of_words_lt hwf.words_lt wd

theorem num_valid_words_mul (p : erase_policy) (st : table_data_t) :
    st.capacity_minus_1 < num_valid_words p st * META_ELEMENTS_PER_WORD p := by
  have hE := EPW_pos p
  rw [num_valid_words, Nat.add_div_right _ hE]
  have hd := Nat.div_add_mod st.capacity_minus_1 (META_ELEMENTS_PER_WORD p)
  have hm : st.capacity_minus_1 % META_ELEMENTS_PER_WORD p < META_ELEMENTS_PER_WORD p :=
    Nat.mod_lt _ hE
  rw [Nat.succ_mul]
  have hcomm : st.capacity_minus_1 / META_ELEMENTS_PER_WORD p * META_ELEMENTS_PER_WORD p =
      META_ELEMENTS_PER_WORD p * (st.capacity_minus_1 / META_ELEMENTS_PER_WORD p) :=
    Nat.mul_comm _ _
  omega

/-- A metadata word's occupancy view is zero exactly when none of its
slots is OCCUPIED. -/
theorem occWord_eq_zero_iff (p : erase_policy) (hash : Nat → Nat) (st : table_data_t)
    (hwf : WF p hash st) (wd : Nat) :
    occWord p (st.valid.getD wd 0) = 0 ↔
      ∀ off, off < META_ELEMENTS_PER_WORD p →
        getStatus p st (wd * META_ELEMENTS_PER_WORD p + off) ≠ VALID := by
  have hB := B_pos p
  constructor
  · intro h0 off hoff hv
    have hk := occWord_testBit p st wd (META_BITS_PER_ELEMENT p * off)
      (hwf.word_lt p hash st wd) (by
        rw [Nat.mul_div_cancel_left _ hB]
        exact hwf.status_le_all p hash st _)
    rw [h0, Nat.zero_testBit] at hk
    rw [Nat.mul_div_cancel_left _ hB] at hk
    have h32 : META_BITS_PER_ELEMENT p * off < 32 := by
      cases p <;>
        simp only [META_BITS_PER_ELEMENT, META_ELEMENTS_PER_WORD] at hoff ⊢ <;> omega
    rw [hv] at hk
    simp [h32, Nat.mul_mod_right] at hk
  · intro hall
    by_contra hne
    obtain ⟨k, hk⟩ := Nat.ne_zero_implies_bit_true hne
    have hchar := occWord_testBit p st wd k (hwf.word_lt p hash st wd)
      (hwf.status_le_all p hash st _)
    rw [hk] at hchar
    have h32 : k < 32 := by
      by_contra h32
      simp [show ¬(k < 32) by omega] at hchar
    have hmod : k % META_BITS_PER_ELEMENT p = 0 := by
      by_contra hm
      simp [h32, hm] at hchar
    have hval : getStatus p st (wd * META_ELEMENTS_PER_WORD p +
        k / META_BITS_PER_ELEMENT p) = VALID := by
      by_contra hv
      simp [h32, hmod, hv] at hchar
    have hoffb : k / META_BITS_PER_ELEMENT p < META_ELEMENTS_PER_WORD p := by
      cases p <;>
        simp only [META_BITS_PER_ELEMENT, META_ELEMENTS_PER_WORD] at * <;> omega
    exact hall _ hoffb hval

theorem getD_eq_getElem_of_lt {l : List Nat} {n : Nat} (h : n < l.length) :
    l.getD n 0 = l[n] := by
  rw [List.getD_eq_getElem?_getD, List.getElem?_eq_getElem h]
  rfl

theorem drop_cons_getD {l : List Nat} {n : Nat} (h : n < l.length) :
    l.drop n = l.getD n 0 :: l.drop (n + 1) := by
  rw [getD_eq_getElem_of_lt h]
  exact List.drop_eq_getElem_cons h

/-- Correctness of the word-scanning loop: starting at word `w0`, it
returns the least OCCUPIED slot at or after `w0 * EPW`, or `none` when
there is none. -/
theorem scan_words_spec (p : erase_policy) (hash : Nat → Nat) (st : table_data_t)
    (hwf : WF p hash st) :
    ∀ nw w0, num_valid_words p st = w0 + nw →
      (∀ r, scan_words p (st.valid.drop w0) w0 = some r →
        w0 * META_ELEMENTS_PER_WORD p ≤ r ∧ r ≤ st.capacity_minus_1 ∧
          getStatus p st r = VALID ∧
          ∀ s, w0 * META_ELEMENTS_PER_WORD p ≤ s → s < r →
            getStatus p st s ≠ VALID) ∧
      (scan_words p (st.valid.drop w0) w0 = none →
        ∀ s, w0 * META_ELEMENTS_PER_WORD p ≤ s → getStatus p st s ≠ VALID) := by
  have hB := B_pos p
  have hE := EPW_pos p
  intro nw
  induction nw with
  | zero =>
    intro w0 hw0
    have hnil : st.valid.drop w0 = [] := by
      apply List.drop_eq_nil_of_le
      rw [hwf.words_len]
      omega
    rw [hnil]
    constructor
    · intro r hr; cases hr
    · intro _ s hs
      have hmul := num_valid_words_mul p st
      have : st.capacity_minus_1 < s := by
        have h1 : num_valid_words p st * META_ELEMENTS_PER_WORD p ≤
            w0 * META_ELEMENTS_PER_WORD p := Nat.mul_le_mul_right _ (by omega)
        omega
      rw [hwf.tail_zero s this]
      simp [VALID]
  | succ n ih =>
    intro w0 hw0
    have hlt : w0 < st.valid.length := by rw [hwf.words_len]; omega
    rw [drop_cons_getD hlt, scan_words]
    by_cases hz : occWord p (st.valid.getD w0 0) = 0
    · rw [if_pos hz]
      obtain ⟨ihsome, ihnone⟩ := ih (w0 + 1) (by omega)
      have hword : ∀ s, w0 * META_ELEMENTS_PER_WORD p ≤ s →
          s < (w0 + 1) * META_ELEMENTS_PER_WORD p → getStatus p st s ≠ VALID := by
        intro s hs1 hs2
        have hoff : s - w0 * META_ELEMENTS_PER_WORD p < META_ELEMENTS_PER_WORD p := by
          rw [Nat.succ_mul] at hs2
          omega
        have := (occWord_eq_zero_iff p hash st hwf w0).mp hz _ hoff
        rw [show w0 * META_ELEMENTS_PER_WORD p + (s - w0 * META_ELEMENTS_PER_WORD p)
          = s by omega] at this
        exact this
      constructor
      · intro r hr
        obtain ⟨h1, h2, h3, h4⟩ := ihsome r hr
        refine ⟨by rw [Nat.succ_mul] at h1; omega, h2, h3, ?_⟩
        intro s hs1 hs2
        rcases Nat.lt_or_ge s ((w0 + 1) * META_ELEMENTS_PER_WORD p) with h | h
        · exact hword s hs1 h
        · exact h4 s h hs2
      · intro hr s hs
        rcases Nat.lt_or_ge s ((w0 + 1) * META_ELEMENTS_PER_WORD p) with h | h
        · exact hword s hs h
        · exact ihnone hr s h
    · rw [if_neg hz]
      have hocc_lt : occWord p (st.valid.getD w0 0) < 2 ^ 32 := by
        have h1 : occWord p (st.valid.getD w0 0) ≤ st.valid.getD w0 0 := by
          cases p
          · simp [occWord]
          · exact Nat.and_le_left
        exact lt_of_le_of_lt h1 (hwf.word_lt p hash st w0)
      obtain ⟨hbit, hmin⟩ := bsf32_nonzero_spec _ hz hocc_lt
      set b := bsf32_nonzero (occWord p (st.valid.getD w0 0)) with hbdef
      have hchar := occWord_testBit p st w0 b (hwf.word_lt p hash st w0)
        (hwf.status_le_all p hash st _)
      rw [hbit] at hchar
      have h32 : b < 32 := by
        by_contra h32
        simp [show ¬(b < 32) by omega] at hchar
      have hmod : b % META_BITS_PER_ELEMENT p = 0 := by
        by_contra hm
        simp [h32, hm] at hchar
      have hval : getStatus p st (w0 * META_ELEMENTS_PER_WORD p +
          b / META_BITS_PER_ELEMENT p) = VALID := by
        by_contra hv
        simp [h32, hmod, hv] at hchar
      constructor
      · intro r hr
        injection hr with hr
        subst hr
        refine ⟨Nat.le_add_right _ _, ?_, hval, ?_⟩
        · by_contra hgt
          rw [hwf.tail_zero _ (by omega)] at hval
          simp [VALID] at hval
        · intro s hs1 hs2
          intro hsv
          have hoff : s - w0 * META_ELEMENTS_PER_WORD p < META_ELEMENTS_PER_WORD p := by
            have : b / META_BITS_PER_ELEMENT p < META_ELEMENTS_PER_WORD p := by
              cases p <;>
                simp only [META_BITS_PER_ELEMENT, META_ELEMENTS_PER_WORD] at * <;> omega
            omega
          set off := s - w0 * META_ELEMENTS_PER_WORD p with hoffdef
          have hkb := occWord_testBit p st w0 (META_BITS_PER_ELEMENT p * off)
            (hwf.word_lt p hash st w0) (by
              rw [Nat.mul_div_cancel_left _ hB]
              exact hwf.status_le_all p hash st _)
          rw [Nat.mul_div_cancel_left _ hB] at hkb
          rw [show w0 * META_ELEMENTS_PER_WORD p + off = s by omega, hsv] at hkb
          have hk32 : META_BITS_PER_ELEMENT p * off < 32 := by
            cases p <;>
              simp only [META_BITS_PER_ELEMENT, META_ELEMENTS_PER_WORD] at hoff ⊢ <;>
              omega
          simp only [hk32, decide_True, Nat.mul_mod_right, decide_True, VALID] at hkb
          have hbfalse := hmin (META_BITS_PER_ELEMENT p * off) (by
            cases p <;>
              simp only [META_BITS_PER_ELEMENT, META_ELEMENTS_PER_WORD] at * <;> omega)
          rw [hbfalse] at hkb
          simp at hkb
      · intro hr; cases hr

theorem take_num_eq (p : erase_policy) (st : table_data_t)
    (h : st.valid.length = num_valid_words p st) :
    st.valid.take (num_valid_words p st) = st.valid := by
  rw [← h, List.take_length]

/-- `get_first` returns the least OCCUPIED slot. -/
theorem get_first_spec (p : erase_policy) (hash : Nat → Nat) (st : table_data_t)
    (hwf : WF p hash st) :
    (∀ r, get_first p st = some r → r ≤ st.capacity_minus_1 ∧
        getStatus p st r = VALID ∧ ∀ s, s < r → getStatus p st s ≠ VALID) ∧
    (get_first p st = none → ∀ s, getStatus p st s ≠ VALID) := by
  have hsw := scan_words_spec p hash st hwf (num_valid_words p st) 0 (by omega)
  rw [List.drop_zero] at hsw
  rw [get_first, take_num_eq p st hwf.words_len]
  constructor
  · intro r hr
    obtain ⟨_, h2, h3, h4⟩ := hsw.1 r hr
    exact ⟨h2, h3, fun s hs => h4 s (by omega) hs⟩
  · intro hr s
    exact hsw.2 hr s (by omega)

/-- Bits of the same-word continuation mask of `get_next`: the occupancy
bits strictly above the current slot's field. -/
theorem occWord_next_mask_testBit (p : erase_policy) (w off k : Nat) (hw : w < 2 ^ 32) :
    (occWord p (next_mask p w off)).testBit k =
      ((occWord p w).testBit k && decide (META_BITS_PER_ELEMENT p * off < k)) := by
  have hM : (0xFFFFFFFF : Nat) = 2 ^ 32 - 1 := by norm_num
  rcases Nat.lt_or_ge k 32 with hk | hk
  · cases p
    · simp only [occWord, next_mask, Nat.testBit_and, Nat.testBit_shiftLeft, hM,
        Nat.testBit_two_pow_sub_one, META_BITS_PER_ELEMENT]
      by_cases h1 : off * 1 + 1 ≤ k
      · have e1 : k - 1 - off < 32 := by omega
        have e2 : off < k := by omega
        have e3 : 1 ≤ k := by omega
        have e4 : off ≤ k - 1 := by omega
        simp [h1, e1, e2, e3, e4, Nat.mul_one, Nat.one_mul]
      · rcases Nat.lt_or_ge k 1 with h2 | h2
        · have hk0 : k = 0 := by omega
          subst hk0
          simp [show ¬ (1 * off < 0) by omega]
        · have e3 : ¬ (off ≤ k - 1) := by omega
          have e4 : ¬ (1 * off < k) := by omega
          simp [h2, e3, e4, Nat.mul_one, Nat.one_mul]
          intro _
          omega
    · simp only [occWord, next_mask, Nat.testBit_and, Nat.testBit_shiftLeft, hM,
        Nat.testBit_two_pow_sub_one, testBit_0x55, META_BITS_PER_ELEMENT]
      by_cases h1 : off * 2 + 1 ≤ k
      · simp [h1, show k - (off * 2 + 1) < 32 by omega, show 2 * off < k by omega, hk]
      · simp [h1, show ¬ (2 * off < k) by omega]
  · have hz : ∀ x, x < 2 ^ 32 → x.testBit k = false := fun x hx =>
      Nat.testBit_lt_two_pow (lt_of_lt_of_le hx (Nat.pow_le_pow_right (by omega) hk))
    have h1 : (occWord p (next_mask p w off)).testBit k = false := by
      apply hz
      have : next_mask p w off ≤ w := by
        cases p <;> exact Nat.and_le_left
      have h2 : occWord p (next_mask p w off) ≤ next_mask p w off := by
        cases p
        · simp [occWord]
        · exact Nat.and_le_left
      omega
    have h2 : (occWord p w).testBit k = false := by
      apply hz
      have : occWord p w ≤ w := by
        cases p
        · simp [occWord]
        · exact Nat.and_le_left
      omega
    rw [h1, h2]
    simp

/-- `get_next` returns the least OCCUPIED slot strictly after the given
position. -/
theorem get_next_spec (p : erase_policy) (hash : Nat → Nat) (st : table_data_t)
    (hwf : WF p hash st) (old : Nat) (hold : old ≤ st.capacity_minus_1) :
    (∀ r, get_next p st old = some r → old < r ∧ r ≤ st.capacity_minus_1 ∧
        getStatus p st r = VALID ∧
        ∀ s, old < s → s < r → getStatus p st s ≠ VALID) ∧
    (get_next p st old = none →
        ∀ s, old < s → getStatus p st s ≠ VALID) := by
  have hB := B_pos p
  have hE := EPW_pos p
  rw [get_next, take_num_eq p st hwf.words_len]
  rw [and_epw_sub_one]
  set word0 := old / META_ELEMENTS_PER_WORD p with hword0
  set w := st.valid.getD word0 0 with hwdef
  set nm := occWord p (next_mask p w (old % META_ELEMENTS_PER_WORD p)) with hnm
  have hw32 : w < 2 ^ 32 := hwf.word_lt p hash st word0
  have hnmbit : ∀ k, nm.testBit k = ((occWord p w).testBit k &&
      decide (META_BITS_PER_ELEMENT p * (old % META_ELEMENTS_PER_WORD p) < k)) :=
    fun k => occWord_next_mask_testBit p w _ k hw32
  have hdm := Nat.div_add_mod old (META_ELEMENTS_PER_WORD p)
  have hmlt : old % META_ELEMENTS_PER_WORD p < META_ELEMENTS_PER_WORD p :=
    Nat.mod_lt _ hE
  -- any OCCUPIED slot in this word strictly after `old` shows up in `nm`
  have hslot_bit : ∀ s, old < s → s < (word0 + 1) * META_ELEMENTS_PER_WORD p →
      getStatus p st s = VALID → nm.testBit (META_BITS_PER_ELEMENT p *
        (s % META_ELEMENTS_PER_WORD p)) = true := by
    intro s hs1 hs2 hsv
    have hsw : s / META_ELEMENTS_PER_WORD p = word0 := by
      have h1 : word0 * META_ELEMENTS_PER_WORD p ≤ old := by
        rw [hword0]; exact Nat.div_mul_le_self _ _
      have := Nat.div_add_mod s (META_ELEMENTS_PER_WORD p)
      rcases Nat.lt_trichotomy (s / META_ELEMENTS_PER_WORD p) word0 with h | h | h
      · exfalso
        have : (s / META_ELEMENTS_PER_WORD p + 1) * META_ELEMENTS_PER_WORD p ≤
            word0 * META_ELEMENTS_PER_WORD p := Nat.mul_le_mul_right _ (by omega)
        have hsm := Nat.mod_lt s (y := META_ELEMENTS_PER_WORD p) hE
        rw [Nat.succ_mul] at this
        have hc : META_ELEMENTS_PER_WORD p * (s / META_ELEMENTS_PER_WORD p) =
            s / META_ELEMENTS_PER_WORD p * META_ELEMENTS_PER_WORD p := Nat.mul_comm _ _
        omega
      · exact h
      · exfalso
        have : (word0 + 1) * META_ELEMENTS_PER_WORD p ≤
            s / META_ELEMENTS_PER_WORD p * META_ELEMENTS_PER_WORD p :=
          Nat.mul_le_mul_right _ (by omega)
        have := Nat.div_mul_le_self s (META_ELEMENTS_PER_WORD p)
        have hc : META_ELEMENTS_PER_WORD p * (s / META_ELEMENTS_PER_WORD p) =
            s / META_ELEMENTS_PER_WORD p * META_ELEMENTS_PER_WORD p := Nat.mul_comm _ _
        omega
    have hsm := Nat.div_add_mod s (META_ELEMENTS_PER_WORD p)
    have hbit := occWord_testBit p st word0
      (META_BITS_PER_ELEMENT p * (s % META_ELEMENTS_PER_WORD p)) hw32 (by
        rw [Nat.mul_div_cancel_left _ hB]
        exact hwf.status_le_all p hash st _)
    rw [Nat.mul_div_cancel_left _ hB] at hbit
    have hseq : word0 * META_ELEMENTS_PER_WORD p + s % META_ELEMENTS_PER_WORD p = s := by
      rw [← hsw]
      have hc : META_ELEMENTS_PER_WORD p * (s / META_ELEMENTS_PER_WORD p) =
          s / META_ELEMENTS_PER_WORD p * META_ELEMENTS_PER_WORD p := Nat.mul_comm _ _
      omega
    rw [hseq, hsv] at hbit
    have h32 : META_BITS_PER_ELEMENT p * (s % META_ELEMENTS_PER_WORD p) < 32 := by
      have hsm2 := Nat.mod_lt s (y := META_ELEMENTS_PER_WORD p) hE
      cases p <;> simp only [META_BITS_PER_ELEMENT, META_ELEMENTS_PER_WORD] at * <;> omega
    rw [hnmbit]
    simp only [hbit, h32, decide_True, Nat.mul_mod_right, VALID] at *
    have hgt : old % META_ELEMENTS_PER_WORD p < s % META_ELEMENTS_PER_WORD p := by
      have hseq2 : word0 * META_ELEMENTS_PER_WORD p + old % META_ELEMENTS_PER_WORD p
          = old := by
        show old / META_ELEMENTS_PER_WORD p * META_ELEMENTS_PER_WORD p +
          old % META_ELEMENTS_PER_WORD p = old
        have hc : old / META_ELEMENTS_PER_WORD p * META_ELEMENTS_PER_WORD p =
            META_ELEMENTS_PER_WORD p * (old / META_ELEMENTS_PER_WORD p) := Nat.mul_comm _ _
        omega
      omega
    simp [show META_BITS_PER_ELEMENT p * (old % META_ELEMENTS_PER_WORD p) <
      META_BITS_PER_ELEMENT p * (s % META_ELEMENTS_PER_WORD p) from
        Nat.mul_lt_mul_of_pos_left hgt hB]
  by_cases hz : nm ≠ 0
  · rw [if_pos hz]
    have hnm32 : nm < 2 ^ 32 := by
      have h1 : nm ≤ next_mask p w (old % META_ELEMENTS_PER_WORD p) := by
        rw [hnm]
        cases p
        · simp [occWord]
        · exact Nat.and_le_left
      have h2 : next_mask p w (old % META_ELEMENTS_PER_WORD p) ≤ w := by
        cases p <;> exact Nat.and_le_left
      omega
    obtain ⟨hbit, hmin⟩ := bsf32_nonzero_spec _ hz hnm32
    set b := bsf32_nonzero nm with hbdef
    have hchar : (occWord p w).testBit b = true ∧
        META_BITS_PER_ELEMENT p * (old % META_ELEMENTS_PER_WORD p) < b := by
      have := hnmbit b
      rw [hbit] at this
      constructor
      · by_contra hc
        simp [hc] at this
      · by_contra hc
        simp [hc] at this
    have hocchar := occWord_testBit p st word0 b hw32 (hwf.status_le_all p hash st _)
    rw [hchar.1] at hocchar
    have h32 : b < 32 := by
      by_contra h32
      simp [show ¬(b < 32) by omega] at hocchar
    have hmod : b % META_BITS_PER_ELEMENT p = 0 := by
      by_contra hm
      simp [h32, hm] at hocchar
    have hval : getStatus p st (word0 * META_ELEMENTS_PER_WORD p +
        b / META_BITS_PER_ELEMENT p) = VALID := by
      by_contra hv
      simp [h32, hmod, hv] at hocchar
    constructor
    · intro r hr
      injection hr with hr
      have hrr : r = word0 * META_ELEMENTS_PER_WORD p + b / META_BITS_PER_ELEMENT p := by
        rw [← hr]
      subst hrr
      have holdlt : old < word0 * META_ELEMENTS_PER_WORD p +
          b / META_BITS_PER_ELEMENT p := by
        have : old % META_ELEMENTS_PER_WORD p < b / META_BITS_PER_ELEMENT p := by
          cases p <;> simp only [META_BITS_PER_ELEMENT, META_ELEMENTS_PER_WORD]
            at hchar hmod ⊢ <;> omega
        show old < old / META_ELEMENTS_PER_WORD p * META_ELEMENTS_PER_WORD p +
          b / META_BITS_PER_ELEMENT p
        have hc : old / META_ELEMENTS_PER_WORD p * META_ELEMENTS_PER_WORD p =
            META_ELEMENTS_PER_WORD p * (old / META_ELEMENTS_PER_WORD p) := Nat.mul_comm _ _
        omega
      refine ⟨holdlt, ?_, hval, ?_⟩
      · by_contra hgt
        rw [hwf.tail_zero _ (by omega)] at hval
        simp [VALID] at hval
      · intro s hs1 hs2 hsv
        have hsword : s < (word0 + 1) * META_ELEMENTS_PER_WORD p := by
          have : b / META_BITS_PER_ELEMENT p < META_ELEMENTS_PER_WORD p := by
            cases p <;>
              simp only [META_BITS_PER_ELEMENT, META_ELEMENTS_PER_WORD] at * <;> omega
          rw [Nat.succ_mul]
          omega
        have hb2 := hslot_bit s hs1 hsword hsv
        have hlt : META_BITS_PER_ELEMENT p * (s % META_ELEMENTS_PER_WORD p) < b := by
          have h1 : word0 * META_ELEMENTS_PER_WORD p ≤ old := by
            rw [hword0]; exact Nat.div_mul_le_self _ _
          have hsm := Nat.div_add_mod s (META_ELEMENTS_PER_WORD p)
          have hsw2 : s % META_ELEMENTS_PER_WORD p <
              b / META_BITS_PER_ELEMENT p := by
            cases p <;>
              simp only [META_BITS_PER_ELEMENT, META_ELEMENTS_PER_WORD] at * <;> omega
          cases p <;>
            simp only [META_BITS_PER_ELEMENT, META_ELEMENTS_PER_WORD] at * <;> omega
        rw [hmin _ hlt] at hb2
        cases hb2
    · intro hr; cases hr
  · rw [if_neg hz]
    push_neg at hz
    have hword_none : ∀ s, old < s → s < (word0 + 1) * META_ELEMENTS_PER_WORD p →
        getStatus p st s ≠ VALID := by
      intro s hs1 hs2 hsv
      have := hslot_bit s hs1 hs2 hsv
      rw [hz] at this
      simp at this
    have hw0num : word0 + 1 ≤ num_valid_words p st := by
      rw [num_valid_words, Nat.add_div_right _ hE, hword0]
      have := Nat.div_le_div_right (c := META_ELEMENTS_PER_WORD p) hold
      omega
    have hsw := scan_words_spec p hash st hwf
      (num_valid_words p st - (word0 + 1)) (word0 + 1) (by omega)
    constructor
    · intro r hr
      obtain ⟨h1, h2, h3, h4⟩ := hsw.1 r hr
      have holdr : old < r := by
        have : old < (word0 + 1) * META_ELEMENTS_PER_WORD p := by
          rw [Nat.succ_mul, hword0]
          have hc : META_ELEMENTS_PER_WORD p * (old / META_ELEMENTS_PER_WORD p) =
              old / META_ELEMENTS_PER_WORD p * META_ELEMENTS_PER_WORD p :=
            Nat.mul_comm _ _
          omega
        omega
      refine ⟨holdr, h2, h3, ?_⟩
      intro s hs1 hs2
      rcases Nat.lt_or_ge s ((word0 + 1) * META_ELEMENTS_PER_WORD p) with h | h
      · exact hword_none s hs1 h
      · exact h4 s h hs2
    · intro hr s hs1
      rcases Nat.lt_or_ge s ((word0 + 1) * META_ELEMENTS_PER_WORD p) with h | h
      · exact hword_none s hs1 h
      · exact hsw.2 hr s h

theorem filter_range_split0 (C q : Nat) (A : Nat → Bool) (hq : q < C) (hAq : A q = true)
    (hmin : ∀ s, s < q → A s = false) :
    (List.range C).filter A =
      q :: (List.range C).filter (fun i => A i && decide (q < i)) := by
  induction C with
  | zero => omega
  | succ c ih =>
    rw [List.range_succ, List.filter_append, List.filter_append]
    rcases Nat.lt_or_ge q c with h | h
    · rw [ih h]
      have hsingle : List.filter A [c] =
          List.filter (fun i => A i && decide (q < i)) [c] := by
        simp [List.filter, h]
      rw [hsingle, List.cons_append]
    · have hqc : q = c := by omega
      subst hqc
      have h1 : (List.range q).filter A = [] := by
        rw [List.filter_eq_nil]
        intro x hx
        rw [List.mem_range] at hx
        simp [hmin x hx]
      have h2 : (List.range q).filter (fun i => A i && decide (q < i)) = [] := by
        rw [List.filter_eq_nil]
        intro x hx
        rw [List.mem_range] at hx
        simp [show ¬ (q < x) by omega]
      have h3 : List.filter A [q] = [q] := by simp [List.filter, hAq]
      have h4 : List.filter (fun i => A i && decide (q < i)) [q] = [] := by
        simp [List.filter]
      rw [h1, h2, h3, h4]
      rfl

theorem filter_range_split (C q pos : Nat) (A : Nat → Bool) (hq : q < C)
    (hAq : A q = true) (hposq : pos < q)
    (hmin : ∀ s, pos < s → s < q → A s = false) :
    (List.range C).filter (fun i => A i && decide (pos < i)) =
      q :: (List.range C).filter (fun i => A i && decide (q < i)) := by
  have h0 := filter_range_split0 C q (fun i => A i && decide (pos < i)) hq
    (by simp [hAq, hposq]) (by
      intro s hs
      rcases Nat.lt_or_ge pos s with h | h
      · simp [hmin s h hs]
      · simp [show ¬ (pos < s) by omega])
  rw [h0]
  congr 1
  apply List.filter_congr
  intro x _
  by_cases hx : q < x
  · simp [hx, show pos < x by omega]
  · simp [hx]

/-- The iteration tail equals the OCCUPIED slots strictly above the
current position, in increasing order. -/
theorem iter_go_eq (p : erase_policy) (hash : Nat → Nat) (st : table_data_t)
    (hwf : WF p hash st) :
    ∀ fuel pos, pos ≤ st.capacity_minus_1 →
      ((List.range (st.capacity_minus_1 + 1)).filter
        (fun i => decide (getStatus p st i = VALID) && decide (pos < i))).length ≤ fuel →
      iter_go p st fuel pos =
        (List.range (st.capacity_minus_1 + 1)).filter
          (fun i => decide (getStatus p st i = VALID) && decide (pos < i)) := by
  intro fuel
  induction fuel with
  | zero =>
    intro pos _ hlen
    rw [iter_go]
    symm
    rw [← List.length_eq_zero]
    omega
  | succ n ih =>
    intro pos hpos hlen
    rw [iter_go]
    cases hnext : get_next p st pos with
    | none =>
      dsimp only
      have hnone := (get_next_spec p hash st hwf pos hpos).2 hnext
      symm
      rw [List.filter_eq_nil]
      intro x hx
      rw [List.mem_range] at hx
      by_cases h : pos < x
      · simp [hnone x h]
      · simp [h]
    | some q =>
      dsimp only
      obtain ⟨hq1, hq2, hq3, hq4⟩ := (get_next_spec p hash st hwf pos hpos).1 q hnext
      have hsplit := filter_range_split (st.capacity_minus_1 + 1) q pos
        (fun i => decide (getStatus p st i = VALID)) (by omega) (by simp [hq3]) hq1
        (by intro s hs1 hs2; simp [hq4 s hs1 hs2])
      rw [hsplit]
      congr 1
      apply ih q (by omega)
      rw [hsplit] at hlen
      simp at hlen
      omega

/-- The full iteration sequence is exactly the increasing list of
OCCUPIED slots. -/
theorem iter_list_eq_filter (p : erase_policy) (hash : Nat → Nat) (st : table_data_t)
    (hwf : WF p hash st) :
    iter_list p st = (List.range (st.capacity_minus_1 + 1)).filter
      (fun i => decide (getStatus p st i = VALID)) := by
  rw [iter_list]
  cases hf : get_first p st with
  | none =>
    dsimp only
    have hnone := (get_first_spec p hash st hwf).2 hf
    symm
    rw [List.filter_eq_nil]
    intro x _
    simp [hnone x]
  | some q =>
    dsimp only
    obtain ⟨hq1, hq2, hq3⟩ := (get_first_spec p hash st hwf).1 q hf
    have hsplit := filter_range_split0 (st.capacity_minus_1 + 1) q
      (fun i => decide (getStatus p st i = VALID)) (by omega) (by simp [hq2])
      (by intro s hs; simp [hq3 s hs])
    rw [hsplit]
    congr 1
    apply iter_go_eq p hash st hwf _ q hq1
    calc ((List.range (st.capacity_minus_1 + 1)).filter
        (fun i => decide (getStatus p st i = VALID) && decide (q < i))).length ≤
          (List.range (st.capacity_minus_1 + 1)).length := List.length_filter_le _ _
      _ = st.capacity_minus_1 + 1 := List.length_range _

/-- Iteration visits exactly `size` slots. -/
theorem iter_list_length (p : erase_policy) (hash : Nat → Nat) (st : table_data_t)
    (hwf : WF p hash st) : (iter_list p st).length = st.size := by
  rw [iter_list_eq_filter p hash st hwf, hwf.size_eq]

theorem iter_list_mem (p : erase_policy) (hash : Nat → Nat) (st : table_data_t)
    (hwf : WF p hash st) (i : Nat) :
    i ∈ iter_list p st ↔ i ≤ st.capacity_minus_1 ∧ getStatus p st i = VALID := by
  rw [iter_list_eq_filter p hash st hwf, List.mem_filter, List.mem_range]
  simp
  omega

theorem iter_list_nodup (p : erase_policy) (hash : Nat → Nat) (st : table_data_t)
    (hwf : WF p hash st) : (iter_list p st).Nodup := by
  rw [iter_list_eq_filter p hash st hwf]
  exact (List.nodup_range _).filter _

/-!  Insertion: the `add_new` walk and preservation of well-formedness. -/

theorem add_dista_mod {c a u : Nat} (ha : a < c) (hu : u < c) :
    (a + dista c a u) % c = u := by
  unfold dista
  split_ifs with h
  · rw [show a + (u - a) = u by omega]
    exact Nat.mod_eq_of_lt hu
  · rw [show a + (c + u - a) = c + u by omega, Nat.add_mod_left]
    exact Nat.mod_eq_of_lt hu

theorem dista_add_mod {c a d : Nat} (ha : a < c) (hd : d < c) :
    dista c a ((a + d) % c) = d := by
  have h2 : (a + d) % c = if a + d < c then a + d else a + d - c := by
    split
    · exact Nat.mod_eq_of_lt (by omega)
    · rw [Nat.mod_eq_sub_mod (by omega)]
      exact Nat.mod_eq_of_lt (by omega)
  rw [h2]
  unfold dista
  split_ifs <;> omega

theorem dista_inj {c a x y : Nat} (ha : a < c) (hx : x < c) (hy : y < c)
    (h : dista c a x = dista c a y) : x = y := by
  unfold dista at h
  split_ifs at h <;> omega

/-- On the probe circle from `h0` there is a first non-OCCUPIED slot
whenever one exists at all. -/
theorem exists_first_free (p : erase_policy) (st : table_data_t) (h0 : Nat)
    (hh0 : h0 ≤ st.capacity_minus_1)
    (hfree : ∃ u, u ≤ st.capacity_minus_1 ∧ getStatus p st u ≠ VALID) :
    ∃ f, f ≤ st.capacity_minus_1 ∧ getStatus p st f ≠ VALID ∧
      ∀ u, u ≤ st.capacity_minus_1 →
        dista (st.capacity_minus_1 + 1) h0 u < dista (st.capacity_minus_1 + 1) h0 f →
        getStatus p st u = VALID := by
  set c := st.capacity_minus_1 + 1 with hcdef
  obtain ⟨u, hu, huv⟩ := hfree
  have hP : ∃ d, getStatus p st ((h0 + d) % c) ≠ VALID := by
    refine ⟨dista c h0 u, ?_⟩
    rw [add_dista_mod (by omega) (by omega)]
    exact huv
  have hdu : dista c h0 u < c := dista_lt (by omega) (by omega)
  refine ⟨(h0 + Nat.find hP) % c, ?_, Nat.find_spec hP, ?_⟩
  · have := Nat.mod_lt (h0 + Nat.find hP) (y := c) (by omega)
    omega
  · intro w hw hlt
    have hfind_le : Nat.find hP ≤ dista c h0 u := Nat.find_le (by
      rw [add_dista_mod (by omega) (by omega)]; exact huv)
    rw [dista_add_mod (by omega) (by omega)] at hlt
    have hdw : dista c h0 w < c := dista_lt (by omega) (by omega)
    have hmin := Nat.find_min hP hlt
    rw [add_dista_mod (c := c) (a := h0) (u := w) (show h0 < c by omega)
      (show w < c by omega)] at hmin
    simpa using hmin

theorem VALID_lt_pow (p : erase_policy) : VALID < 2 ^ META_BITS_PER_ELEMENT p := by
  cases p <;> simp [VALID, META_BITS_PER_ELEMENT]

theorem getStatus_congr (p : erase_policy) {a b : table_data_t}
    (h : a.valid = b.valid) (i : Nat) : getStatus p a i = getStatus p b i := by
  rw [getStatus, getStatus, h]

@[simp] theorem store_at_size (p st idx k v) :
    (store_at p st idx k v).size = st.size + 1 := rfl
@[simp] theorem store_at_capm1 (p st idx k v) :
    (store_at p st idx k v).capacity_minus_1 = st.capacity_minus_1 := rfl
theorem store_at_key_table (p st idx k v) :
    (store_at p st idx k v).key_table = st.key_table.set idx k := rfl
theorem store_at_value_table (p st idx k v) :
    (store_at p st idx k v).value_table = st.value_table.set idx v := rfl
theorem store_at_valid (p st idx k v) :
    (store_at p st idx k v).valid = (setStatus p st idx VALID).valid := rfl

theorem slot_word_lt (p : erase_policy) (st : table_data_t) {i : Nat}
    (hi : i ≤ st.capacity_minus_1) (hlen : st.valid.length = num_valid_words p st) :
    i / META_ELEMENTS_PER_WORD p < st.valid.length := by
  rw [hlen, num_valid_words, Nat.add_div_right _ (EPW_pos p)]
  have := Nat.div_le_div_right (c := META_ELEMENTS_PER_WORD p) hi
  omega

/-- Reading after a store: the stored slot is OCCUPIED, the rest are
unchanged. -/
theorem getStatus_store_at (p : erase_policy) (hash : Nat → Nat) (st : table_data_t)
    (hwf : WF p hash st) {idx : Nat} (hidx : idx ≤ st.capacity_minus_1) (k v i : Nat) :
    getStatus p (store_at p st idx k v) i =
      if i = idx then VALID else getStatus p st i := by
  rw [getStatus_congr p (store_at_valid p st idx k v) i]
  exact getStatus_setStatus p st hwf.words_lt idx i VALID (VALID_lt_pow p)
    (slot_word_lt p st hidx hwf.words_len)

/-- Counting lemma: flipping one slot of the filter predicate from
false to true adds one element. -/
theorem length_filter_update {C f : Nat} (hf : f < C) (P Q : Nat → Bool)
    (hPQ : ∀ x, x ≠ f → P x = Q x) (hPf : P f = false) (hQf : Q f = true) :
    ((List.range C).filter Q).length = ((List.range C).filter P).length + 1 := by
  induction C with
  | zero => omega
  | succ c ih =>
    rw [List.range_succ, List.filter_append, List.filter_append,
      List.length_append, List.length_append]
    rcases Nat.lt_or_ge f c with h | h
    · rw [ih h]
      have : List.filter P [c] = List.filter Q [c] := by
        simp [List.filter, hPQ c (by omega)]
      rw [this]
      omega
    · have hfc : f = c := by omega
      subst hfc
      have hpre : (List.range f).filter P = (List.range f).filter Q := by
        apply List.filter_congr
        intro x hx
        rw [List.mem_range] at hx
        exact hPQ x (by omega)
      rw [hpre]
      simp [List.filter, hPf, hQf]

/-- Storing a fresh key at the first free slot of its probe path
preserves well-formedness. -/
theorem WF_store_at (p : erase_policy) (hash : Nat → Nat) (st : table_data_t)
    (hwf : WF p hash st) (f k v : Nat)
    (hf : f ≤ st.capacity_minus_1) (hfv : getStatus p st f ≠ VALID)
    (habs : ∀ i, i ≤ st.capacity_minus_1 → getStatus p st i = VALID →
      st.key_table.getD i 0 ≠ k)
    (hpath : ∀ u, u ≤ st.capacity_minus_1 →
      dista (st.capacity_minus_1 + 1) (hash k &&& st.capacity_minus_1) u <
        dista (st.capacity_minus_1 + 1) (hash k &&& st.capacity_minus_1) f →
      getStatus p st u = VALID) :
    WF p hash (store_at p st f k v) := by
  have hgs := getStatus_store_at p hash st hwf hf k v
  have hklen : st.key_table.length = st.capacity_minus_1 + 1 := hwf.keys_len
  constructor
  · exact hwf.cap_pow
  · rw [store_at_key_table, List.length_set]; exact hwf.keys_len
  · rw [store_at_value_table, List.length_set]; exact hwf.vals_len
  · rw [store_at_valid]
    simp only [setStatus_valid_length]
    rw [hwf.words_len]
    rfl
  · rw [store_at_valid]
    exact words_lt_setStatus p st f VALID (VALID_lt_pow p) hwf.words_lt
  · intro i hi
    rw [store_at_capm1] at hi
    rw [hgs i]
    split
    · simp [VALID, DELETED]
    · exact hwf.status_le i hi
  · intro i hi
    rw [store_at_capm1] at hi
    rw [hgs i, if_neg (by omega)]
    exact hwf.tail_zero i hi
  · rw [store_at_size, store_at_capm1, hwf.size_eq]
    exact (length_filter_update (f := f) (by omega)
      (fun i => decide (getStatus p st i = VALID))
      (fun i => decide (getStatus p (store_at p st f k v) i = VALID))
      (fun x hx => by simp [hgs x, hx])
      (by simp [hfv]) (by simp [hgs f])).symm
  · intro i j hi hj hvi hvj hkey
    rw [hgs i] at hvi
    rw [hgs j] at hvj
    rw [store_at_key_table] at hkey
    by_cases hif : i = f <;> by_cases hjf : j = f
    · omega
    · exfalso
      subst hif
      rw [getD_set_self (by omega) k, getD_set_ne (Ne.symm hjf) k] at hkey
      rw [if_neg hjf] at hvj
      exact habs j hj hvj hkey.symm
    · exfalso
      subst hjf
      rw [getD_set_ne (Ne.symm hif) k, getD_set_self (by omega) k] at hkey
      rw [if_neg hif] at hvi
      exact habs i hi hvi hkey
    · rw [getD_set_ne (Ne.symm hif) k, getD_set_ne (Ne.symm hjf) k] at hkey
      rw [if_neg hif] at hvi
      rw [if_neg hjf] at hvj
      exact hwf.uniq i j hi hj hvi hvj hkey
  · intro pos q hpos hq hvpos hvq
    rw [hgs pos] at hvpos
    rw [hgs q] at hvq
    have hqf : q ≠ f := by
      intro h
      rw [if_pos h] at hvq
      simp [VALID, INVALID] at hvq
    rw [if_neg hqf] at hvq
    rw [store_at_capm1] at *
    by_cases hposf : pos = f
    · subst hposf
      rw [store_at_key_table, getD_set_self (by omega) k]
      have hge : ¬ (dista (st.capacity_minus_1 + 1)
          (hash k &&& st.capacity_minus_1) q <
          dista (st.capacity_minus_1 + 1) (hash k &&& st.capacity_minus_1) pos) := by
        intro hlt
        have := hpath q hq hlt
        rw [this] at hvq
        simp [VALID, INVALID] at hvq
      have hne : q ≠ pos := hqf
      have hh : hash k &&& st.capacity_minus_1 ≤ st.capacity_minus_1 :=
        Nat.and_le_right
      rw [shift_keep_iff_dist (c := st.capacity_minus_1 + 1) (by omega) (by omega)
        (by omega)]
      have hinj : dista (st.capacity_minus_1 + 1) (hash k &&& st.capacity_minus_1) q ≠
          dista (st.capacity_minus_1 + 1) (hash k &&& st.capacity_minus_1) pos :=
        fun hcongr => hne (dista_inj (by omega) (by omega) (by omega) hcongr)
      unfold dista at *
      split_ifs at * <;> omega
    · rw [if_neg hposf] at hvpos
      rw [store_at_key_table, getD_set_ne (Ne.symm hposf) k]
      exact hwf.chain pos q hpos hq hvpos hvq


theorem size_le_capacity (p : erase_policy) (hash : Nat → Nat) (st : table_data_t)
    (hwf : WF p hash st) : st.size ≤ st.capacity_minus_1 + 1 := by
  rw [hwf.size_eq]
  calc ((List.range (st.capacity_minus_1 + 1)).filter _).length ≤
      (List.range (st.capacity_minus_1 + 1)).length := List.length_filter_le _ _
    _ = st.capacity_minus_1 + 1 := List.length_range _

theorem exists_free_of_size_lt (p : erase_policy) (hash : Nat → Nat)
    (st : table_data_t) (hwf : WF p hash st)
    (h : st.size < st.capacity_minus_1 + 1) :
    ∃ u, u ≤ st.capacity_minus_1 ∧ getStatus p st u ≠ VALID := by
  by_contra hc
  push_neg at hc
  have hall : (List.range (st.capacity_minus_1 + 1)).filter
      (fun i => decide (getStatus p st i = VALID)) =
      List.range (st.capacity_minus_1 + 1) := by
    rw [List.filter_eq_self]
    intro x hx
    rw [List.mem_range] at hx
    simp [hc x (by omega)]
  rw [hwf.size_eq, hall, List.length_range] at h
  omega

/-- Effect of a store on the abstract map. -/
theorem mapsTo_store_at (p : erase_policy) (hash : Nat → Nat) (st : table_data_t)
    (hwf : WF p hash st) {f : Nat} (k v : Nat)
    (hf : f ≤ st.capacity_minus_1) (hfv : getStatus p st f ≠ VALID)
    (habs : ∀ i, i ≤ st.capacity_minus_1 → getStatus p st i = VALID →
      st.key_table.getD i 0 ≠ k) :
    ∀ k2 v2, mapsTo p (store_at p st f k v) k2 v2 ↔
      ((k2 = k ∧ v2 = v) ∨ mapsTo p st k2 v2) := by
  intro k2 v2
  have hgs := getStatus_store_at p hash st hwf hf k v
  have hklen : st.key_table.length = st.capacity_minus_1 + 1 := hwf.keys_len
  have hvlen : st.value_table.length = st.capacity_minus_1 + 1 := hwf.vals_len
  constructor
  · rintro ⟨i, hi, hvi, hki, hvv⟩
    rw [store_at_capm1] at hi
    rw [hgs i] at hvi
    rw [store_at_key_table] at hki
    rw [store_at_value_table] at hvv
    by_cases hif : i = f
    · subst hif
      rw [getD_set_self (by omega) k] at hki
      rw [getD_set_self (by omega) v] at hvv
      exact Or.inl ⟨hki.symm, hvv.symm⟩
    · rw [if_neg hif] at hvi
      rw [getD_set_ne (Ne.symm hif) k] at hki
      rw [getD_set_ne (Ne.symm hif) v] at hvv
      exact Or.inr ⟨i, hi, hvi, hki, hvv⟩
  · rintro (⟨hk2, hv2⟩ | ⟨i, hi, hvi, hki, hvv⟩)
    · refine ⟨f, ?_, ?_, ?_, ?_⟩
      · rw [store_at_capm1]; exact hf
      · rw [hgs f]; simp
      · rw [store_at_key_table, getD_set_self (by omega) k, hk2]
      · rw [store_at_value_table, getD_set_self (by omega) v, hv2]
    · have hif : i ≠ f := by
        intro h
        subst h
        exact hfv hvi
      refine ⟨i, ?_, ?_, ?_, ?_⟩
      · rw [store_at_capm1]; exact hi
      · rw [hgs i, if_neg hif]; exact hvi
      · rw [store_at_key_table, getD_set_ne (Ne.symm hif) k]; exact hki
      · rw [store_at_value_table, getD_set_ne (Ne.symm hif) v]; exact hvv

/-- A free starting slot is taken immediately. -/
theorem add_new_loop_free_start (p : erase_policy) (st : table_data_t)
    (k v fuel orig idx : Nat) (hfree : getStatus p st idx ≠ VALID) :
    add_new_loop p st k v (fuel + 1) orig idx =
      .placed (store_at p st idx k v) idx := by
  rw [add_new_loop, if_pos hfree]

/-- A collision under high load reports `need_grow` at once. -/
theorem add_new_loop_highload (p : erase_policy) (st : table_data_t)
    (k v fuel orig idx : Nat) (hval : getStatus p st idx = VALID)
    (hload : st.size * 2 > st.capacity_minus_1) :
    add_new_loop p st k v (fuel + 1) orig idx = .need_grow := by
  rw [add_new_loop, if_neg (by simp [hval]), if_pos hload]

/-- Under low load the walk places the key at the first free slot of its
probe path. -/
theorem add_new_loop_finds_free (p : erase_policy) (st : table_data_t) (k v f : Nat)
    (hf : f ≤ st.capacity_minus_1)
    (hfv : getStatus p st f ≠ VALID)
    (hlow : ¬ st.size * 2 > st.capacity_minus_1)
    {t : Nat} (hc : st.capacity_minus_1 + 1 = 2 ^ t) :
    ∀ fuel orig idx,
      idx ≤ st.capacity_minus_1 → orig ≤ st.capacity_minus_1 →
      dista (st.capacity_minus_1 + 1) orig f ≥
        dista (st.capacity_minus_1 + 1) idx f →
      dista (st.capacity_minus_1 + 1) orig idx =
        dista (st.capacity_minus_1 + 1) orig f -
          dista (st.capacity_minus_1 + 1) idx f →
      (∀ u, u ≤ st.capacity_minus_1 →
        dista (st.capacity_minus_1 + 1) idx u <
          dista (st.capacity_minus_1 + 1) idx f →
        getStatus p st u = VALID) →
      fuel ≥ dista (st.capacity_minus_1 + 1) idx f + 1 →
      add_new_loop p st k v fuel orig idx = .placed (store_at p st f k v) f := by
  set c := st.capacity_minus_1 + 1 with hcdef
  intro fuel
  induction fuel with
  | zero => intro orig idx _ _ _ _ _ hfl; omega
  | succ n ih =>
    intro orig idx hidx horig hle hsum hpath hfuel
    by_cases htgt : idx = f
    · subst htgt
      exact add_new_loop_free_start p st k v n orig idx hfv
    · have hd0 : dista c idx f ≠ 0 := by
        intro h0
        exact htgt ((dista_eq_zero_iff (by omega) (by omega)).mp h0).symm
      have hD0 := dista_lt (c := c) (a := orig) (x := f) (by omega) (by omega)
      have hstep := hpath idx hidx (by rw [dista_self]; omega)
      rw [add_new_loop, if_neg (by simp [hstep]), if_neg hlow]
      rw [step_and_eq_mod st hc, succ_mod_eq (show idx < c by omega)]
      by_cases hwrap : idx + 1 = c
      · simp only [if_pos hwrap]
        have hne2 : ¬(0 = orig) := by
          intro h
          unfold dista at hle hsum hd0
          split_ifs at hle hsum hd0 <;> omega
        rw [if_neg hne2]
        refine ih orig 0 (by omega) horig ?_ ?_ ?_ ?_
        · unfold dista at hle hsum hd0 ⊢
          split_ifs at hle hsum hd0 ⊢ <;> omega
        · unfold dista at hle hsum hd0 ⊢
          split_ifs at hle hsum hd0 ⊢ <;> omega
        · intro u hu hlt
          refine hpath u hu ?_
          unfold dista at hlt hd0 ⊢
          split_ifs at hlt hd0 ⊢ <;> omega
        · unfold dista at hfuel hd0 ⊢
          split_ifs at hfuel hd0 ⊢ <;> omega
      · simp only [if_neg hwrap]
        have hne2 : ¬(idx + 1 = orig) := by
          intro h
          unfold dista at hle hsum hd0
          split_ifs at hle hsum hd0 <;> omega
        rw [if_neg hne2]
        refine ih orig (idx + 1) (by omega) horig ?_ ?_ ?_ ?_
        · unfold dista at hle hsum hd0 ⊢
          split_ifs at hle hsum hd0 ⊢ <;> omega
        · unfold dista at hle hsum hd0 ⊢
          split_ifs at hle hsum hd0 ⊢ <;> omega
        · intro u hu hlt
          refine hpath u hu ?_
          unfold dista at hlt hd0 ⊢
          split_ifs at hlt hd0 ⊢ <;> omega
        · unfold dista at hfuel hd0 ⊢
          split_ifs at hfuel hd0 ⊢ <;> omega

/-- Full characterisation of one low-load `add_new` walk from the home
slot. -/
theorem add_new_walk_low (p : erase_policy) (hash : Nat → Nat) (st : table_data_t)
    (hwf : WF p hash st) (k v : Nat)
    (hlow : ¬ st.size * 2 > st.capacity_minus_1) :
    ∃ f, f ≤ st.capacity_minus_1 ∧ getStatus p st f ≠ VALID ∧
      (∀ u, u ≤ st.capacity_minus_1 →
        dista (st.capacity_minus_1 + 1) (hash k &&& st.capacity_minus_1) u <
          dista (st.capacity_minus_1 + 1) (hash k &&& st.capacity_minus_1) f →
        getStatus p st u = VALID) ∧
      add_new_loop p st k v (st.capacity_minus_1 + 1)
        (hash k &&& st.capacity_minus_1) (hash k &&& st.capacity_minus_1) =
        .placed (store_at p st f k v) f := by
  obtain ⟨t, hc⟩ := hwf.cap_pow
  have hh0 : hash k &&& st.capacity_minus_1 ≤ st.capacity_minus_1 := Nat.and_le_right
  have hfree : ∃ u, u ≤ st.capacity_minus_1 ∧ getStatus p st u ≠ VALID := by
    apply exists_free_of_size_lt p hash st hwf
    omega
  obtain ⟨f, hf1, hf2, hf3⟩ := exists_first_free p st _ hh0 hfree
  refine ⟨f, hf1, hf2, hf3, ?_⟩
  apply add_new_loop_finds_free p st k v f hf1 hf2 hlow hc _ _ _ hh0 hh0
    (le_refl _) (by rw [dista_self]; omega) hf3
  have := dista_lt (c := st.capacity_minus_1 + 1)
    (a := hash k &&& st.capacity_minus_1) (x := f) (by omega) (by omega)
  omega

theorem getD_replicate_zero (m j : Nat) : (List.replicate m (0 : Nat)).getD j 0 = 0 := by
  rw [List.getD_eq_getElem?_getD, List.getElem?_replicate]
  split <;> rfl

theorem getStatus_fresh (p : erase_policy) (n i : Nat) :
    getStatus p (fresh_data p n) i = 0 := by
  rw [getStatus_def, fresh_data]
  simp only []
  rw [getD_replicate_zero, extractF_zero]

/-- A freshly allocated table of power-of-two capacity is well-formed. -/
theorem WF_fresh (p : erase_policy) (hash : Nat → Nat) (n : Nat)
    (hpow : ∃ t, n = 2 ^ t) : WF p hash (fresh_data p n) := by
  obtain ⟨t, ht⟩ := hpow
  have hn : 1 ≤ n := by
    rw [ht]; exact Nat.one_le_two_pow
  have hE := EPW_pos p
  constructor
  · exact ⟨t, by simp [fresh_data]; omega⟩
  · simp [fresh_data]; omega
  · simp [fresh_data]; omega
  · simp only [fresh_data, num_valid_words, List.length_replicate]
    congr 1
    omega
  · intro w hw
    simp only [fresh_data] at hw
    rw [List.eq_of_mem_replicate hw]
    norm_num
  · intro i _
    rw [getStatus_fresh]
    simp [DELETED]
  · intro i _
    exact getStatus_fresh p n i
  · have hz : (fresh_data p n).size = 0 := rfl
    rw [hz]
    symm
    rw [List.length_eq_zero, List.filter_eq_nil]
    intro x _
    simp [getStatus_fresh, VALID]
  · intro i j _ _ hvi _ _
    rw [getStatus_fresh] at hvi
    simp [VALID] at hvi
  · intro pos q _ _ hvpos _
    rw [getStatus_fresh] at hvpos
    simp [VALID] at hvpos

/-- The rehash fold of `increase_table_size`: inserting a list of
distinct-key OCCUPIED entries into a well-formed accumulator with
headroom succeeds, preserves well-formedness and adds exactly those
entries. -/
theorem rehash_into_spec (p : erase_policy) (hash : Nat → Nat) (old : table_data_t) :
    ∀ l acc, WF p hash acc →
      (∀ i ∈ l, i ≤ old.capacity_minus_1 ∧ getStatus p old i = VALID) →
      (∀ i j, i ∈ l → j ∈ l →
        old.key_table.getD i 0 = old.key_table.getD j 0 → i = j) →
      l.Nodup →
      (∀ i ∈ l, ∀ jj, jj ≤ acc.capacity_minus_1 → getStatus p acc jj = VALID →
        acc.key_table.getD jj 0 ≠ old.key_table.getD i 0) →
      2 * (acc.size + l.length) ≤ acc.capacity_minus_1 + 1 →
      ∃ acc', rehash_into p hash old l acc = some acc' ∧ WF p hash acc' ∧
        acc'.capacity_minus_1 = acc.capacity_minus_1 ∧
        acc'.size = acc.size + l.length ∧
        ∀ k2 v2, mapsTo p acc' k2 v2 ↔
          (mapsTo p acc k2 v2 ∨ ∃ i ∈ l, old.key_table.getD i 0 = k2 ∧
            old.value_table.getD i 0 = v2) := by
  intro l
  induction l with
  | nil =>
    intro acc hwfa _ _ _ _ _
    refine ⟨acc, rfl, hwfa, rfl, by simp, ?_⟩
    simp
  | cons i rest ih =>
    intro acc hwfa hval hdk hnodup habs hload
    have hlow : ¬ acc.size * 2 > acc.capacity_minus_1 := by
      simp only [List.length_cons] at hload
      omega
    obtain ⟨f, hf1, hf2, hf3, hf4⟩ := add_new_walk_low p hash acc hwfa
      (old.key_table.getD i 0) (old.value_table.getD i 0) hlow
    rw [rehash_into, hf4]
    have habs_i : ∀ jj, jj ≤ acc.capacity_minus_1 → getStatus p acc jj = VALID →
        acc.key_table.getD jj 0 ≠ old.key_table.getD i 0 :=
      habs i (List.mem_cons_self i rest)
    have hwf1 : WF p hash (store_at p acc f (old.key_table.getD i 0)
        (old.value_table.getD i 0)) :=
      WF_store_at p hash acc hwfa f _ _ hf1 hf2 habs_i hf3
    have hmaps1 := mapsTo_store_at p hash acc hwfa
      (old.key_table.getD i 0) (old.value_table.getD i 0) hf1 hf2 habs_i
    have hkey_f : (store_at p acc f (old.key_table.getD i 0)
        (old.value_table.getD i 0)).key_table.getD f 0 = old.key_table.getD i 0 := by
      rw [store_at_key_table, getD_set_self (by rw [hwfa.keys_len]; omega)]
    obtain ⟨acc', hrec, hwf', hcap', hsize', hmaps'⟩ := ih
      (store_at p acc f (old.key_table.getD i 0) (old.value_table.getD i 0))
      hwf1
      (fun j hj => hval j (List.mem_cons_of_mem i hj))
      (fun a b ha hb => hdk a b (List.mem_cons_of_mem i ha) (List.mem_cons_of_mem i hb))
      (List.Nodup.of_cons hnodup)
      (by
        intro j hj jj hjj hvjj
        rw [store_at_capm1] at hjj
        rw [getStatus_store_at p hash acc hwfa hf1 _ _ jj] at hvjj
        by_cases hjf : jj = f
        · subst hjf
          rw [hkey_f]
          intro heq
          have hij := hdk i j (List.mem_cons_self i rest) (List.mem_cons_of_mem i hj) heq
          subst hij
          exact (List.nodup_cons.mp hnodup).1 hj
        · rw [if_neg hjf] at hvjj
          rw [store_at_key_table, getD_set_ne (Ne.symm hjf)]
          exact habs j (List.mem_cons_of_mem i hj) jj hjj hvjj)
      (by
        rw [store_at_size, store_at_capm1]
        simp only [List.length_cons] at hload
        omega)
    refine ⟨acc', hrec, hwf', by rw [hcap', store_at_capm1], ?_, ?_⟩
    · rw [hsize', store_at_size]
      simp only [List.length_cons]
      omega
    · intro k2 v2
      rw [hmaps' k2 v2, hmaps1 k2 v2]
      simp only [List.mem_cons]
      constructor
      · rintro ((⟨hk, hv⟩ | hacc) | ⟨j, hj, hkj, hvj⟩)
        · exact Or.inr ⟨i, Or.inl rfl, hk.symm, hv.symm⟩
        · exact Or.inl hacc
        · exact Or.inr ⟨j, Or.inr hj, hkj, hvj⟩
      · rintro (hacc | ⟨j, (hj | hj), hkj, hvj⟩)
        · exact Or.inl (Or.inr hacc)
        · subst hj
          exact Or.inl (Or.inl ⟨hkj.symm, hvj.symm⟩)
        · exact Or.inr ⟨j, hj, hkj, hvj⟩

/-- `increase_table_size` to a power-of-two capacity with headroom:
succeeds, preserves the key-value map and the occupancy count. -/
theorem increase_table_size_spec (p : erase_policy) (hash : Nat → Nat)
    (st : table_data_t) (new_size : Nat) (hwf : WF p hash st)
    (hpow : ∃ t2, new_size = 2 ^ t2)
    (hsize : 2 * st.size ≤ new_size) :
    ∃ st', increase_table_size p hash st new_size = some st' ∧ WF p hash st' ∧
      st'.capacity_minus_1 + 1 = new_size ∧ st'.size = st.size ∧
      ∀ k2 v2, mapsTo p st' k2 v2 ↔ mapsTo p st k2 v2 := by
  have hwff := WF_fresh p hash new_size hpow
  have hn1 : 1 ≤ new_size := by
    obtain ⟨t2, ht2⟩ := hpow
    rw [ht2]; exact Nat.one_le_two_pow
  have hfresh_cap : (fresh_data p new_size).capacity_minus_1 = new_size - 1 := rfl
  have hfresh_size : (fresh_data p new_size).size = 0 := rfl
  obtain ⟨st', h1, h2, h3, h4, h5⟩ := rehash_into_spec p hash st (iter_list p st)
    (fresh_data p new_size) hwff
    (by
      intro i hi
      exact (iter_list_mem p hash st hwf i).mp hi)
    (by
      intro a b ha hb heq
      obtain ⟨ha1, ha2⟩ := (iter_list_mem p hash st hwf a).mp ha
      obtain ⟨hb1, hb2⟩ := (iter_list_mem p hash st hwf b).mp hb
      exact hwf.uniq a b ha1 hb1 ha2 hb2 heq)
    (iter_list_nodup p hash st hwf)
    (by
      intro i _ jj _ hvjj
      rw [getStatus_fresh] at hvjj
      simp [VALID] at hvjj)
    (by
      rw [hfresh_size, hfresh_cap, iter_list_length p hash st hwf]
      omega)
  refine ⟨st', h1, h2, by rw [h3, hfresh_cap]; omega, ?_, ?_⟩
  · rw [h4, hfresh_size, iter_list_length p hash st hwf]
    omega
  · intro k2 v2
    rw [h5 k2 v2]
    constructor
    · rintro (⟨j, _, hvj, _, _⟩ | ⟨j, hj, hkj, hvj⟩)
      · rw [getStatus_fresh] at hvj
        simp [VALID] at hvj
      · obtain ⟨hj1, hj2⟩ := (iter_list_mem p hash st hwf j).mp hj
        exact ⟨j, hj1, hj2, hkj, hvj⟩
    · rintro ⟨j, hj1, hj2, hkj, hvj⟩
      exact Or.inr ⟨j, (iter_list_mem p hash st hwf j).mpr ⟨hj1, hj2⟩, hkj, hvj⟩

/-- The `restart` loop of `add_new` with enough growth fuel: places the
absent key, preserving well-formedness and the rest of the map. -/
theorem add_new_go_spec (p : erase_policy) (hash : Nat → Nat) (k v : Nat) :
    ∀ gfuel st, WF p hash st →
      (∀ i, i ≤ st.capacity_minus_1 → getStatus p st i = VALID →
        st.key_table.getD i 0 ≠ k) →
      1 ≤ gfuel →
      2 * st.size + 2 ≤ 2 ^ (gfuel - 1) * (st.capacity_minus_1 + 1) →
      ∃ st' idx, add_new_go p hash k v (hash k) gfuel st = some (st', idx) ∧
        WF p hash st' ∧ idx ≤ st'.capacity_minus_1 ∧
        getStatus p st' idx = VALID ∧
        st'.key_table.getD idx 0 = k ∧ st'.value_table.getD idx 0 = v ∧
        st'.size = st.size + 1 ∧
        (∀ k2 v2, mapsTo p st' k2 v2 ↔ ((k2 = k ∧ v2 = v) ∨ mapsTo p st k2 v2)) := by
  intro gfuel
  induction gfuel with
  | zero => intro st _ _ h1 _; omega
  | succ g ih =>
    intro st hwf habs _ hroom
    set h0 := hash k &&& st.capacity_minus_1 with hh0def
    have hh0 : h0 ≤ st.capacity_minus_1 := Nat.and_le_right
    have hklen := hwf.keys_len
    have hvlen := hwf.vals_len
    by_cases hlow : st.size * 2 > st.capacity_minus_1
    · by_cases hfree : getStatus p st h0 = VALID
      · -- collision under high load: grow and restart
        have hloop : add_new_loop p st k v (st.capacity_minus_1 + 1) h0 h0 =
            .need_grow :=
          add_new_loop_highload p st k v st.capacity_minus_1 h0 h0 hfree hlow
        rw [add_new_go, hloop]
        obtain ⟨t, hc⟩ := hwf.cap_pow
        have hpow2 : ∃ t2, (st.capacity_minus_1 + 1) * 2 = 2 ^ t2 :=
          ⟨t + 1, by rw [hc, pow_succ]⟩
        have hsz := size_le_capacity p hash st hwf
        obtain ⟨st1, hinc, hwf1, hcap1, hsize1, hmaps1⟩ :=
          increase_table_size_spec p hash st ((st.capacity_minus_1 + 1) * 2) hwf
            hpow2 (by omega)
        rw [hinc]
        have hg1 : 1 ≤ g := by
          rcases Nat.eq_zero_or_pos g with hg | hg
          · exfalso
            subst hg
            simp at hroom
            omega
          · exact hg
        have habs1 : ∀ i, i ≤ st1.capacity_minus_1 → getStatus p st1 i = VALID →
            st1.key_table.getD i 0 ≠ k := by
          intro i hi hvi heq
          have hm : mapsTo p st1 k (st1.value_table.getD i 0) :=
            ⟨i, hi, hvi, heq, rfl⟩
          rw [hmaps1] at hm
          obtain ⟨j, hj, hvj, hkj, _⟩ := hm
          exact habs j hj hvj hkj
        obtain ⟨st', idx, hrun, hwf', hidx, hvidx, hkidx, hvvidx, hsize', hmaps'⟩ :=
          ih st1 hwf1 habs1 hg1 (by
            rw [hsize1, hcap1]
            have hexp : 2 ^ (g - 1) * ((st.capacity_minus_1 + 1) * 2) =
                2 ^ g * (st.capacity_minus_1 + 1) := by
              rw [Nat.mul_comm (st.capacity_minus_1 + 1) 2, ← Nat.mul_assoc,
                Nat.mul_comm (2 ^ (g - 1)) 2, ← pow_succ']
              rw [show g - 1 + 1 = g by omega]
            rw [hexp]
            simpa using hroom)
        refine ⟨st', idx, hrun, hwf', hidx, hvidx, hkidx, hvvidx, ?_, ?_⟩
        · rw [hsize', hsize1]
        · intro k2 v2
          rw [hmaps' k2 v2, hmaps1 k2 v2]
      · -- home slot free: place immediately even under high load
        have hloop : add_new_loop p st k v (st.capacity_minus_1 + 1) h0 h0 =
            .placed (store_at p st h0 k v) h0 :=
          add_new_loop_free_start p st k v st.capacity_minus_1 h0 h0 hfree
        rw [add_new_go, hloop]
        have hpath : ∀ u, u ≤ st.capacity_minus_1 →
            dista (st.capacity_minus_1 + 1) h0 u <
              dista (st.capacity_minus_1 + 1) h0 h0 → getStatus p st u = VALID := by
          intro u _ hlt
          rw [dista_self] at hlt
          omega
        refine ⟨store_at p st h0 k v, h0,
          rfl, WF_store_at p hash st hwf h0 k v hh0 hfree habs hpath, ?_, ?_, ?_, ?_,
          rfl, mapsTo_store_at p hash st hwf k v hh0 hfree habs⟩
        · rw [store_at_capm1]; exact hh0
        · rw [getStatus_store_at p hash st hwf hh0 k v]; simp
        · rw [store_at_key_table, getD_set_self (by omega) k]
        · rw [store_at_value_table, getD_set_self (by omega) v]
    · -- low load: the walk places at the first free slot
      obtain ⟨f, hf1, hf2, hf3, hf4⟩ := add_new_walk_low p hash st hwf k v hlow
      rw [add_new_go, hf4]
      refine ⟨store_at p st f k v, f, rfl,
        WF_store_at p hash st hwf f k v hf1 hf2 habs hf3, ?_, ?_, ?_, ?_,
        rfl, mapsTo_store_at p hash st hwf k v hf1 hf2 habs⟩
      · rw [store_at_capm1]; exact hf1
      · rw [getStatus_store_at p hash st hwf hf1 k v]; simp
      · rw [store_at_key_table, getD_set_self (by omega) k]
      · rw [store_at_value_table, getD_set_self (by omega) v]

/-- `add_new` with its default growth fuel. -/
theorem add_new_spec (p : erase_policy) (hash : Nat → Nat) (st : table_data_t)
    (k v : Nat) (hwf : WF p hash st)
    (habs : ∀ i, i ≤ st.capacity_minus_1 → getStatus p st i = VALID →
      st.key_table.getD i 0 ≠ k) :
    ∃ st' idx, add_new p hash st k v (hash k) = some (st', idx) ∧
      WF p hash st' ∧ idx ≤ st'.capacity_minus_1 ∧
      getStatus p st' idx = VALID ∧
      st'.key_table.getD idx 0 = k ∧ st'.value_table.getD idx 0 = v ∧
      st'.size = st.size + 1 ∧
      (∀ k2 v2, mapsTo p st' k2 v2 ↔ ((k2 = k ∧ v2 = v) ∨ mapsTo p st k2 v2)) := by
  apply add_new_go_spec p hash k v (st.size + 2) st hwf habs (by omega)
  have h1 : st.size + 1 ≤ 2 ^ st.size := Nat.lt_two_pow st.size
  have h2 : (2 : Nat) ^ (st.size + 2 - 1) = 2 * 2 ^ st.size := by
    rw [show st.size + 2 - 1 = st.size + 1 by omega, pow_succ]
    ring
  rw [h2]
  have h3 : 1 ≤ st.capacity_minus_1 + 1 := by omega
  calc 2 * st.size + 2 = 2 * (st.size + 1) := by ring
    _ ≤ 2 * 2 ^ st.size := by omega
    _ = 2 * 2 ^ st.size * 1 := by ring
    _ ≤ 2 * 2 ^ st.size * (st.capacity_minus_1 + 1) := by
        exact Nat.mul_le_mul_left _ h3

/-- Public `insert` on a present key: returns `false`, no modification. -/
theorem insert_present (p : erase_policy) (hash : Nat → Nat) (st : table_data_t)
    (k v : Nat) (hwf : WF p hash st)
    {i : Nat} (hi : i ≤ st.capacity_minus_1) (hvi : getStatus p st i = VALID)
    (hki : st.key_table.getD i 0 = k) :
    insert p hash st k v = some (false, st) := by
  rw [insert, get_index_eq_some_of p hash st hwf hi hvi hki]

/-- Public `insert` on an absent key: returns `true` and stores the
pair. -/
theorem insert_absent (p : erase_policy) (hash : Nat → Nat) (st : table_data_t)
    (k v : Nat) (hwf : WF p hash st)
    (habs : ∀ i, i ≤ st.capacity_minus_1 → getStatus p st i = VALID →
      st.key_table.getD i 0 ≠ k) :
    ∃ st', insert p hash st k v = some (true, st') ∧ WF p hash st' ∧
      st'.size = st.size + 1 ∧
      (∃ idx, idx ≤ st'.capacity_minus_1 ∧ getStatus p st' idx = VALID ∧
        st'.key_table.getD idx 0 = k ∧ st'.value_table.getD idx 0 = v) ∧
      (∀ k2 v2, mapsTo p st' k2 v2 ↔ ((k2 = k ∧ v2 = v) ∨ mapsTo p st k2 v2)) := by
  obtain ⟨st', idx, hrun, hwf', hidx, hvidx, hkidx, hvvidx, hsize', hmaps'⟩ :=
    add_new_spec p hash st k v hwf habs
  refine ⟨st', ?_, hwf', hsize', ⟨idx, hidx, hvidx, hkidx, hvvidx⟩, hmaps'⟩
  rw [insert, (get_index_none_iff p hash st hwf k).mpr habs, hrun]

/-!  Erase, rehash policy: the backward-shift loop. -/

@[simp] theorem shift_entry_capm1 (p st i j) :
    (shift_entry p st i j).capacity_minus_1 = st.capacity_minus_1 := rfl
@[simp] theorem shift_entry_size (p st i j) :
    (shift_entry p st i j).size = st.size := rfl
theorem shift_entry_key_table (p st i j) :
    (shift_entry p st i j).key_table = st.key_table.set i (st.key_table.getD j 0) := rfl
theorem shift_entry_value_table (p st i j) :
    (shift_entry p st i j).value_table =
      st.value_table.set i (st.value_table.getD j 0) := rfl
@[simp] theorem shift_entry_valid_length (p st i j) :
    (shift_entry p st i j).valid.length = st.valid.length := by
  rw [shift_entry]
  simp only [clearStatus_valid_length, orStatus_valid_length]

theorem fieldMask_lt_pow (p : erase_policy) :
    fieldMask p < 2 ^ META_BITS_PER_ELEMENT p := by
  cases p <;> simp [fieldMask, META_BITS_PER_ELEMENT]

theorem words_lt_shift_entry (p : erase_policy) (st : table_data_t) (i j : Nat)
    (h : ∀ w ∈ st.valid, w < 2 ^ 32) :
    ∀ w ∈ (shift_entry p st i j).valid, w < 2 ^ 32 := by
  apply words_lt_clearStatus
  apply words_lt_orStatus p _ i _ (fieldMask_lt_pow p)
  exact h

/-- Slot states after a backward-shift move: source cleared, hole
occupied, the rest unchanged. -/
theorem getStatus_shift_entry (p : erase_policy) (st : table_data_t) (i j : Nat)
    (hwords : ∀ w ∈ st.valid, w < 2 ^ 32)
    (hzero : getStatus p st i = 0)
    (hleni : i / META_ELEMENTS_PER_WORD p < st.valid.length)
    (hij : i ≠ j) (x : Nat) :
    getStatus p (shift_entry p st i j) x =
      if x = j then 0 else if x = i then fieldMask p else getStatus p st x := by
  have hkeys : (({ st with
      key_table := st.key_table.set i (st.key_table.getD j 0)
      value_table := st.value_table.set i (st.value_table.getD j 0) } :
        table_data_t)).valid = st.valid := rfl
  rw [shift_entry]
  rw [getStatus_clearStatus p _ (words_lt_orStatus p _ i _ (fieldMask_lt_pow p)
    (by rw [hkeys]; exact hwords)) j x]
  split
  · rfl
  · rw [getStatus_orStatus p _ (by rw [hkeys]; exact hwords) i x _ (fieldMask_lt_pow p)
      (by rw [getStatus_congr p hkeys]; exact hzero) (by
        simp only [hkeys]
        exact hleni)]
    split
    · rfl
    · exact getStatus_congr p hkeys x


theorem dispSum_le (hash : Nat → Nat) (st : table_data_t) :
    dispSum hash st ≤ (st.capacity_minus_1 + 1) * st.capacity_minus_1 := by
  rw [dispSum]
  have h1 : ∀ x ∈ Finset.range (st.capacity_minus_1 + 1),
      (if getStatus .rehash st x = VALID then
        dista (st.capacity_minus_1 + 1)
          (hash (st.key_table.getD x 0) &&& st.capacity_minus_1) x
       else 0) ≤ st.capacity_minus_1 := by
    intro x hx
    rw [Finset.mem_range] at hx
    split
    · have := dista_lt (c := st.capacity_minus_1 + 1)
        (a := hash (st.key_table.getD x 0) &&& st.capacity_minus_1) (x := x)
        (by have : hash (st.key_table.getD x 0) &&& st.capacity_minus_1 ≤
              st.capacity_minus_1 := Nat.and_le_right
            omega)
        (by omega)
      omega
    · omega
  calc (∑ x ∈ Finset.range (st.capacity_minus_1 + 1), _) ≤
      (Finset.range (st.capacity_minus_1 + 1)).card * st.capacity_minus_1 :=
        Finset.sum_le_card_nsmul _ _ _ h1
    _ = (st.capacity_minus_1 + 1) * st.capacity_minus_1 := by
        rw [Finset.card_range]

theorem sum_eq_of_eq_except_two {n a b : Nat} (ha : a < n) (hb : b < n) (hab : a ≠ b)
    (F G : Nat → Nat) (h : ∀ x, x < n → x ≠ a → x ≠ b → F x = G x) :
    (∑ x ∈ Finset.range n, F x) + G a + G b =
      (∑ x ∈ Finset.range n, G x) + F a + F b := by
  have haf : a ∈ Finset.range n := Finset.mem_range.mpr ha
  have hbf : b ∈ (Finset.range n).erase a :=
    Finset.mem_erase.mpr ⟨Ne.symm hab, Finset.mem_range.mpr hb⟩
  have hF : ∑ x ∈ Finset.range n, F x =
      F a + (F b + ∑ x ∈ ((Finset.range n).erase a).erase b, F x) := by
    rw [Finset.add_sum_erase _ F hbf, Finset.add_sum_erase _ F haf]
  have hG : ∑ x ∈ Finset.range n, G x =
      G a + (G b + ∑ x ∈ ((Finset.range n).erase a).erase b, G x) := by
    rw [Finset.add_sum_erase _ G hbf, Finset.add_sum_erase _ G haf]
  have hmid : ∑ x ∈ ((Finset.range n).erase a).erase b, F x =
      ∑ x ∈ ((Finset.range n).erase a).erase b, G x := by
    apply Finset.sum_congr rfl
    intro x hx
    rw [Finset.mem_erase, Finset.mem_erase, Finset.mem_range] at hx
    exact h x hx.2.2 hx.2.1 hx.1
  omega

theorem dista_pred_step {c a i : Nat} (ha : a < c) (hi : i < c) (hne : a ≠ i) :
    dista c ((a + 1) % c) i + 1 = dista c a i := by
  rw [succ_mod_eq ha]
  unfold dista
  split_ifs <;> omega

theorem shift_keep_compl {c a b x : Nat} (ha : a < c) (hb : b < c) (hx : x < c)
    (hab : a ≠ b) : ¬ shift_keep a b x ↔ shift_keep b a x := by
  unfold shift_keep
  split_ifs <;> omega

theorem dista_dec_of_keep {c i j2 h : Nat} (hi : i < c) (hj : j2 < c) (hh : h < c)
    (hij : i ≠ j2) (hk : shift_keep j2 i h) : dista c h i < dista c h j2 := by
  unfold shift_keep dista at *
  split_ifs at * <;> omega

theorem length_filter_update_lt {C f : Nat} (hf : f < C) (P Q : Nat → Bool)
    (hPQ : ∀ x, x < C → x ≠ f → P x = Q x) (hPf : P f = false) (hQf : Q f = true) :
    ((List.range C).filter Q).length = ((List.range C).filter P).length + 1 := by
  induction C with
  | zero => omega
  | succ c ih =>
    rw [List.range_succ, List.filter_append, List.filter_append,
      List.length_append, List.length_append]
    rcases Nat.lt_or_ge f c with h1 | h1
    · rw [ih h1 (fun x hx hxf => hPQ x (by omega) hxf)]
      have : List.filter P [c] = List.filter Q [c] := by
        simp [List.filter, hPQ c (by omega) (by omega)]
      rw [this]
      omega
    · have hfc : f = c := by omega
      subst hfc
      have hpre : (List.range f).filter P = (List.range f).filter Q := by
        apply List.filter_congr
        intro x hx
        rw [List.mem_range] at hx
        exact hPQ x (by omega) (by omega)
      rw [hpre]
      simp [List.filter, hPf, hQf]

theorem length_filter_swap {C a b : Nat} (ha : a < C) (hb : b < C) (hab : a ≠ b)
    (P Q : Nat → Bool) (h : ∀ x, x < C → x ≠ a → x ≠ b → P x = Q x)
    (hPa : P a = true) (hQa : Q a = false) (hPb : P b = false) (hQb : Q b = true) :
    ((List.range C).filter P).length = ((List.range C).filter Q).length := by
  have h1 := length_filter_update_lt ha (fun x => if x = a then false else P x) P
    (fun x hx hxa => by
      show (if x = a then false else P x) = P x
      rw [if_neg hxa])
    (by
      show (if a = a then false else P a) = false
      rw [if_pos rfl]) hPa
  have h2 := length_filter_update_lt hb (fun x => if x = a then false else P x) Q
    (fun x hx hxb => by
      show (if x = a then false else P x) = Q x
      by_cases hxa : x = a
      · rw [if_pos hxa, hxa, hQa]
      · rw [if_neg hxa]
        exact h x hx hxa hxb)
    (by
      show (if b = a then false else P b) = false
      rw [if_neg (Ne.symm hab), hPb]) hQb
  omega

theorem shift_keep_ext {c i j x : Nat} (hi : i < c) (hj : j < c) (hx : x < c)
    (hne : (j + 1) % c ≠ i) :
    shift_keep i ((j + 1) % c) x ↔ (shift_keep i j x ∨ x = (j + 1) % c) := by
  rw [succ_mod_eq hj] at *
  unfold shift_keep
  split_ifs at * <;> omega

theorem seg_all_of_wrap {c i j pos : Nat} (hi : i < c) (hj : j < c) (hpos : pos < c)
    (hni : pos ≠ i) (hwrap : (j + 1) % c = i) : shift_keep i j pos := by
  rw [succ_mod_eq hj] at hwrap
  unfold shift_keep
  split_ifs at * <;> omega

theorem shift_keep_past_seg {c i j pos h : Nat} (hi : i < c) (hj : j < c)
    (hpos : pos < c) (hh : h < c) (hni : pos ≠ i)
    (hnseg : ¬ shift_keep i j pos) (hnj2 : pos ≠ (j + 1) % c)
    (hk : shift_keep ((j + 1) % c) pos h) : shift_keep i pos h := by
  rw [succ_mod_eq hj] at *
  unfold shift_keep at *
  split_ifs at * <;> omega

theorem shift_keep_trans_hole {c q j2 i h : Nat} (hq : q < c) (hj2 : j2 < c)
    (hi : i < c) (hh : h < c) (hij : i ≠ j2)
    (h1 : shift_keep q j2 h) (h2 : shift_keep j2 i h) : shift_keep q i h := by
  unfold shift_keep at *
  split_ifs at * <;> omega

/-- A backward shift strictly decreases the total displacement: the moved
entry lands strictly closer to its home slot, everything else is
untouched. -/
theorem dispSum_shift_lt (hash : Nat → Nat) (cur : table_data_t) (i j2 : Nat)
    (hwords : ∀ w ∈ cur.valid, w < 2 ^ 32)
    (hzero : getStatus .rehash cur i = INVALID)
    (hleni : i / META_ELEMENTS_PER_WORD .rehash < cur.valid.length)
    (hklen : cur.key_table.length = cur.capacity_minus_1 + 1)
    (hij : i ≠ j2)
    (hi : i ≤ cur.capacity_minus_1) (hj2 : j2 ≤ cur.capacity_minus_1)
    (hval : getStatus .rehash cur j2 = VALID)
    (hnk : ¬ shift_keep i j2
      (hash (cur.key_table.getD j2 0) &&& cur.capacity_minus_1)) :
    dispSum hash (shift_entry .rehash cur i j2) < dispSum hash cur := by
  have hstat := getStatus_shift_entry .rehash cur i j2 hwords hzero hleni hij
  have hcap : (shift_entry .rehash cur i j2).capacity_minus_1 = cur.capacity_minus_1 :=
    rfl
  have hkeyi : (shift_entry .rehash cur i j2).key_table.getD i 0 =
      cur.key_table.getD j2 0 := by
    rw [shift_entry_key_table]
    exact getD_set_self (by omega) _
  have hkeyo : ∀ x, x ≠ i →
      (shift_entry .rehash cur i j2).key_table.getD x 0 = cur.key_table.getD x 0 := by
    intro x hx
    rw [shift_entry_key_table]
    exact getD_set_ne (fun hc => hx hc.symm) _
  have hmain := sum_eq_of_eq_except_two (n := cur.capacity_minus_1 + 1) (a := i)
    (b := j2) (by omega) (by omega) hij
    (fun x => if getStatus .rehash (shift_entry .rehash cur i j2) x = VALID then
      dista (cur.capacity_minus_1 + 1)
        (hash ((shift_entry .rehash cur i j2).key_table.getD x 0) &&&
          cur.capacity_minus_1) x
      else 0)
    (fun x => if getStatus .rehash cur x = VALID then
      dista (cur.capacity_minus_1 + 1)
        (hash (cur.key_table.getD x 0) &&& cur.capacity_minus_1) x
      else 0)
    (by
      intro x hx hxi hxj
      simp only
      rw [hstat x, if_neg hxj, if_neg hxi, hkeyo x hxi])
  simp only at hmain
  have hGi : (if getStatus .rehash cur i = VALID then
      dista (cur.capacity_minus_1 + 1)
        (hash (cur.key_table.getD i 0) &&& cur.capacity_minus_1) i
      else 0) = 0 := by
    rw [if_neg]
    rw [hzero]
    decide
  have hFj2 : (if getStatus .rehash (shift_entry .rehash cur i j2) j2 = VALID then
      dista (cur.capacity_minus_1 + 1)
        (hash ((shift_entry .rehash cur i j2).key_table.getD j2 0) &&&
          cur.capacity_minus_1) j2
      else 0) = 0 := by
    rw [if_neg]
    rw [hstat j2, if_pos rfl]
    decide
  have hFi : (if getStatus .rehash (shift_entry .rehash cur i j2) i = VALID then
      dista (cur.capacity_minus_1 + 1)
        (hash ((shift_entry .rehash cur i j2).key_table.getD i 0) &&&
          cur.capacity_minus_1) i
      else 0) =
      dista (cur.capacity_minus_1 + 1)
        (hash (cur.key_table.getD j2 0) &&& cur.capacity_minus_1) i := by
    rw [hkeyi, if_pos]
    rw [hstat i, if_neg hij, if_pos rfl]
    decide
  have hh2 : hash (cur.key_table.getD j2 0) &&& cur.capacity_minus_1 ≤
      cur.capacity_minus_1 := Nat.and_le_right
  have hdec : dista (cur.capacity_minus_1 + 1)
        (hash (cur.key_table.getD j2 0) &&& cur.capacity_minus_1) i <
      dista (cur.capacity_minus_1 + 1)
        (hash (cur.key_table.getD j2 0) &&& cur.capacity_minus_1) j2 :=
    dista_dec_of_keep (by omega) (by omega) (by omega) hij
      ((shift_keep_compl (c := cur.capacity_minus_1 + 1) (by omega) (by omega)
        (by omega) hij).mp hnk)
  rw [if_pos hval] at hmain
  rw [dispSum, dispSum, hcap]
  omega



/-- Scanning past a kept entry extends the scanned segment by one slot. -/
theorem eraseInv_keep (hash : Nat → Nat) (st0 : table_data_t) (i0 : Nat)
    (cur : table_data_t) (i j : Nat) (inv : EraseInv hash st0 i0 cur i j)
    (hval : getStatus .rehash cur ((j + 1) % (st0.capacity_minus_1 + 1)) = VALID)
    (hkeep : shift_keep i ((j + 1) % (st0.capacity_minus_1 + 1))
      (hash (cur.key_table.getD ((j + 1) % (st0.capacity_minus_1 + 1)) 0) &&&
        st0.capacity_minus_1)) :
    EraseInv hash st0 i0 cur i ((j + 1) % (st0.capacity_minus_1 + 1)) := by
  have hi' := inv.hi
  have hj' := inv.hj
  have hj2 : (j + 1) % (st0.capacity_minus_1 + 1) ≤ st0.capacity_minus_1 :=
    Nat.lt_succ_iff.mp (Nat.mod_lt _ (Nat.succ_pos _))
  have hne : (j + 1) % (st0.capacity_minus_1 + 1) ≠ i := by
    intro hcont
    rw [hcont, inv.hole] at hval
    exact absurd hval (by decide)
  refine ⟨inv.cap, inv.klen, inv.vlen, inv.wlen, inv.wlt, inv.hi, hj2, inv.hole, ?_,
    inv.empt, inv.tail, inv.cnt, inv.content, inv.complete, inv.uniqc, inv.chain1, ?_⟩
  · intro x hx hk
    rcases (shift_keep_ext (c := st0.capacity_minus_1 + 1) (by omega) (by omega)
        (by omega) hne).mp hk with h' | h'
    · exact inv.seg x hx h'
    · rw [h']
      exact hval
  · intro pos hpos hv hk
    rcases (shift_keep_ext (c := st0.capacity_minus_1 + 1) (by omega) (by omega)
        (by omega) hne).mp hk with h' | h'
    · exact inv.chain2 pos hpos hv h'
    · subst h'
      exact hkeep

/-- Stopping at an empty probe slot: the invariant at break time yields
the erase postcondition. -/
theorem eraseInv_break (hash : Nat → Nat) (st0 : table_data_t) (i0 : Nat)
    (cur : table_data_t) (i j : Nat) (inv : EraseInv hash st0 i0 cur i j)
    (hstop : getStatus .rehash cur ((j + 1) % (st0.capacity_minus_1 + 1)) =
      INVALID) :
    ErasePost hash st0 i0 cur := by
  have hi' := inv.hi
  have hj' := inv.hj
  have hj2 : (j + 1) % (st0.capacity_minus_1 + 1) ≤ st0.capacity_minus_1 :=
    Nat.lt_succ_iff.mp (Nat.mod_lt _ (Nat.succ_pos _))
  refine ⟨inv.cap, inv.klen, inv.vlen, inv.wlen, inv.wlt, inv.tail, inv.cnt,
    inv.content, inv.complete, inv.uniqc, ?_⟩
  intro pos q hpos hq hv hinv
  by_cases hqi : q = i
  · subst hqi
    by_cases hseg : shift_keep q j pos
    · exact inv.chain2 pos hpos hv hseg
    · have hpi : pos ≠ q := by
        intro hc
        rw [hc, inv.hole] at hv
        exact absurd hv (by decide)
      have hj2q : (j + 1) % (st0.capacity_minus_1 + 1) ≠ q := by
        intro hc
        exact hseg (seg_all_of_wrap (by omega) (by omega) (by omega) hpi hc)
      have hpj2 : pos ≠ (j + 1) % (st0.capacity_minus_1 + 1) := by
        intro hc
        rw [hc, hstop] at hv
        exact absurd hv (by decide)
      have hk := inv.chain1 pos ((j + 1) % (st0.capacity_minus_1 + 1)) hpos hj2
        hv hstop hj2q
      have hmask : hash (cur.key_table.getD pos 0) &&& st0.capacity_minus_1 ≤
          st0.capacity_minus_1 := Nat.and_le_right
      exact shift_keep_past_seg (by omega) (by omega) (by omega) (by omega)
        hpi hseg hpj2 hk
  · exact inv.chain1 pos q hpos hq hv hinv hqi

/-- Shifting an out-of-segment entry into the hole re-establishes the
invariant with the vacated slot as the new hole. -/
theorem eraseInv_shift (hash : Nat → Nat) (st0 : table_data_t) (i0 : Nat)
    (cur : table_data_t) (i j j2 : Nat) (inv : EraseInv hash st0 i0 cur i j)
    (hj2 : j2 ≤ st0.capacity_minus_1)
    (hval : getStatus .rehash cur j2 = VALID)
    (hnk : ¬ shift_keep i j2
      (hash (cur.key_table.getD j2 0) &&& st0.capacity_minus_1)) :
    EraseInv hash st0 i0 (shift_entry .rehash cur i j2) j2 j2 := by
  have hi' := inv.hi
  have hklen := inv.klen
  have hvlen := inv.vlen
  have hij : i ≠ j2 := by
    intro hc
    rw [← hc, inv.hole] at hval
    exact absurd hval (by decide)
  have hleni : i / META_ELEMENTS_PER_WORD .rehash < cur.valid.length :=
    slot_word_lt .rehash cur (by rw [inv.cap]; exact inv.hi) inv.wlen
  have hstat := getStatus_shift_entry .rehash cur i j2 inv.wlt inv.hole hleni hij
  have hstat' : ∀ x, getStatus .rehash (shift_entry .rehash cur i j2) x =
      if x = j2 then INVALID else if x = i then VALID
      else getStatus .rehash cur x := by
    intro x
    rw [hstat x]
    rfl
  refine ⟨?_, ?_, ?_, ?_, words_lt_shift_entry .rehash cur i j2 inv.wlt, hj2, hj2,
    ?_, ?_, ?_, ?_, ?_, ?_, ?_, ?_, ?_, ?_⟩
  · rw [shift_entry_capm1]
    exact inv.cap
  · rw [shift_entry_key_table, List.length_set]
    exact inv.klen
  · rw [shift_entry_value_table, List.length_set]
    exact inv.vlen
  · rw [shift_entry_valid_length, inv.wlen, num_valid_words, num_valid_words,
      shift_entry_capm1]
  · rw [hstat' j2, if_pos rfl]
  · intro x hx hk
    exact absurd hk (by unfold shift_keep; split_ifs <;> omega)
  · intro x hx hxe
    rw [hstat' x] at hxe
    by_cases hxj2 : x = j2
    · exact Or.inl hxj2
    · rw [if_neg hxj2] at hxe
      by_cases hxi : x = i
      · rw [if_pos hxi] at hxe
        exact absurd hxe (by decide)
      · rw [if_neg hxi] at hxe
        rcases inv.empt x hx hxe with h | h
        · exact absurd h hxi
        · exact Or.inr h
  · intro x hx
    rw [hstat' x, if_neg (by omega), if_neg (by omega)]
    exact inv.tail x hx
  · have hswap : ((List.range (st0.capacity_minus_1 + 1)).filter
        (fun x => decide (getStatus .rehash cur x = VALID))).length =
      ((List.range (st0.capacity_minus_1 + 1)).filter
        (fun x => decide (getStatus .rehash (shift_entry .rehash cur i j2) x =
          VALID))).length := by
      apply length_filter_swap (a := j2) (b := i) (by omega) (by omega)
        (Ne.symm hij)
      · intro x hx hxj2 hxi
        show decide (getStatus .rehash cur x = VALID) =
          decide (getStatus .rehash (shift_entry .rehash cur i j2) x = VALID)
        rw [hstat' x, if_neg hxj2, if_neg hxi]
      · show decide (getStatus .rehash cur j2 = VALID) = true
        rw [hval]
        decide
      · show decide (getStatus .rehash (shift_entry .rehash cur i j2) j2 =
          VALID) = false
        rw [hstat' j2, if_pos rfl]
        decide
      · show decide (getStatus .rehash cur i = VALID) = false
        rw [inv.hole]
        decide
      · show decide (getStatus .rehash (shift_entry .rehash cur i j2) i =
          VALID) = true
        rw [hstat' i, if_neg hij, if_pos rfl]
        decide
    rw [← hswap]
    exact inv.cnt
  · intro x hx hv'
    rw [hstat' x] at hv'
    by_cases hxj2 : x = j2
    · rw [if_pos hxj2] at hv'
      exact absurd hv' (by decide)
    · rw [if_neg hxj2] at hv'
      by_cases hxi : x = i
      · obtain ⟨y, hy, hyi0, hyv, hyk, hyvv⟩ := inv.content j2 hj2 hval
        subst hxi
        refine ⟨y, hy, hyi0, hyv, ?_, ?_⟩
        · rw [hyk, shift_entry_key_table]
          exact (getD_set_self (by omega) _).symm
        · rw [hyvv, shift_entry_value_table]
          exact (getD_set_self (by omega) _).symm
      · rw [if_neg hxi] at hv'
        obtain ⟨y, hy, hyi0, hyv, hyk, hyvv⟩ := inv.content x hx hv'
        refine ⟨y, hy, hyi0, hyv, ?_, ?_⟩
        · rw [hyk, shift_entry_key_table, getD_set_ne (fun hc => hxi hc.symm)]
        · rw [hyvv, shift_entry_value_table, getD_set_ne (fun hc => hxi hc.symm)]
  · intro y hy hyi0 hyv
    obtain ⟨x, hx, hxv, hxk, hxvv⟩ := inv.complete y hy hyi0 hyv
    by_cases hxj2 : x = j2
    · refine ⟨i, hi', ?_, ?_, ?_⟩
      · rw [hstat' i, if_neg hij, if_pos rfl]
      · rw [shift_entry_key_table, getD_set_self (by omega) _, ← hxj2]
        exact hxk
      · rw [shift_entry_value_table, getD_set_self (by omega) _, ← hxj2]
        exact hxvv
    · have hxi : x ≠ i := by
        intro hc
        rw [hc, inv.hole] at hxv
        exact absurd hxv (by decide)
      refine ⟨x, hx, ?_, ?_, ?_⟩
      · rw [hstat' x, if_neg hxj2, if_neg hxi]
        exact hxv
      · rw [shift_entry_key_table, getD_set_ne (fun hc => hxi hc.symm)]
        exact hxk
      · rw [shift_entry_value_table, getD_set_ne (fun hc => hxi hc.symm)]
        exact hxvv
  · intro x1 x2 hx1 hx2 hv1 hv2 hkeq
    rw [hstat' x1] at hv1
    rw [hstat' x2] at hv2
    have h1j2 : x1 ≠ j2 := by
      intro hc
      rw [if_pos hc] at hv1
      exact absurd hv1 (by decide)
    have h2j2 : x2 ≠ j2 := by
      intro hc
      rw [if_pos hc] at hv2
      exact absurd hv2 (by decide)
    rw [if_neg h1j2] at hv1
    rw [if_neg h2j2] at hv2
    rw [shift_entry_key_table] at hkeq
    by_cases h1 : x1 = i <;> by_cases h2 : x2 = i
    · rw [h1, h2]
    · rw [if_neg h2] at hv2
      rw [h1, getD_set_self (by omega) _, getD_set_ne (fun hc => h2 hc.symm)]
        at hkeq
      exact absurd (inv.uniqc j2 x2 hj2 hx2 hval hv2 hkeq).symm h2j2
    · rw [if_neg h1] at hv1
      rw [getD_set_ne (fun hc => h1 hc.symm), h2, getD_set_self (by omega) _]
        at hkeq
      exact absurd (inv.uniqc x1 j2 hx1 hj2 hv1 hval hkeq) h1j2
    · rw [if_neg h1] at hv1
      rw [if_neg h2] at hv2
      rw [getD_set_ne (fun hc => h1 hc.symm), getD_set_ne (fun hc => h2 hc.symm)]
        at hkeq
      exact inv.uniqc x1 x2 hx1 hx2 hv1 hv2 hkeq
  · intro pos q hpos hq hv' hq' hqj2
    have hqi : q ≠ i := by
      intro hc
      rw [hc, hstat' i, if_neg hij, if_pos rfl] at hq'
      exact absurd hq' (by decide)
    rw [hstat' q, if_neg hqj2, if_neg hqi] at hq'
    rw [hstat' pos] at hv'
    by_cases hpj2 : pos = j2
    · rw [if_pos hpj2] at hv'
      exact absurd hv' (by decide)
    · rw [if_neg hpj2] at hv'
      by_cases hpi : pos = i
      · subst hpi
        rw [shift_entry_key_table, getD_set_self (by omega) _]
        have hk1 := inv.chain1 j2 q hj2 hq hval hq' hqi
        have hmask : hash (cur.key_table.getD j2 0) &&& st0.capacity_minus_1 ≤
            st0.capacity_minus_1 := Nat.and_le_right
        have hk2 : shift_keep j2 pos
            (hash (cur.key_table.getD j2 0) &&& st0.capacity_minus_1) :=
          (shift_keep_compl (c := st0.capacity_minus_1 + 1) (by omega) (by omega)
            (by omega) hij).mp hnk
        exact shift_keep_trans_hole (c := st0.capacity_minus_1 + 1) (by omega)
          (by omega) (by omega) (by omega) hij hk1 hk2
      · rw [if_neg hpi] at hv'
        rw [shift_entry_key_table, getD_set_ne (fun hc => hpi hc.symm)]
        exact inv.chain1 pos q hpos hq hv' hq' hqi
  · intro pos hpos hv hk
    exact absurd hk (by unfold shift_keep; split_ifs <;> omega)

/-- Main induction over the fuel: the loop measure
`capacity * dispSum + cursor distance` strictly decreases, so with enough
fuel the loop reaches the empty-slot break and delivers the
postcondition. -/
theorem do_erase_loop_post (hash : Nat → Nat) (st0 : table_data_t) (i0 : Nat)
    {t0 : Nat} (hcpow : st0.capacity_minus_1 + 1 = 2 ^ t0) :
    ∀ fuel (cur : table_data_t) (i j : Nat), EraseInv hash st0 i0 cur i j →
      (st0.capacity_minus_1 + 1) * dispSum hash cur +
        dista (st0.capacity_minus_1 + 1)
          ((j + 1) % (st0.capacity_minus_1 + 1)) i < fuel →
      ErasePost hash st0 i0 (do_erase_loop hash cur i j fuel) := by
  intro fuel
  induction fuel with
  | zero =>
    intro cur i j _ hm
    exact absurd hm (Nat.not_lt_zero _)
  | succ n ih =>
    intro cur i j inv hm
    have hi' := inv.hi
    have hj' := inv.hj
    have hcap := inv.cap
    have hj2lt : (j + 1) % (st0.capacity_minus_1 + 1) < st0.capacity_minus_1 + 1 :=
      Nat.mod_lt _ (Nat.succ_pos _)
    rw [do_erase_loop, hcap, step_and_eq_mod st0 hcpow (j + 1)]
    by_cases hstop : getStatus .rehash cur ((j + 1) % (st0.capacity_minus_1 + 1)) =
        INVALID
    · rw [if_pos hstop]
      exact eraseInv_break hash st0 i0 cur i j inv hstop
    · rw [if_neg hstop]
      have hval : getStatus .rehash cur ((j + 1) % (st0.capacity_minus_1 + 1)) =
          VALID := by
        rcases getStatus_rehash_cases cur ((j + 1) % (st0.capacity_minus_1 + 1))
          with h | h
        · exact absurd h hstop
        · exact h
      have hne : (j + 1) % (st0.capacity_minus_1 + 1) ≠ i := by
        intro hc
        rw [hc, inv.hole] at hval
        exact absurd hval (by decide)
      by_cases hkeep : shift_keep i ((j + 1) % (st0.capacity_minus_1 + 1))
          (hash (cur.key_table.getD ((j + 1) % (st0.capacity_minus_1 + 1)) 0) &&&
            st0.capacity_minus_1)
      · rw [if_pos hkeep]
        apply ih cur i ((j + 1) % (st0.capacity_minus_1 + 1))
          (eraseInv_keep hash st0 i0 cur i j inv hval hkeep)
        have hstep := dista_pred_step (c := st0.capacity_minus_1 + 1)
          (a := (j + 1) % (st0.capacity_minus_1 + 1)) (i := i) hj2lt (by omega) hne
        omega
      · rw [if_neg hkeep]
        apply ih (shift_entry .rehash cur i ((j + 1) % (st0.capacity_minus_1 + 1)))
          ((j + 1) % (st0.capacity_minus_1 + 1))
          ((j + 1) % (st0.capacity_minus_1 + 1))
          (eraseInv_shift hash st0 i0 cur i j
            ((j + 1) % (st0.capacity_minus_1 + 1)) inv (by omega) hval hkeep)
        have hdisp : dispSum hash
            (shift_entry .rehash cur i ((j + 1) % (st0.capacity_minus_1 + 1))) <
            dispSum hash cur := by
          apply dispSum_shift_lt hash cur i
            ((j + 1) % (st0.capacity_minus_1 + 1)) inv.wlt inv.hole
            (slot_word_lt .rehash cur (by rw [hcap]; exact hi') inv.wlen)
            (by rw [hcap]; exact inv.klen) hne.symm
            (by rw [hcap]; exact hi') (by rw [hcap]; omega) hval
            (by rw [hcap]; exact hkeep)
        have hdd : dista (st0.capacity_minus_1 + 1)
            (((j + 1) % (st0.capacity_minus_1 + 1) + 1) %
              (st0.capacity_minus_1 + 1))
            ((j + 1) % (st0.capacity_minus_1 + 1)) < st0.capacity_minus_1 + 1 :=
          dista_lt (Nat.mod_lt _ (Nat.succ_pos _)) hj2lt
        have hmul : (st0.capacity_minus_1 + 1) * dispSum hash
              (shift_entry .rehash cur i
                ((j + 1) % (st0.capacity_minus_1 + 1))) +
              (st0.capacity_minus_1 + 1) ≤
            (st0.capacity_minus_1 + 1) * dispSum hash cur := by
          have h1 : dispSum hash (shift_entry .rehash cur i
                ((j + 1) % (st0.capacity_minus_1 + 1))) + 1 ≤
              dispSum hash cur := hdisp
          have h2 := Nat.mul_le_mul_left (st0.capacity_minus_1 + 1) h1
          rw [Nat.mul_add, Nat.mul_one] at h2
          exact h2
        omega

/-- The backward-shift loop never touches the cached `size` field. -/
theorem do_erase_loop_size (hash : Nat → Nat) :
    ∀ fuel (st : table_data_t) (i j : Nat),
      (do_erase_loop hash st i j fuel).size = st.size := by
  intro fuel
  induction fuel with
  | zero => intro st i j; rfl
  | succ n ih =>
    intro st i j
    rw [do_erase_loop]
    split_ifs with h1 h2
    · rfl
    · exact ih st i _
    · rw [ih, shift_entry_size]

/-- Clearing the erased slot establishes the loop invariant with the
erased slot as both hole and cursor. -/
theorem eraseInv_init (hash : Nat → Nat) (st0 : table_data_t) (i0 : Nat)
    (hwf : WF .rehash hash st0) (hi0 : i0 ≤ st0.capacity_minus_1)
    (hv0 : getStatus .rehash st0 i0 = VALID) :
    EraseInv hash st0 i0 (clearStatus .rehash st0 i0) i0 i0 := by
  have hstat : ∀ x, getStatus .rehash (clearStatus .rehash st0 i0) x =
      if x = i0 then INVALID else getStatus .rehash st0 x := by
    intro x
    rw [getStatus_clearStatus .rehash st0 hwf.words_lt i0 x]
    rfl
  refine ⟨rfl, hwf.keys_len, hwf.vals_len, ?_,
    words_lt_clearStatus .rehash st0 i0 hwf.words_lt, hi0, hi0, ?_, ?_, ?_, ?_, ?_,
    ?_, ?_, ?_, ?_, ?_⟩
  · rw [clearStatus_valid_length]
    exact hwf.words_len
  · rw [hstat i0, if_pos rfl]
  · intro x hx hk
    exact absurd hk (by unfold shift_keep; split_ifs <;> omega)
  · intro x hx hxe
    rw [hstat x] at hxe
    by_cases hxi : x = i0
    · exact Or.inl hxi
    · rw [if_neg hxi] at hxe
      exact Or.inr hxe
  · intro x hx
    have hxne : x ≠ i0 := by omega
    rw [hstat x, if_neg hxne]
    exact hwf.tail_zero x hx
  · refine (length_filter_update_lt (C := st0.capacity_minus_1 + 1) (f := i0)
      (by omega) _ _ ?_ ?_ ?_).symm
    · intro x hx hxi
      show decide (getStatus .rehash (clearStatus .rehash st0 i0) x = VALID) =
        decide (getStatus .rehash st0 x = VALID)
      rw [hstat x, if_neg hxi]
    · show decide (getStatus .rehash (clearStatus .rehash st0 i0) i0 = VALID) =
        false
      rw [hstat i0, if_pos rfl]
      decide
    · show decide (getStatus .rehash st0 i0 = VALID) = true
      rw [hv0]
      decide
  · intro x hx hv'
    rw [hstat x] at hv'
    by_cases hxi : x = i0
    · rw [if_pos hxi] at hv'
      exact absurd hv' (by decide)
    · rw [if_neg hxi] at hv'
      exact ⟨x, hx, hxi, hv', rfl, rfl⟩
  · intro y hy hyi0 hyv
    refine ⟨y, hy, ?_, rfl, rfl⟩
    rw [hstat y, if_neg hyi0]
    exact hyv
  · intro x1 x2 hx1 hx2 hv1 hv2 hkeq
    rw [hstat x1] at hv1
    rw [hstat x2] at hv2
    by_cases h1 : x1 = i0
    · rw [if_pos h1] at hv1
      exact absurd hv1 (by decide)
    · rw [if_neg h1] at hv1
      by_cases h2 : x2 = i0
      · rw [if_pos h2] at hv2
        exact absurd hv2 (by decide)
      · rw [if_neg h2] at hv2
        exact hwf.uniq x1 x2 hx1 hx2 hv1 hv2 hkeq
  · intro pos q hpos hq hv' hq' hqi
    rw [hstat pos] at hv'
    rw [hstat q, if_neg hqi] at hq'
    by_cases hpi : pos = i0
    · rw [if_pos hpi] at hv'
      exact absurd hv' (by decide)
    · rw [if_neg hpi] at hv'
      exact hwf.chain pos q hpos hq hv' hq'
  · intro pos hpos hv hk
    exact absurd hk (by unfold shift_keep; split_ifs <;> omega)

/-- `do_erase` of the rehash policy satisfies the erase postcondition:
the fuel `C^3 + C` strictly dominates the initial loop measure. -/
theorem do_erase_rehash_post (hash : Nat → Nat) (st0 : table_data_t) (i0 : Nat)
    (hwf : WF .rehash hash st0) (hi0 : i0 ≤ st0.capacity_minus_1)
    (hv0 : getStatus .rehash st0 i0 = VALID) :
    ErasePost hash st0 i0 (do_erase_rehash hash st0 i0) := by
  obtain ⟨t0, hcpow⟩ := hwf.cap_pow
  show ErasePost hash st0 i0
    (do_erase_loop hash (clearStatus .rehash st0 i0) i0 i0
      ((st0.capacity_minus_1 + 1) * (st0.capacity_minus_1 + 1) *
        (st0.capacity_minus_1 + 1) + (st0.capacity_minus_1 + 1)))
  apply do_erase_loop_post hash st0 i0 hcpow _ _ _ _
    (eraseInv_init hash st0 i0 hwf hi0 hv0)
  have h1 : dispSum hash (clearStatus .rehash st0 i0) ≤
      (st0.capacity_minus_1 + 1) * st0.capacity_minus_1 := by
    have h := dispSum_le hash (clearStatus .rehash st0 i0)
    rw [clearStatus_capm1] at h
    exact h
  have h3 : (st0.capacity_minus_1 + 1) * dispSum hash (clearStatus .rehash st0 i0) ≤
      (st0.capacity_minus_1 + 1) *
        ((st0.capacity_minus_1 + 1) * st0.capacity_minus_1) :=
    Nat.mul_le_mul_left _ h1
  have h5 : (st0.capacity_minus_1 + 1) *
        ((st0.capacity_minus_1 + 1) * st0.capacity_minus_1) ≤
      (st0.capacity_minus_1 + 1) *
        ((st0.capacity_minus_1 + 1) * (st0.capacity_minus_1 + 1)) :=
    Nat.mul_le_mul_left _ (Nat.mul_le_mul_left _ (Nat.le_succ _))
  have h6 : (st0.capacity_minus_1 + 1) *
        ((st0.capacity_minus_1 + 1) * (st0.capacity_minus_1 + 1)) =
      (st0.capacity_minus_1 + 1) * (st0.capacity_minus_1 + 1) *
        (st0.capacity_minus_1 + 1) := (Nat.mul_assoc _ _ _).symm
  have h2 : dista (st0.capacity_minus_1 + 1)
      ((i0 + 1) % (st0.capacity_minus_1 + 1)) i0 < st0.capacity_minus_1 + 1 :=
    dista_lt (Nat.mod_lt _ (Nat.succ_pos _)) (by omega)
  calc (st0.capacity_minus_1 + 1) * dispSum hash (clearStatus .rehash st0 i0) +
        dista (st0.capacity_minus_1 + 1)
          ((i0 + 1) % (st0.capacity_minus_1 + 1)) i0 ≤
      (st0.capacity_minus_1 + 1) *
          ((st0.capacity_minus_1 + 1) * st0.capacity_minus_1) +
        dista (st0.capacity_minus_1 + 1)
          ((i0 + 1) % (st0.capacity_minus_1 + 1)) i0 :=
        Nat.add_le_add_right h3 _
    _ < (st0.capacity_minus_1 + 1) *
          ((st0.capacity_minus_1 + 1) * st0.capacity_minus_1) +
        (st0.capacity_minus_1 + 1) := Nat.add_lt_add_left h2 _
    _ ≤ (st0.capacity_minus_1 + 1) *
          ((st0.capacity_minus_1 + 1) * (st0.capacity_minus_1 + 1)) +
        (st0.capacity_minus_1 + 1) := Nat.add_le_add_right h5 _
    _ = (st0.capacity_minus_1 + 1) * (st0.capacity_minus_1 + 1) *
          (st0.capacity_minus_1 + 1) + (st0.capacity_minus_1 + 1) := by rw [h6]

/-- The publicly observable consequences of the erase postcondition,
after the `size` decrement of `erase`. -/
theorem WF_of_erasePost (hash : Nat → Nat) (st : table_data_t) (i0 : Nat)
    (hwf : WF .rehash hash st) (hi0 : i0 ≤ st.capacity_minus_1)
    (hv0 : getStatus .rehash st i0 = VALID)
    (st' stF : table_data_t) (post : ErasePost hash st i0 st')
    (hsz : st'.size = st.size)
    (hkF : stF.key_table = st'.key_table)
    (hvF : stF.value_table = st'.value_table)
    (hwF : stF.valid = st'.valid)
    (hsF : stF.size = st'.size - 1)
    (hcF : stF.capacity_minus_1 = st'.capacity_minus_1) :
    WF .rehash hash stF ∧ stF.size + 1 = st.size ∧
    ∀ k2 v2, mapsTo .rehash stF k2 v2 ↔
      (mapsTo .rehash st k2 v2 ∧ k2 ≠ st.key_table.getD i0 0) := by
  have hgs : ∀ q, getStatus .rehash stF q = getStatus .rehash st' q := by
    intro q
    rw [getStatus, getStatus, hwF]
  have hcapF : stF.capacity_minus_1 = st.capacity_minus_1 := by
    rw [hcF, post.cap]
  have hksF := hkF
  have hvsF := hvF
  have hvalF := hwF
  have hszF := hsF
  have hcnt := post.cnt
  have hsize0 := hwf.size_eq
  refine ⟨⟨?_, ?_, ?_, ?_, ?_, ?_, ?_, ?_, ?_, ?_⟩, ?_, ?_⟩
  · obtain ⟨t, hc⟩ := hwf.cap_pow
    exact ⟨t, by rw [hcapF]; exact hc⟩
  · rw [hksF, hcapF]
    exact post.klen
  · rw [hvsF, hcapF]
    exact post.vlen
  · have hnum : num_valid_words .rehash stF = num_valid_words .rehash st' := by
      rw [num_valid_words, num_valid_words, hcF]
    rw [hvalF, hnum]
    exact post.wlen
  · rw [hvalF]
    exact post.wlt
  · intro q hq
    rcases getStatus_rehash_cases stF q with h | h <;> rw [h] <;> decide
  · intro q hq
    rw [hcapF] at hq
    rw [hgs q]
    exact post.tail q hq
  · have hfilt : (fun i => decide (getStatus .rehash stF i = VALID)) =
        (fun i => decide (getStatus .rehash st' i = VALID)) :=
      funext fun i => by rw [hgs i]
    rw [hszF, hcapF, hfilt]
    omega
  · intro a b ha hb hva hvb hk
    rw [hcapF] at ha hb
    rw [hgs a] at hva
    rw [hgs b] at hvb
    rw [hksF] at hk
    exact post.uniqc a b ha hb hva hvb hk
  · intro pos q hpos hq hv hinv
    rw [hcapF] at hpos hq
    rw [hgs pos] at hv
    rw [hgs q] at hinv
    rw [hksF, hcapF]
    exact post.chain pos q hpos hq hv hinv
  · rw [hszF]
    omega
  · intro k2 v2
    constructor
    · rintro ⟨x, hx, hvx, hkx, hvvx⟩
      rw [hcapF] at hx
      rw [hgs x] at hvx
      rw [hksF] at hkx
      rw [hvsF] at hvvx
      obtain ⟨y, hy, hyi0, hyv, hyk, hyvv⟩ := post.content x hx hvx
      refine ⟨⟨y, hy, hyv, by rw [hyk]; exact hkx, by rw [hyvv]; exact hvvx⟩, ?_⟩
      intro hc
      apply hyi0
      apply hwf.uniq y i0 hy hi0 hyv hv0
      rw [hyk, hkx, hc]
    · rintro ⟨⟨y, hy, hyv, hyk, hyvv⟩, hne⟩
      have hyi0 : y ≠ i0 := by
        intro hc
        apply hne
        rw [← hyk, hc]
      obtain ⟨x, hx, hxv, hxk, hxvv⟩ := post.complete y hy hyi0 hyv
      exact ⟨x, by rw [hcapF]; exact hx, by rw [hgs x]; exact hxv,
        by rw [hksF, hxk]; exact hyk, by rw [hvsF, hxvv]; exact hyvv⟩

/-- Erasing a present key under the backward-shift policy: preserves
well-formedness, decrements `size`, and removes exactly that key from the
table's contents. -/
theorem erase_present_rehash (hash : Nat → Nat) (st : table_data_t) (k : Nat)
    (hwf : WF .rehash hash st) {i0 : Nat} (hi0 : i0 ≤ st.capacity_minus_1)
    (hv0 : getStatus .rehash st i0 = VALID)
    (hk0 : st.key_table.getD i0 0 = k) :
    WF .rehash hash (erase .rehash hash st k) ∧
    (erase .rehash hash st k).size + 1 = st.size ∧
    ∀ k2 v2, mapsTo .rehash (erase .rehash hash st k) k2 v2 ↔
      (mapsTo .rehash st k2 v2 ∧ k2 ≠ k) := by
  subst hk0
  have hget := get_index_eq_some_of .rehash hash st hwf hi0 hv0 rfl
  have post := do_erase_rehash_post hash st i0 hwf hi0 hv0
  have hsz : (do_erase_rehash hash st i0).size = st.size := by
    simp only [do_erase_rehash, do_erase_loop_size, clearStatus_size]
  have main := WF_of_erasePost hash st i0 hwf hi0 hv0 (do_erase_rehash hash st i0)
    { do_erase_rehash hash st i0 with size := (do_erase_rehash hash st i0).size - 1 }
    post hsz rfl rfl rfl rfl rfl
  rw [erase, hget]
  exact main

/-- Erasing an absent key is a no-op under either policy. -/
theorem erase_absent (p : erase_policy) (hash : Nat → Nat) (st : table_data_t)
    (k : Nat) (hwf : WF p hash st)
    (habs : ∀ i, i ≤ st.capacity_minus_1 → getStatus p st i = VALID →
      st.key_table.getD i 0 ≠ k) :
    erase p hash st k = st := by
  rw [erase, (get_index_none_iff p hash st hwf k).mpr habs]

/-!  Erase, tombstone policy. -/

/-- The observable effects of the tombstone erase, for any state `stF`
agreeing with the DELETED-marked state with decremented `size`. -/
theorem marker_erase_props (hash : Nat → Nat) (st : table_data_t) (i0 : Nat)
    (stF : table_data_t) (hwf : WF .use_marker hash st)
    (hi0 : i0 ≤ st.capacity_minus_1)
    (hv0 : getStatus .use_marker st i0 = VALID)
    (hkF : stF.key_table = st.key_table)
    (hvF : stF.value_table = st.value_table)
    (hwFv : stF.valid = (setStatus .use_marker st i0 DELETED).valid)
    (hsF : stF.size = st.size - 1)
    (hcF : stF.capacity_minus_1 = st.capacity_minus_1) :
    getStatus .use_marker stF i0 = DELETED ∧
    WF .use_marker hash stF ∧ stF.size + 1 = st.size ∧
    ∀ k2 v2, mapsTo .use_marker stF k2 v2 ↔
      (mapsTo .use_marker st k2 v2 ∧ k2 ≠ st.key_table.getD i0 0) := by
  have hDlt : DELETED < 2 ^ META_BITS_PER_ELEMENT .use_marker := by decide
  have hslot : i0 / META_ELEMENTS_PER_WORD .use_marker < st.valid.length :=
    slot_word_lt .use_marker st hi0 hwf.words_len
  have hstat : ∀ x, getStatus .use_marker stF x =
      if x = i0 then DELETED else getStatus .use_marker st x := by
    intro x
    rw [getStatus_congr .use_marker hwFv x]
    exact getStatus_setStatus .use_marker st hwf.words_lt i0 x DELETED hDlt hslot
  have hlen_eq : ((List.range (st.capacity_minus_1 + 1)).filter
        (fun i => decide (getStatus .use_marker st i = VALID))).length =
      ((List.range (st.capacity_minus_1 + 1)).filter
        (fun i => decide (getStatus .use_marker stF i = VALID))).length + 1 := by
    refine length_filter_update_lt (C := st.capacity_minus_1 + 1) (f := i0)
      (by omega) _ _ ?_ ?_ ?_
    · intro x hx hxi
      show decide (getStatus .use_marker stF x = VALID) =
        decide (getStatus .use_marker st x = VALID)
      rw [hstat x, if_neg hxi]
    · show decide (getStatus .use_marker stF i0 = VALID) = false
      rw [hstat i0, if_pos rfl]
      decide
    · show decide (getStatus .use_marker st i0 = VALID) = true
      rw [hv0]
      decide
  have hsize0 := hwf.size_eq
  refine ⟨by rw [hstat i0, if_pos rfl],
    ⟨?_, ?_, ?_, ?_, ?_, ?_, ?_, ?_, ?_, ?_⟩, by omega, ?_⟩
  · rw [hcF]
    exact hwf.cap_pow
  · rw [hkF, hcF]
    exact hwf.keys_len
  · rw [hvF, hcF]
    exact hwf.vals_len
  · have h := hwf.words_len
    rw [num_valid_words] at h
    rw [num_valid_words, hwFv, setStatus_valid_length, hcF]
    exact h
  · rw [hwFv]
    exact words_lt_setStatus .use_marker st i0 DELETED hDlt hwf.words_lt
  · intro q hq
    rw [hcF] at hq
    rw [hstat q]
    by_cases hqi : q = i0
    · rw [if_pos hqi]
    · rw [if_neg hqi]
      exact hwf.status_le q hq
  · intro q hq
    rw [hcF] at hq
    rw [hstat q, if_neg (by omega)]
    exact hwf.tail_zero q hq
  · rw [hsF, hcF]
    omega
  · intro a b ha hb hva hvb hk
    rw [hcF] at ha hb
    rw [hstat a] at hva
    rw [hstat b] at hvb
    rw [hkF] at hk
    by_cases h1 : a = i0
    · rw [if_pos h1] at hva
      exact absurd hva (by decide)
    · rw [if_neg h1] at hva
      by_cases h2 : b = i0
      · rw [if_pos h2] at hvb
        exact absurd hvb (by decide)
      · rw [if_neg h2] at hvb
        exact hwf.uniq a b ha hb hva hvb hk
  · intro pos q hpos hq hv hinv
    rw [hcF] at hpos hq
    rw [hstat pos] at hv
    rw [hstat q] at hinv
    rw [hkF, hcF]
    by_cases h1 : pos = i0
    · rw [if_pos h1] at hv
      exact absurd hv (by decide)
    · rw [if_neg h1] at hv
      by_cases h2 : q = i0
      · rw [if_pos h2] at hinv
        exact absurd hinv (by decide)
      · rw [if_neg h2] at hinv
        exact hwf.chain pos q hpos hq hv hinv
  · intro k2 v2
    constructor
    · rintro ⟨x, hx, hvx, hkx, hvvx⟩
      rw [hcF] at hx
      rw [hstat x] at hvx
      rw [hkF] at hkx
      rw [hvF] at hvvx
      by_cases h1 : x = i0
      · rw [if_pos h1] at hvx
        exact absurd hvx (by decide)
      · rw [if_neg h1] at hvx
        refine ⟨⟨x, hx, hvx, hkx, hvvx⟩, ?_⟩
        intro hc
        apply h1
        apply hwf.uniq x i0 hx hi0 hvx hv0
        rw [hkx, hc]
    · rintro ⟨⟨y, hy, hyv, hyk, hyvv⟩, hne⟩
      have hyi0 : y ≠ i0 := by
        intro hc
        apply hne
        rw [← hyk, hc]
      refine ⟨y, by rw [hcF]; exact hy, ?_, by rw [hkF]; exact hyk,
        by rw [hvF]; exact hyvv⟩
      rw [hstat y, if_neg hyi0]
      exact hyv

/-- Erasing a present key under the tombstone policy: the slot is marked
DELETED with no rearrangement of the key/value arrays, `size` drops by
one, and exactly that key disappears from the contents. -/
theorem erase_present_marker (hash : Nat → Nat) (st : table_data_t) (k : Nat)
    (hwf : WF .use_marker hash st) {i0 : Nat} (hi0 : i0 ≤ st.capacity_minus_1)
    (hv0 : getStatus .use_marker st i0 = VALID)
    (hk0 : st.key_table.getD i0 0 = k) :
    getStatus .use_marker (erase .use_marker hash st k) i0 = DELETED ∧
    (erase .use_marker hash st k).key_table = st.key_table ∧
    (erase .use_marker hash st k).value_table = st.value_table ∧
    WF .use_marker hash (erase .use_marker hash st k) ∧
    (erase .use_marker hash st k).size + 1 = st.size ∧
    ∀ k2 v2, mapsTo .use_marker (erase .use_marker hash st k) k2 v2 ↔
      (mapsTo .use_marker st k2 v2 ∧ k2 ≠ k) := by
  subst hk0
  have hget := get_index_eq_some_of .use_marker hash st hwf hi0 hv0 rfl
  have main := marker_erase_props hash st i0
    { do_erase_marker st i0 with size := (do_erase_marker st i0).size - 1 }
    hwf hi0 hv0 rfl rfl rfl rfl rfl
  rw [erase, hget]
  exact ⟨main.1, rfl, rfl, main.2⟩

/-!  Small bridges for the public `count`. -/

theorem count_eq_zero_iff_none (p : erase_policy) (hash : Nat → Nat)
    (st : table_data_t) (k : Nat) :
    count p hash st k = 0 ↔ get_index p st k (hash k) = none := by
  rw [count]
  cases h : get_index p st k (hash k) <;> simp

theorem count_eq_zero_of_absent (p : erase_policy) (hash : Nat → Nat)
    (st : table_data_t) (k : Nat) (hwf : WF p hash st)
    (habs : ∀ i, i ≤ st.capacity_minus_1 → getStatus p st i = VALID →
      st.key_table.getD i 0 ≠ k) : count p hash st k = 0 := by
  rw [count, (get_index_none_iff p hash st hwf k).mpr habs]

/-- Discharge the well-formedness invariant from finitely checkable
conditions (the unbounded tail beyond the metadata words is zero for
free). -/
theorem WF_of_checks (p : erase_policy) (hash : Nat → Nat) (st : table_data_t)
    {t : Nat} (hcap : st.capacity_minus_1 + 1 = 2 ^ t)
    (hkl : st.key_table.length = st.capacity_minus_1 + 1)
    (hvl : st.value_table.length = st.capacity_minus_1 + 1)
    (hwl : st.valid.length = num_valid_words p st)
    (hwords : ∀ w ∈ st.valid, w < 2 ^ 32)
    (hstat : ∀ i, i ≤ st.capacity_minus_1 → getStatus p st i ≤ DELETED)
    (htail : ∀ i, i < META_ELEMENTS_PER_WORD p * st.valid.length →
      st.capacity_minus_1 < i → getStatus p st i = 0)
    (hsz : st.size = ((List.range (st.capacity_minus_1 + 1)).filter
      (fun i => decide (getStatus p st i = VALID))).length)
    (huniq : ∀ i, i ≤ st.capacity_minus_1 → ∀ j, j ≤ st.capacity_minus_1 →
      getStatus p st i = VALID → getStatus p st j = VALID →
      st.key_table.getD i 0 = st.key_table.getD j 0 → i = j)
    (hchain : ∀ pos, pos ≤ st.capacity_minus_1 → ∀ q, q ≤ st.capacity_minus_1 →
      getStatus p st pos = VALID → getStatus p st q = INVALID →
      shift_keep q pos (hash (st.key_table.getD pos 0) &&& st.capacity_minus_1)) :
    WF p hash st := by
  refine ⟨⟨t, hcap⟩, hkl, hvl, hwl, hwords, hstat, ?_, hsz, ?_, ?_⟩
  · intro i hi
    rcases Nat.lt_or_ge i (META_ELEMENTS_PER_WORD p * st.valid.length) with h | h
    · exact htail i h hi
    · have hdiv : st.valid.length ≤ i / META_ELEMENTS_PER_WORD p := by
        rw [Nat.le_div_iff_mul_le (EPW_pos p)]
        have hcomm := Nat.mul_comm (META_ELEMENTS_PER_WORD p) st.valid.length
        omega
      rw [getStatus, List.getD_eq_default _ _ hdiv, Nat.zero_shiftRight,
        Nat.zero_and]
  · intro i j hi hj
    exact huniq i hi j hj
  · intro pos q hpos hq
    exact hchain pos hpos q hq

/-- A concrete two-element table used to exercise the erase lemmas:
keys 0 and 1 in their home slots, capacity 2. -/
theorem WF_pair : WF .rehash (fun n => n)
    (⟨[0, 1], [10, 11], [3], 2, 1⟩ : table_data_t) := by
  refine WF_of_checks .rehash (fun n => n) _ (t := 1) rfl rfl rfl rfl ?_ ?_ ?_ ?_
    ?_ ?_ <;> decide

/-- C1: after a backward-shift erase, every remaining key is still found
by `find`/`get_index` (the erase preserves probe-chain integrity) and no
slot is in the DELETED state. -/
theorem claim_C1 (hash : Nat → Nat) (st : table_data_t) (k0 k v i0 : Nat)
    (hwf : WF .rehash hash st) (hi0 : i0 ≤ st.capacity_minus_1)
    (hv0 : getStatus .rehash st i0 = VALID) (hk0 : st.key_table.getD i0 0 = k0)
    (hmaps : mapsTo .rehash st k v) (hne : k ≠ k0) :
    (∃ r, find .rehash hash (erase .rehash hash st k0) k = some r ∧
      (erase .rehash hash st k0).key_table.getD r 0 = k ∧
      (erase .rehash hash st k0).value_table.getD r 0 = v) ∧
    ∀ x, getStatus .rehash (erase .rehash hash st k0) x ≠ DELETED := by
  obtain ⟨hwf', hsz, hchar⟩ := erase_present_rehash hash st k0 hwf hi0 hv0 hk0
  obtain ⟨r, hr, hvr, hkr, hvvr⟩ := (hchar k v).mpr ⟨hmaps, hne⟩
  refine ⟨⟨r, ?_, hkr, hvvr⟩, ?_⟩
  · rw [find]
    exact get_index_eq_some_of .rehash hash _ hwf' hr hvr hkr
  · intro x
    rcases getStatus_rehash_cases (erase .rehash hash st k0) x with h | h <;>
      rw [h] <;> decide

/-- C1 witness: erase key 0 from the two-element table; key 1 remains
findable with its value and no DELETED state exists. -/
theorem claim_C1_witness :
    (∃ r, find .rehash (fun n => n)
        (erase .rehash (fun n => n) (⟨[0, 1], [10, 11], [3], 2, 1⟩ :
          table_data_t) 0) 1 = some r ∧
      (erase .rehash (fun n => n) (⟨[0, 1], [10, 11], [3], 2, 1⟩ :
        table_data_t) 0).key_table.getD r 0 = 1 ∧
      (erase .rehash (fun n => n) (⟨[0, 1], [10, 11], [3], 2, 1⟩ :
        table_data_t) 0).value_table.getD r 0 = 11) ∧
    ∀ x, getStatus .rehash (erase .rehash (fun n => n)
      (⟨[0, 1], [10, 11], [3], 2, 1⟩ : table_data_t) 0) x ≠ DELETED :=
  claim_C1 (fun n => n) _ 0 1 11 0 WF_pair (by decide) (by decide)
    (by decide) ⟨1, by decide, by decide, by decide, by decide⟩ (by decide)

/-- C2: `insert` returns `true` exactly on an absent key (prior
`count = 0`); on `false` the table is unchanged; on `true` a subsequent
`find` locates the key with the stored value. -/
theorem claim_C2 (p : erase_policy) (hash : Nat → Nat) (st : table_data_t)
    (k v : Nat) (hwf : WF p hash st) :
    (count p hash st k = 0 → ∃ st', insert p hash st k v = some (true, st') ∧
      ∃ r, find p hash st' k = some r ∧ st'.key_table.getD r 0 = k ∧
        st'.value_table.getD r 0 = v) ∧
    (count p hash st k ≠ 0 → insert p hash st k v = some (false, st)) := by
  constructor
  · intro hcnt
    have habs := (get_index_none_iff p hash st hwf k).mp
      ((count_eq_zero_iff_none p hash st k).mp hcnt)
    obtain ⟨st', hins, hwf', hsz, ⟨idx, hidx, hvidx, hkidx, hvvidx⟩, hmaps⟩ :=
      insert_absent p hash st k v hwf habs
    refine ⟨st', hins, idx, ?_, hkidx, hvvidx⟩
    rw [find]
    exact get_index_eq_some_of p hash st' hwf' hidx hvidx hkidx
  · intro hcnt
    cases hg : get_index p st k (hash k) with
    | none => exact absurd ((count_eq_zero_iff_none p hash st k).mpr hg) hcnt
    | some i => rw [insert, hg]

/-- C2 witness: inserting key 5 into the empty table of capacity 2. -/
theorem claim_C2_witness :
    (count .rehash (fun n => n) (empty_table .rehash 2) 5 = 0 →
      ∃ st', insert .rehash (fun n => n) (empty_table .rehash 2) 5 7 =
          some (true, st') ∧
        ∃ r, find .rehash (fun n => n) st' 5 = some r ∧
          st'.key_table.getD r 0 = 5 ∧ st'.value_table.getD r 0 = 7) ∧
    (count .rehash (fun n => n) (empty_table .rehash 2) 5 ≠ 0 →
      insert .rehash (fun n => n) (empty_table .rehash 2) 5 7 =
        some (false, empty_table .rehash 2)) :=
  claim_C2 .rehash (fun n => n) (empty_table .rehash 2) 5 7
    (WF_fresh .rehash (fun n => n) 2 ⟨1, rfl⟩)

/-- C3 counterexample: on a capacity-2 table, inserting the two
collision-free keys 0 and 1 (identity hash) succeeds without ever taking
the growth branch, ending with `2 * size = 4 > 2 = capacity`: the claimed
load-factor invariant `2·size ≤ capacity` fails after a successful
insert. -/
theorem claim_C3_counterexample :
    ((insert .rehash (fun n => n) (empty_table .rehash 2) 0 10).bind
      (fun r => insert .rehash (fun n => n) r.2 1 11)).map
      (fun r => (r.1, decide (2 * r.2.size ≤ capacity r.2))) =
    some (true, false) := by
  rfl

/-- C3 (amended): after a successful insert the table satisfies
`size ≤ capacity`; the stronger claimed bound `2·size ≤ capacity` does
not hold because the growth threshold is only consulted on a collision
(see the counterexample). -/
theorem claim_C3 (p : erase_policy) (hash : Nat → Nat) (st : table_data_t)
    (k v : Nat) (b : Bool) (st' : table_data_t) (hwf : WF p hash st)
    (h : insert p hash st k v = some (b, st')) :
    st'.size ≤ capacity st' := by
  cases hg : get_index p st k (hash k) with
  | none =>
    obtain ⟨st'', hins, hwf'', hsz, _, _⟩ := insert_absent p hash st k v hwf
      ((get_index_none_iff p hash st hwf k).mp hg)
    rw [hins] at h
    simp only [Option.some.injEq, Prod.mk.injEq] at h
    rw [← h.2]
    exact size_le_capacity p hash st'' hwf''
  | some i =>
    rw [insert, hg] at h
    simp only [Option.some.injEq, Prod.mk.injEq] at h
    rw [← h.2]
    exact size_le_capacity p hash st hwf

/-- C3 witness: the amended bound at a concrete successful insert. -/
theorem claim_C3_witness :
    (insert .rehash (fun n => n) (empty_table .rehash 2) 0 10 =
      some (true, (⟨[0, 0], [10, 0], [1], 1, 1⟩ : table_data_t))) ∧
    ((⟨[0, 0], [10, 0], [1], 1, 1⟩ : table_data_t)).size ≤
      capacity (⟨[0, 0], [10, 0], [1], 1, 1⟩ : table_data_t) :=
  ⟨by rfl, claim_C3 .rehash (fun n => n) (empty_table .rehash 2) 0 10 true _
    (WF_fresh .rehash (fun n => n) 2 ⟨1, rfl⟩) (by rfl)⟩

/-- C6: erase of an absent key is a no-op on the whole state; erase of a
present key decrements `size` by exactly one and leaves `count = 0`. -/
theorem claim_C6 (p : erase_policy) (hash : Nat → Nat) (st : table_data_t)
    (k : Nat) (hwf : WF p hash st) :
    (count p hash st k = 0 → erase p hash st k = st) ∧
    (∀ i0, i0 ≤ st.capacity_minus_1 → getStatus p st i0 = VALID →
      st.key_table.getD i0 0 = k →
      (erase p hash st k).size + 1 = st.size ∧
      count p hash (erase p hash st k) k = 0) := by
  constructor
  · intro hcnt
    exact erase_absent p hash st k hwf ((get_index_none_iff p hash st hwf k).mp
      ((count_eq_zero_iff_none p hash st k).mp hcnt))
  · intro i0 hi0 hv0 hk0
    cases p with
    | rehash =>
      obtain ⟨hwf', hsz, hchar⟩ := erase_present_rehash hash st k hwf hi0 hv0 hk0
      refine ⟨hsz, count_eq_zero_of_absent _ hash _ k hwf' ?_⟩
      intro i hi hvi hki
      exact ((hchar k ((erase .rehash hash st k).value_table.getD i 0)).mp
        ⟨i, hi, hvi, hki, rfl⟩).2 rfl
    | use_marker =>
      obtain ⟨hdel, hkk, hvv, hwf', hsz, hchar⟩ :=
        erase_present_marker hash st k hwf hi0 hv0 hk0
      refine ⟨hsz, count_eq_zero_of_absent _ hash _ k hwf' ?_⟩
      intro i hi hvi hki
      exact ((hchar k ((erase .use_marker hash st k).value_table.getD i 0)).mp
        ⟨i, hi, hvi, hki, rfl⟩).2 rfl

/-- C6 witness: erase on the two-element table, key 0 present. -/
theorem claim_C6_witness :
    (count .rehash (fun n => n) (⟨[0, 1], [10, 11], [3], 2, 1⟩ :
        table_data_t) 0 = 0 →
      erase .rehash (fun n => n) (⟨[0, 1], [10, 11], [3], 2, 1⟩ :
        table_data_t) 0 = (⟨[0, 1], [10, 11], [3], 2, 1⟩ : table_data_t)) ∧
    (∀ i0, i0 ≤ (⟨[0, 1], [10, 11], [3], 2, 1⟩ :
        table_data_t).capacity_minus_1 →
      getStatus .rehash (⟨[0, 1], [10, 11], [3], 2, 1⟩ : table_data_t) i0 =
        VALID →
      (⟨[0, 1], [10, 11], [3], 2, 1⟩ : table_data_t).key_table.getD i0 0 = 0 →
      (erase .rehash (fun n => n) (⟨[0, 1], [10, 11], [3], 2, 1⟩ :
        table_data_t) 0).size + 1 =
        (⟨[0, 1], [10, 11], [3], 2, 1⟩ : table_data_t).size ∧
      count .rehash (fun n => n) (erase .rehash (fun n => n)
        (⟨[0, 1], [10, 11], [3], 2, 1⟩ : table_data_t) 0) 0 = 0) :=
  claim_C6 .rehash (fun n => n) (⟨[0, 1], [10, 11], [3], 2, 1⟩ : table_data_t) 0
    WF_pair

/-- C7: the bit-scan iteration enumerates exactly the OCCUPIED slots, in
particular never a DELETED tombstone, each exactly once, and the number
of iterated elements equals `size`. -/
theorem claim_C7 (p : erase_policy) (hash : Nat → Nat) (st : table_data_t)
    (hwf : WF p hash st) :
    iter_list p st = (List.range (st.capacity_minus_1 + 1)).filter
      (fun i => decide (getStatus p st i = VALID)) ∧
    (iter_list p st).length = st.size ∧ (iter_list p st).Nodup ∧
    ∀ i, i ∈ iter_list p st ↔
      (i ≤ st.capacity_minus_1 ∧ getStatus p st i = VALID) :=
  ⟨iter_list_eq_filter p hash st hwf, iter_list_length p hash st hwf,
    iter_list_nodup p hash st hwf, iter_list_mem p hash st hwf⟩

/-- C7 witness: iteration of the two-element table. -/
theorem claim_C7_witness :
    iter_list .rehash (⟨[0, 1], [10, 11], [3], 2, 1⟩ : table_data_t) =
      (List.range ((⟨[0, 1], [10, 11], [3], 2, 1⟩ :
        table_data_t).capacity_minus_1 + 1)).filter
        (fun i => decide (getStatus .rehash (⟨[0, 1], [10, 11], [3], 2, 1⟩ :
          table_data_t) i = VALID)) ∧
    (iter_list .rehash (⟨[0, 1], [10, 11], [3], 2, 1⟩ :
      table_data_t)).length = (⟨[0, 1], [10, 11], [3], 2, 1⟩ :
        table_data_t).size ∧
    (iter_list .rehash (⟨[0, 1], [10, 11], [3], 2, 1⟩ :
      table_data_t)).Nodup ∧
    ∀ i, i ∈ iter_list .rehash (⟨[0, 1], [10, 11], [3], 2, 1⟩ :
        table_data_t) ↔
      (i ≤ (⟨[0, 1], [10, 11], [3], 2, 1⟩ : table_data_t).capacity_minus_1 ∧
        getStatus .rehash (⟨[0, 1], [10, 11], [3], 2, 1⟩ :
          table_data_t) i = VALID) :=
  claim_C7 .rehash (fun n => n) (⟨[0, 1], [10, 11], [3], 2, 1⟩ : table_data_t)
    WF_pair

/-!  `round_up_to_next_power_of_2`: correctness of the bit smear. -/

/-- One smear step `x := x ||| x >>> s` doubles the window of source bits
that can reach a given position. -/
theorem smear_step {x m s w : Nat} (hs : 0 < s) (hw : w = 2 * s)
    (h : ∀ i, x.testBit i = true ↔ ∃ d, d < s ∧ m.testBit (i + d) = true) :
    ∀ i, (x ||| x >>> s).testBit i = true ↔
      ∃ d, d < w ∧ m.testBit (i + d) = true := by
  subst hw
  intro i
  rw [Nat.testBit_or, Bool.or_eq_true, Nat.testBit_shiftRight, h i, h (s + i)]
  constructor
  · rintro (⟨d, hd, hbit⟩ | ⟨d, hd, hbit⟩)
    · exact ⟨d, by omega, hbit⟩
    · exact ⟨s + d, by omega, by
        rw [show i + (s + d) = s + i + d by omega]
        exact hbit⟩
  · rintro ⟨d, hd, hbit⟩
    rcases Nat.lt_or_ge d s with h' | h'
    · exact Or.inl ⟨d, h', hbit⟩
    · exact Or.inr ⟨d - s, by omega, by
        rw [show s + i + (d - s) = i + d by omega]
        exact hbit⟩

/-- The highest bit of a positive number is set. -/
theorem testBit_size_pred {m : Nat} (hm : 0 < m) :
    m.testBit (m.size - 1) = true := by
  have hszpos : 0 < m.size := Nat.size_pos.mpr hm
  have ha : 2 ^ (m.size - 1) ≤ m := Nat.lt_size.mp (by omega)
  have hb : m < 2 ^ m.size := Nat.lt_size_self m
  have hpow : (2 : Nat) ^ m.size = 2 * 2 ^ (m.size - 1) := by
    conv_lhs => rw [show m.size = (m.size - 1) + 1 by omega]
    rw [pow_succ']
  have hdiv : m / 2 ^ (m.size - 1) = 1 := by
    have h1 : 1 ≤ m / 2 ^ (m.size - 1) :=
      (Nat.one_le_div_iff (Nat.pos_pow_of_pos _ (by omega))).mpr ha
    have h2 : m / 2 ^ (m.size - 1) < 2 :=
      (Nat.div_lt_iff_lt_mul (Nat.pos_pow_of_pos _ (by omega))).mpr (by omega)
    omega
  rw [Nat.testBit_to_div_mod, hdiv]
  decide

/-- A set bit lies below `size`. -/
theorem testBit_lt_size {m j : Nat} (h : m.testBit j = true) : j < m.size := by
  by_contra hc
  push_neg at hc
  have hlt : m < 2 ^ j :=
    lt_of_lt_of_le (Nat.lt_size_self m) (Nat.pow_le_pow_right (by omega) hc)
  rw [Nat.testBit_lt_two_pow hlt] at h
  simp at h

/-- A word whose bits are exactly the down-closure windows of `m`
is the all-ones word below `m.size`. -/
theorem smeared_eq_ones {m W : Nat} (hW : m.size ≤ W) :
    ∀ x : Nat, (∀ i, x.testBit i = true ↔
      ∃ d, d < W ∧ m.testBit (i + d) = true) → x = 2 ^ m.size - 1 := by
  intro x hx
  apply Nat.eq_of_testBit_eq
  intro i
  rw [Nat.testBit_two_pow_sub_one]
  rcases Nat.lt_or_ge i m.size with h | h
  · have hm0 : 0 < m := by
      rcases Nat.eq_zero_or_pos m with hz | hp
      · rw [hz, Nat.size_zero] at h
        omega
      · exact hp
    have hszpos : 0 < m.size := Nat.size_pos.mpr hm0
    rw [(hx i).mpr ⟨m.size - 1 - i, by omega, by
      rw [show i + (m.size - 1 - i) = m.size - 1 by omega]
      exact testBit_size_pred hm0⟩]
    simp [h]
  · cases hbit : x.testBit i with
    | true =>
      obtain ⟨d, hd, hbd⟩ := (hx i).mp hbit
      have h2 := testBit_lt_size hbd
      exact absurd h (by omega)
    | false =>
      symm
      rw [decide_eq_false_iff_not]
      omega

/-- The 32-bit rounding helper computes `2 ^ (v-1).size`. -/
theorem round_up_value_u32 (v : Nat) (hv : 0 < v) (hb : v ≤ 2 ^ 31) :
    round_up_to_next_power_of_2_u32 v = 2 ^ (v - 1).size := by
  have hm : (v + 0xFFFFFFFF) % 0x100000000 = v - 1 := by omega
  simp only [round_up_to_next_power_of_2_u32]
  rw [hm]
  have hmlt : v - 1 < 2 ^ 32 := by omega
  have h0 : ∀ i, (v - 1).testBit i = true ↔
      ∃ d, d < 1 ∧ (v - 1).testBit (i + d) = true := by
    intro i
    constructor
    · intro h
      exact ⟨0, Nat.one_pos, by rw [Nat.add_zero]; exact h⟩
    · rintro ⟨d, hd, h⟩
      have hd0 : d = 0 := by omega
      subst hd0
      rw [Nat.add_zero] at h
      exact h
  have h1 := smear_step (s := 1) (w := 2) Nat.one_pos (by omega) h0
  have h2 := smear_step (s := 2) (w := 4) (by omega) (by omega) h1
  have h3 := smear_step (s := 4) (w := 8) (by omega) (by omega) h2
  have h4 := smear_step (s := 8) (w := 16) (by omega) (by omega) h3
  have h5 := smear_step (s := 16) (w := 32) (by omega) (by omega) h4
  have hmsize : (v - 1).size ≤ 32 := Nat.size_le.mpr hmlt
  rw [smeared_eq_ones hmsize _ h5]
  have hple : (2 : Nat) ^ (v - 1).size ≤ 2 ^ 31 := by
    apply Nat.pow_le_pow_right (by omega)
    exact Nat.size_le.mpr (by omega)
  have hpos : (1 : Nat) ≤ 2 ^ (v - 1).size := Nat.one_le_two_pow
  omega

/-- The 64-bit rounding helper computes `2 ^ (v-1).size`. -/
theorem round_up_value_u64 (v : Nat) (hv : 0 < v) (hb : v ≤ 2 ^ 63) :
    round_up_to_next_power_of_2_u64 v = 2 ^ (v - 1).size := by
  have hm : (v + 0xFFFFFFFFFFFFFFFF) % 0x10000000000000000 = v - 1 := by omega
  simp only [round_up_to_next_power_of_2_u64]
  rw [hm]
  have hmlt : v - 1 < 2 ^ 64 := by omega
  have h0 : ∀ i, (v - 1).testBit i = true ↔
      ∃ d, d < 1 ∧ (v - 1).testBit (i + d) = true := by
    intro i
    constructor
    · intro h
      exact ⟨0, Nat.one_pos, by rw [Nat.add_zero]; exact h⟩
    · rintro ⟨d, hd, h⟩
      have hd0 : d = 0 := by omega
      subst hd0
      rw [Nat.add_zero] at h
      exact h
  have h1 := smear_step (s := 1) (w := 2) Nat.one_pos (by omega) h0
  have h2 := smear_step (s := 2) (w := 4) (by omega) (by omega) h1
  have h3 := smear_step (s := 4) (w := 8) (by omega) (by omega) h2
  have h4 := smear_step (s := 8) (w := 16) (by omega) (by omega) h3
  have h5 := smear_step (s := 16) (w := 32) (by omega) (by omega) h4
  have h6 := smear_step (s := 32) (w := 64) (by omega) (by omega) h5
  have hmsize : (v - 1).size ≤ 64 := Nat.size_le.mpr hmlt
  rw [smeared_eq_ones hmsize _ h6]
  have hple : (2 : Nat) ^ (v - 1).size ≤ 2 ^ 63 := by
    apply Nat.pow_le_pow_right (by omega)
    exact Nat.size_le.mpr (by omega)
  have hpos : (1 : Nat) ≤ 2 ^ (v - 1).size := Nat.one_le_two_pow
  omega

/-- `2 ^ (v-1).size` is the least power of two at or above `v`. -/
theorem pow_size_min (v : Nat) (hv : 0 < v) :
    v ≤ 2 ^ (v - 1).size ∧ ∀ t, v ≤ 2 ^ t → 2 ^ (v - 1).size ≤ 2 ^ t := by
  constructor
  · have := Nat.lt_size_self (v - 1)
    omega
  · intro t ht
    apply Nat.pow_le_pow_right (by omega)
    exact Nat.size_le.mpr (by omega)

/-- C9: within the asserted input ranges, both overloads of
`round_up_to_next_power_of_2` compute the smallest power of two greater
than or equal to the input. -/
theorem claim_C9 (v : Nat) (hv : 0 < v) :
    (v ≤ 2 ^ 31 →
      (∃ s, round_up_to_next_power_of_2_u32 v = 2 ^ s) ∧
      v ≤ round_up_to_next_power_of_2_u32 v ∧
      ∀ t, v ≤ 2 ^ t → round_up_to_next_power_of_2_u32 v ≤ 2 ^ t) ∧
    (v ≤ 2 ^ 63 →
      (∃ s, round_up_to_next_power_of_2_u64 v = 2 ^ s) ∧
      v ≤ round_up_to_next_power_of_2_u64 v ∧
      ∀ t, v ≤ 2 ^ t → round_up_to_next_power_of_2_u64 v ≤ 2 ^ t) := by
  constructor
  · intro hb
    rw [round_up_value_u32 v hv hb]
    exact ⟨⟨(v - 1).size, rfl⟩, (pow_size_min v hv).1, (pow_size_min v hv).2⟩
  · intro hb
    rw [round_up_value_u64 v hv hb]
    exact ⟨⟨(v - 1).size, rfl⟩, (pow_size_min v hv).1, (pow_size_min v hv).2⟩

/-- C9 witness: rounding 5 up, both widths. -/
theorem claim_C9_witness :
    ((5 : Nat) ≤ 2 ^ 31 →
      (∃ s, round_up_to_next_power_of_2_u32 5 = 2 ^ s) ∧
      5 ≤ round_up_to_next_power_of_2_u32 5 ∧
      ∀ t, 5 ≤ 2 ^ t → round_up_to_next_power_of_2_u32 5 ≤ 2 ^ t) ∧
    ((5 : Nat) ≤ 2 ^ 63 →
      (∃ s, round_up_to_next_power_of_2_u64 5 = 2 ^ s) ∧
      5 ≤ round_up_to_next_power_of_2_u64 5 ∧
      ∀ t, 5 ≤ 2 ^ t → round_up_to_next_power_of_2_u64 5 ≤ 2 ^ t) :=
  claim_C9 5 (by decide)

/-- C8: `reserve(n)` is a no-op when `n` does not exceed the capacity;
otherwise it grows in one step to `round_up_to_next_power_of_2(n)` (the
least power of two at or above `n` — no intermediate doubling), keeping
the contents; concretely from the default empty table of capacity 32,
reserving 3, 33, and then 1023 yields capacities 32, 64 and 1024. -/
theorem claim_C8 (p : erase_policy) (hash : Nat → Nat) (st : table_data_t)
    (n : Nat) (hwf : WF p hash st) (hn : n ≤ 2 ^ 63) :
    (n ≤ capacity st → reserve p hash st n = some st) ∧
    (capacity st < n → ∃ st', reserve p hash st n = some st' ∧ WF p hash st' ∧
      capacity st' = round_up_to_next_power_of_2_u64 n ∧ st'.size = st.size ∧
      (∀ u, n ≤ 2 ^ u → capacity st' ≤ 2 ^ u) ∧
      ∀ k2 v2, mapsTo p st' k2 v2 ↔ mapsTo p st k2 v2) ∧
    (reserve .rehash hash (empty_table .rehash 32) 3).map capacity = some 32 ∧
    (reserve .rehash hash (empty_table .rehash 32) 33).map capacity = some 64 ∧
    ((reserve .rehash hash (empty_table .rehash 32) 33).bind
      (fun s2 => reserve .rehash hash s2 1023)).map capacity = some 1024 := by
  refine ⟨?_, ?_, by rfl, by rfl, by rfl⟩
  · intro h
    have h' : n ≤ st.capacity_minus_1 + 1 := h
    rw [reserve, if_neg (by omega)]
  · intro h
    have h' : st.capacity_minus_1 + 1 < n := h
    obtain ⟨t, hc⟩ := hwf.cap_pow
    have hnpos : 0 < n := by omega
    have hru : round_up_to_next_power_of_2_u64 n = 2 ^ (n - 1).size :=
      round_up_value_u64 n hnpos hn
    have hmin := pow_size_min n hnpos
    have hge : 2 * (st.capacity_minus_1 + 1) ≤ 2 ^ (n - 1).size := by
      have h1 : 2 ^ t < 2 ^ (n - 1).size := by
        calc 2 ^ t = st.capacity_minus_1 + 1 := hc.symm
          _ < n := h'
          _ ≤ 2 ^ (n - 1).size := hmin.1
      have h2 : t < (n - 1).size := (Nat.pow_lt_pow_iff_right (by omega)).mp h1
      calc 2 * (st.capacity_minus_1 + 1) = 2 ^ (t + 1) := by
            rw [hc, pow_succ]
            ring
        _ ≤ 2 ^ (n - 1).size := Nat.pow_le_pow_right (by omega) (by omega)
    have hsle := size_le_capacity p hash st hwf
    obtain ⟨st', hrun, hwf', hcap', hsz', hmaps'⟩ := increase_table_size_spec
      p hash st (round_up_to_next_power_of_2_u64 n) hwf ⟨(n - 1).size, hru⟩
      (by rw [hru]; omega)
    refine ⟨st', ?_, hwf', ?_, hsz', ?_, hmaps'⟩
    · rw [reserve, if_pos (by omega)]
      exact hrun
    · rw [capacity]
      omega
    · intro u hu
      have := hmin.2 u hu
      rw [capacity]
      omega

/-- C8 witness: reserving 33 on the default empty table. -/
theorem claim_C8_witness :
    (33 ≤ capacity (empty_table .rehash 32) →
      reserve .rehash (fun x => x) (empty_table .rehash 32) 33 =
        some (empty_table .rehash 32)) ∧
    (capacity (empty_table .rehash 32) < 33 →
      ∃ st', reserve .rehash (fun x => x) (empty_table .rehash 32) 33 =
          some st' ∧
        WF .rehash (fun x => x) st' ∧
        capacity st' = round_up_to_next_power_of_2_u64 33 ∧
        st'.size = (empty_table .rehash 32).size ∧
        (∀ u, 33 ≤ 2 ^ u → capacity st' ≤ 2 ^ u) ∧
        ∀ k2 v2, mapsTo .rehash st' k2 v2 ↔
          mapsTo .rehash (empty_table .rehash 32) k2 v2) ∧
    (reserve .rehash (fun x => x) (empty_table .rehash 32) 3).map capacity =
      some 32 ∧
    (reserve .rehash (fun x => x) (empty_table .rehash 32) 33).map capacity =
      some 64 ∧
    ((reserve .rehash (fun x => x) (empty_table .rehash 32) 33).bind
      (fun s2 => reserve .rehash (fun x => x) s2 1023)).map capacity =
      some 1024 :=
  claim_C8 .rehash (fun x => x) (empty_table .rehash 32) 33
    (WF_fresh .rehash (fun x => x) 32 ⟨5, rfl⟩) (by decide)

theorem not_mapsTo_fresh (p : erase_policy) (n k v : Nat) :
    ¬ mapsTo p (fresh_data p n) k v := by
  rintro ⟨i, hi, hv, _, _⟩
  rw [getStatus_fresh] at hv
  exact absurd hv (by decide)

/-- C5: under the tombstone policy, insert `k→v`, erase `k` (leaving a
DELETED tombstone), then insert `k→v'`: the final `find(k)` yields `v'`
and `size = 1`. -/
theorem claim_C5 (hash : Nat → Nat) (k v v' : Nat) :
    ∃ st1, insert .use_marker hash (empty_table .use_marker 4) k v =
        some (true, st1) ∧
      (∃ i, i ≤ (erase .use_marker hash st1 k).capacity_minus_1 ∧
        getStatus .use_marker (erase .use_marker hash st1 k) i = DELETED) ∧
      ∃ st3, insert .use_marker hash (erase .use_marker hash st1 k) k v' =
          some (true, st3) ∧
        st3.size = 1 ∧
        ∃ r, find .use_marker hash st3 k = some r ∧
          st3.key_table.getD r 0 = k ∧ st3.value_table.getD r 0 = v' := by
  have hwf0 : WF .use_marker hash (empty_table .use_marker 4) :=
    WF_fresh .use_marker hash 4 ⟨2, rfl⟩
  have habs0 : ∀ i, i ≤ (empty_table .use_marker 4).capacity_minus_1 →
      getStatus .use_marker (empty_table .use_marker 4) i = VALID →
      (empty_table .use_marker 4).key_table.getD i 0 ≠ k := by
    intro i hi hv0
    have hv0' : getStatus .use_marker (fresh_data .use_marker 4) i = VALID := hv0
    rw [getStatus_fresh] at hv0'
    exact absurd hv0' (by decide)
  obtain ⟨st1, hins1, hwf1, hsz1, ⟨i1, hi1, hv1, hk1, hvv1⟩, hmaps1⟩ :=
    insert_absent .use_marker hash (empty_table .use_marker 4) k v hwf0 habs0
  obtain ⟨hdel, hkk, hvvt, hwf2, hsz2, hchar2⟩ :=
    erase_present_marker hash st1 k hwf1 hi1 hv1 hk1
  have hcapeq : (erase .use_marker hash st1 k).capacity_minus_1 =
      st1.capacity_minus_1 := by
    have h1 := hwf2.keys_len
    have h2 := hwf1.keys_len
    rw [hkk] at h1
    omega
  have habs2 : ∀ i, i ≤ (erase .use_marker hash st1 k).capacity_minus_1 →
      getStatus .use_marker (erase .use_marker hash st1 k) i = VALID →
      (erase .use_marker hash st1 k).key_table.getD i 0 ≠ k := by
    intro i hi hvi hki
    exact ((hchar2 k ((erase .use_marker hash st1 k).value_table.getD i 0)).mp
      ⟨i, hi, hvi, hki, rfl⟩).2 rfl
  obtain ⟨st3, hins3, hwf3, hsz3, ⟨r, hr, hvr, hkr, hvvr⟩, hmaps3⟩ :=
    insert_absent .use_marker hash (erase .use_marker hash st1 k) k v' hwf2
      habs2
  have hsz0 : (empty_table .use_marker 4).size = 0 := rfl
  refine ⟨st1, hins1, ⟨i1, by omega, hdel⟩, st3, hins3, by omega,
    r, ?_, hkr, hvvr⟩
  rw [find]
  exact get_index_eq_some_of .use_marker hash st3 hwf3 hr hvr hkr

/-- On the empty capacity-1 table the first insert lands in slot 0
without growth. -/
theorem insert_empty1 (p : erase_policy) (hash : Nat → Nat) (k1 v1 : Nat) :
    insert p hash (empty_table p 1) k1 v1 =
      some (true, store_at p (empty_table p 1) 0 k1 v1) := by
  have hwf0 : WF p hash (empty_table p 1) := WF_fresh p hash 1 ⟨0, rfl⟩
  have habs : ∀ i, i ≤ (empty_table p 1).capacity_minus_1 →
      getStatus p (empty_table p 1) i = VALID →
      (empty_table p 1).key_table.getD i 0 ≠ k1 := by
    intro i hi hv
    have hv' : getStatus p (fresh_data p 1) i = VALID := hv
    rw [getStatus_fresh] at hv'
    exact absurd hv' (by decide)
  have hnone := (get_index_none_iff p hash (empty_table p 1) hwf0 k1).mpr habs
  have hcap0 : (empty_table p 1).capacity_minus_1 = 0 := rfl
  have hmask : hash k1 &&& (empty_table p 1).capacity_minus_1 = 0 := by
    rw [hcap0, Nat.and_zero]
  have hfree : getStatus p (empty_table p 1) 0 ≠ VALID := by
    have h0' : getStatus p (empty_table p 1) 0 = 0 := getStatus_fresh p 1 0
    rw [h0']
    decide
  have hloop := add_new_loop_free_start p (empty_table p 1) k1 v1 0 0 0 hfree
  have hadd : add_new p hash (empty_table p 1) k1 v1 (hash k1) =
      some (store_at p (empty_table p 1) 0 k1 v1, 0) := by
    rw [add_new]
    rw [show (empty_table p 1).size + 2 = 1 + 1 from rfl]
    rw [add_new_go]
    simp only [hcap0, Nat.and_zero]
    rw [hloop]
  simp only [insert]
  rw [hnone, hadd]

/-- C4: from the empty capacity-1 table the first insert succeeds with
no growth; a second distinct key always collides and triggers growth
(capacity at least doubles to 2), every growth step multiplies the
capacity by exactly 2, and with the identity hash the concrete capacity
progression is 2 (keys 0,1) respectively 4 (keys 0,2, which still
collide at capacity 2); all entries stay retrievable. -/
theorem claim_C4 (p : erase_policy) (hash : Nat → Nat) (k1 k2 v1 v2 : Nat)
    (hne : k1 ≠ k2) :
    (∃ st1, insert p hash (empty_table p 1) k1 v1 = some (true, st1) ∧
      capacity st1 = 1 ∧
      (∃ r, find p hash st1 k1 = some r ∧ st1.key_table.getD r 0 = k1 ∧
        st1.value_table.getD r 0 = v1) ∧
      ∀ st2, insert p hash st1 k2 v2 = some (true, st2) →
        2 ≤ capacity st2 ∧
        (∃ r1, find p hash st2 k1 = some r1 ∧ st2.key_table.getD r1 0 = k1 ∧
          st2.value_table.getD r1 0 = v1) ∧
        (∃ r2, find p hash st2 k2 = some r2 ∧ st2.key_table.getD r2 0 = k2 ∧
          st2.value_table.getD r2 0 = v2)) ∧
    (∀ st, WF p hash st →
      ∃ st', increase_table_size p hash st (capacity st * 2) = some st' ∧
        capacity st' = capacity st * 2 ∧ st'.size = st.size ∧
        ∀ k3 v3, mapsTo p st' k3 v3 ↔ mapsTo p st k3 v3) ∧
    ((insert .rehash (fun x => x) (empty_table .rehash 1) 0 10).bind
      (fun r => insert .rehash (fun x => x) r.2 1 11)).map
        (fun r => capacity r.2) = some 2 ∧
    ((insert .rehash (fun x => x) (empty_table .rehash 1) 0 10).bind
      (fun r => insert .rehash (fun x => x) r.2 2 12)).map
        (fun r => capacity r.2) = some 4 := by
  refine ⟨?_, ?_, by rfl, by rfl⟩
  · have hwf0 : WF p hash (empty_table p 1) := WF_fresh p hash 1 ⟨0, rfl⟩
    have habs : ∀ i, i ≤ (empty_table p 1).capacity_minus_1 →
        getStatus p (empty_table p 1) i = VALID →
        (empty_table p 1).key_table.getD i 0 ≠ k1 := by
      intro i hi hv
      have hv' : getStatus p (fresh_data p 1) i = VALID := hv
      rw [getStatus_fresh] at hv'
      exact absurd hv' (by decide)
    obtain ⟨st1, hins1, hwf1, hsz1, ⟨i1, hi1, hv1, hk1, hvv1⟩, hmaps1⟩ :=
      insert_absent p hash (empty_table p 1) k1 v1 hwf0 habs
    have hid : st1 = store_at p (empty_table p 1) 0 k1 v1 := by
      have h := insert_empty1 p hash k1 v1
      rw [hins1] at h
      simp only [Option.some.injEq, Prod.mk.injEq] at h
      exact h.2
    have hcap1 : capacity st1 = 1 := by
      rw [hid, capacity, store_at_capm1]
      rfl
    refine ⟨st1, hins1, hcap1, ⟨i1, ?_, hk1, hvv1⟩, ?_⟩
    · rw [find]
      exact get_index_eq_some_of p hash st1 hwf1 hi1 hv1 hk1
    · intro st2 hins2'
      have habs2 : ∀ i, i ≤ st1.capacity_minus_1 →
          getStatus p st1 i = VALID → st1.key_table.getD i 0 ≠ k2 := by
        intro i hi hvi hki
        rcases (hmaps1 k2 (st1.value_table.getD i 0)).mp ⟨i, hi, hvi, hki, rfl⟩
          with ⟨hc, _⟩ | hc
        · exact hne hc.symm
        · exact not_mapsTo_fresh p 1 k2 _ hc
      obtain ⟨st2', hins2, hwf2, hsz2, ⟨i2, hi2, hv2, hk2, hvv2⟩, hmaps2⟩ :=
        insert_absent p hash st1 k2 v2 hwf1 habs2
      have hid2 : st2 = st2' := by
        rw [hins2] at hins2'
        simp only [Option.some.injEq, Prod.mk.injEq] at hins2'
        exact hins2'.2.symm
      subst hid2
      have hsz0 : (empty_table p 1).size = 0 := rfl
      have hcl := size_le_capacity p hash st2 hwf2
      refine ⟨by rw [capacity]; omega, ?_, ?_⟩
      · obtain ⟨r1, hr1, hvr1, hkr1, hvvr1⟩ := (hmaps2 k1 v1).mpr
          (Or.inr ⟨i1, hi1, hv1, hk1, hvv1⟩)
        refine ⟨r1, ?_, hkr1, hvvr1⟩
        rw [find]
        exact get_index_eq_some_of p hash st2 hwf2 hr1 hvr1 hkr1
      · obtain ⟨r2, hr2, hvr2, hkr2, hvvr2⟩ := (hmaps2 k2 v2).mpr
          (Or.inl ⟨rfl, rfl⟩)
        refine ⟨r2, ?_, hkr2, hvvr2⟩
        rw [find]
        exact get_index_eq_some_of p hash st2 hwf2 hr2 hvr2 hkr2
  · intro st hwf
    obtain ⟨t, hc⟩ := hwf.cap_pow
    have hsle := size_le_capacity p hash st hwf
    obtain ⟨st', h1, h2, h3, h4, h5⟩ := increase_table_size_spec p hash st
      (capacity st * 2) hwf ⟨t + 1, by rw [capacity, hc, pow_succ]⟩
      (by rw [capacity]; omega)
    have h3' : st'.capacity_minus_1 + 1 = (st.capacity_minus_1 + 1) * 2 := by
      rw [capacity] at h3
      exact h3
    refine ⟨st', h1, ?_, h4, h5⟩
    rw [capacity, capacity]
    omega

/-- C4 witness: keys 0 and 1 under the identity hash, rehash policy. -/
theorem claim_C4_witness :
    ((∃ st1, insert .rehash (fun x => x) (empty_table .rehash 1) 0 10 =
        some (true, st1) ∧
      capacity st1 = 1 ∧
      (∃ r, find .rehash (fun x => x) st1 0 = some r ∧
        st1.key_table.getD r 0 = 0 ∧ st1.value_table.getD r 0 = 10) ∧
      ∀ st2, insert .rehash (fun x => x) st1 1 11 = some (true, st2) →
        2 ≤ capacity st2 ∧
        (∃ r1, find .rehash (fun x => x) st2 0 = some r1 ∧
          st2.key_table.getD r1 0 = 0 ∧ st2.value_table.getD r1 0 = 10) ∧
        (∃ r2, find .rehash (fun x => x) st2 1 = some r2 ∧
          st2.key_table.getD r2 0 = 1 ∧ st2.value_table.getD r2 0 = 11)) ∧
    (∀ st, WF .rehash (fun x => x) st →
      ∃ st', increase_table_size .rehash (fun x => x) st
          (capacity st * 2) = some st' ∧
        capacity st' = capacity st * 2 ∧ st'.size = st.size ∧
        ∀ k3 v3, mapsTo .rehash st' k3 v3 ↔ mapsTo .rehash st k3 v3) ∧
    ((insert .rehash (fun x => x) (empty_table .rehash 1) 0 10).bind
      (fun r => insert .rehash (fun x => x) r.2 1 11)).map
        (fun r => capacity r.2) = some 2 ∧
    ((insert .rehash (fun x => x) (empty_table .rehash 1) 0 10).bind
      (fun r => insert .rehash (fun x => x) r.2 2 12)).map
        (fun r => capacity r.2) = some 4) :=
  claim_C4 .rehash (fun x => x) 0 1 10 11 (by decide)

/-!  Equivalence of `closed_linear_probing_hash_table2` with the
policy-based table instantiated at `erase_policy_rehash`. -/

theorem getStatus_2_eq (st : table_data_t) (idx : Nat) :
    getStatus_2 st idx = getStatus .rehash st idx := rfl

theorem clearStatus_2_eq (st : table_data_t) (idx : Nat) :
    clearStatus_2 st idx = clearStatus .rehash st idx := rfl

theorem orStatus_2_eq (st : table_data_t) (idx v : Nat) :
    orStatus_2 st idx v = orStatus .rehash st idx v := rfl

theorem fresh_data2_eq (c : Nat) : fresh_data2 c = fresh_data .rehash c := rfl

theorem empty_table2_eq (n : Nat) : empty_table2 n = empty_table .rehash n := rfl

theorem shift_entry2_eq (st : table_data_t) (i j : Nat) :
    shift_entry2 st i j = shift_entry .rehash st i j := rfl

theorem get_first2_eq (st : table_data_t) :
    get_first2 st = get_first .rehash st := rfl

theorem get_next2_eq (st : table_data_t) (q : Nat) :
    get_next2 st q = get_next .rehash st q := rfl

theorem clear2_eq (st : table_data_t) : clear2 st = clear .rehash st := rfl

theorem iter_go2_eq (st : table_data_t) :
    ∀ fuel pos, iter_go2 st fuel pos = iter_go .rehash st fuel pos := by
  intro fuel
  induction fuel with
  | zero => intro pos; rfl
  | succ n ih =>
    intro pos
    rw [iter_go2, iter_go, get_next2_eq]
    cases get_next .rehash st pos with
    | none => rfl
    | some q =>
      dsimp only
      rw [ih]

theorem iter_list2_eq (st : table_data_t) :
    iter_list2 st = iter_list .rehash st := by
  rw [iter_list2, iter_list, get_first2_eq]
  cases get_first .rehash st with
  | none => rfl
  | some q =>
    dsimp only
    rw [iter_go2_eq]

theorem get_index_loop2_eq (st : table_data_t) (key : Nat) :
    ∀ fuel orig idx, get_index_loop2 st key fuel orig idx =
      get_index_loop .rehash st key fuel orig idx := by
  intro fuel
  induction fuel with
  | zero => intro orig idx; rfl
  | succ n ih =>
    intro orig idx
    rw [get_index_loop2, get_index_loop]
    rcases getStatus_rehash_cases st idx with h | h
    · rw [if_pos (show getStatus_2 st idx = 0 from h), if_pos (show
        getStatus .rehash st idx = INVALID from h)]
    · rw [if_neg (show ¬ getStatus_2 st idx = 0 by rw [getStatus_2_eq, h]; decide),
        if_neg (show ¬ getStatus .rehash st idx = INVALID by rw [h]; decide)]
      by_cases hk : st.key_table.getD idx 0 = key
      · rw [if_pos hk, if_pos ⟨h, hk⟩]
      · rw [if_neg (show ¬ (getStatus .rehash st idx = VALID ∧
            st.key_table.getD idx 0 = key) from fun hc => hk hc.2), if_neg hk]
        by_cases ho : (idx + 1) &&& st.capacity_minus_1 = orig
        · rw [if_pos ho, if_pos ho]
        · rw [if_neg ho, if_neg ho, ih]

theorem get_index2_eq (st : table_data_t) (key hashval : Nat) :
    get_index2 st key hashval = get_index .rehash st key hashval := by
  simp only [get_index2, get_index]
  rw [get_index_loop2_eq]

theorem find2_eq (hash : Nat → Nat) (st : table_data_t) (key : Nat) :
    find2 hash st key = find .rehash hash st key := by
  rw [find2, find, get_index2_eq]

theorem count2_eq (hash : Nat → Nat) (st : table_data_t) (key : Nat) :
    count2 hash st key = count .rehash hash st key := by
  rw [count2, count, get_index2_eq]

theorem do_erase_loop2_eq (hash : Nat → Nat) :
    ∀ fuel st i j, do_erase_loop2 hash st i j fuel =
      do_erase_loop hash st i j fuel := by
  intro fuel
  induction fuel with
  | zero => intro st i j; rfl
  | succ n ih =>
    intro st i j
    rw [do_erase_loop2, do_erase_loop]
    by_cases h1 : getStatus .rehash st ((j + 1) &&& st.capacity_minus_1) = INVALID
    · rw [if_pos (show getStatus_2 st ((j + 1) &&& st.capacity_minus_1) = 0
        from h1), if_pos h1]
    · rw [if_neg (show ¬ getStatus_2 st ((j + 1) &&& st.capacity_minus_1) = 0
        from h1), if_neg h1]
      by_cases h2 : shift_keep i ((j + 1) &&& st.capacity_minus_1)
          (hash (st.key_table.getD ((j + 1) &&& st.capacity_minus_1) 0) &&&
            st.capacity_minus_1)
      · rw [if_pos h2, if_pos h2, ih]
      · rw [if_neg h2, if_neg h2, ih, shift_entry2_eq]

theorem erase2_eq (hash : Nat → Nat) (st : table_data_t) (key : Nat) :
    erase2 hash st key = erase .rehash hash st key := by
  rw [erase2, erase, get_index2_eq]
  cases get_index .rehash st key (hash key) with
  | none => rfl
  | some idx =>
    dsimp only
    rw [do_erase_loop2_eq, clearStatus_2_eq]
    rfl

theorem set_getD_self : ∀ (l : List Nat) (n : Nat), l.set n (l.getD n 0) = l
  | [], _ => rfl
  | _ :: _, 0 => rfl
  | a :: l, n + 1 => congrArg (a :: ·) (set_getD_self l n)

/-- Clearing an already-clear field is the identity on the state. -/
theorem clearStatus_noop (p : erase_policy) (st : table_data_t) (idx : Nat)
    (hwords : ∀ w ∈ st.valid, w < 2 ^ 32)
    (hz : getStatus p st idx = 0) :
    clearStatus p st idx = st := by
  have hw : st.valid.getD (idx / META_ELEMENTS_PER_WORD p) 0 < 2 ^ 32 :=
    getD_lt_of_words_lt hwords _
  have hz' : extractF (META_BITS_PER_ELEMENT p) (metaShift p idx)
      (st.valid.getD (idx / META_ELEMENTS_PER_WORD p) 0) = 0 := by
    rw [← getStatus_def]
    exact hz
  have hfield : ∀ j, j < META_BITS_PER_ELEMENT p →
      (st.valid.getD (idx / META_ELEMENTS_PER_WORD p) 0).testBit
        (metaShift p idx + j) = false := by
    intro j hj
    have h := testBit_extractF (META_BITS_PER_ELEMENT p) (metaShift p idx)
      (st.valid.getD (idx / META_ELEMENTS_PER_WORD p) 0) j
    rw [hz', Nat.zero_testBit] at h
    rw [decide_eq_true hj, Bool.and_true] at h
    exact h.symm
  have hword_eq : st.valid.getD (idx / META_ELEMENTS_PER_WORD p) 0 &&&
      not32 (fieldMask p <<< metaShift p idx) =
      st.valid.getD (idx / META_ELEMENTS_PER_WORD p) 0 := by
    apply Nat.eq_of_testBit_eq
    intro k
    rw [Nat.testBit_and, testBit_not32, fieldMask_eq, testBit_mask_shifted]
    rcases Nat.lt_or_ge k 32 with h32 | h32
    · by_cases hin : metaShift p idx ≤ k ∧
          k - metaShift p idx < META_BITS_PER_ELEMENT p
      · have hbit := hfield (k - metaShift p idx) hin.2
        rw [show metaShift p idx + (k - metaShift p idx) = k by omega] at hbit
        rw [hbit]
        simp
      · simp [hin, h32]
    · have hbit : (st.valid.getD (idx / META_ELEMENTS_PER_WORD p) 0).testBit k =
          false :=
        Nat.testBit_lt_two_pow (lt_of_lt_of_le hw
          (Nat.pow_le_pow_right (by omega) h32))
      rw [hbit]
      simp
  rw [clearStatus]
  simp only [hword_eq, set_getD_self]

/-- On a free slot table2's or-only store agrees with the policy table's
clear-then-set store. -/
theorem store_at2_eq (st : table_data_t) (idx k v : Nat)
    (hwords : ∀ w ∈ st.valid, w < 2 ^ 32)
    (hz : getStatus .rehash st idx = 0) :
    store_at2 st idx k v = store_at .rehash st idx k v := by
  simp only [store_at2, store_at, setStatus]
  rw [clearStatus_noop .rehash st idx hwords hz, orStatus_2_eq]
  rfl

theorem add_new_loop_words_lt (p : erase_policy) (st : table_data_t) (k v : Nat)
    (hwords : ∀ w ∈ st.valid, w < 2 ^ 32) :
    ∀ fuel a b st' i, add_new_loop p st k v fuel a b = .placed st' i →
      ∀ w ∈ st'.valid, w < 2 ^ 32 := by
  intro fuel
  induction fuel with
  | zero =>
    intro a b st' i h
    rw [add_new_loop] at h
    simp at h
  | succ n ih =>
    intro a b st' i h
    rw [add_new_loop] at h
    by_cases h1 : getStatus p st b ≠ VALID
    · rw [if_pos h1] at h
      injection h with ha hb
      subst ha
      exact words_lt_setStatus p st b VALID (VALID_lt_pow p) hwords
    · rw [if_neg h1] at h
      by_cases h2 : st.size * 2 > st.capacity_minus_1
      · rw [if_pos h2] at h
        simp at h
      · rw [if_neg h2] at h
        by_cases h3 : (b + 1) &&& st.capacity_minus_1 = a
        · rw [if_pos h3] at h
          simp at h
        · rw [if_neg h3] at h
          exact ih _ _ _ _ h

theorem add_new_loop2_eq (st : table_data_t) (k v : Nat)
    (hwords : ∀ w ∈ st.valid, w < 2 ^ 32) :
    ∀ fuel a b, add_new_loop2 st k v fuel a b =
      add_new_loop .rehash st k v fuel a b := by
  intro fuel
  induction fuel with
  | zero => intro a b; rfl
  | succ n ih =>
    intro a b
    rw [add_new_loop2, add_new_loop]
    rcases getStatus_rehash_cases st b with h | h
    · rw [if_pos (show getStatus_2 st b = 0 from h),
        if_pos (show getStatus .rehash st b ≠ VALID by rw [h]; decide),
        store_at2_eq st b k v hwords h]
    · rw [if_neg (show ¬ getStatus_2 st b = 0 by rw [getStatus_2_eq, h]; decide),
        if_neg (show ¬ getStatus .rehash st b ≠ VALID by rw [h]; decide)]
      by_cases h2 : st.size * 2 > st.capacity_minus_1
      · rw [if_pos h2, if_pos h2]
      · rw [if_neg h2, if_neg h2]
        by_cases h3 : (b + 1) &&& st.capacity_minus_1 = a
        · rw [if_pos h3, if_pos h3]
        · rw [if_neg h3, if_neg h3, ih]

theorem rehash_linear2_eq (hash : Nat → Nat) (old : table_data_t) :
    ∀ l acc, (∀ w ∈ acc.valid, w < 2 ^ 32) →
      rehash_linear2 hash old l acc = rehash_into .rehash hash old
        (l.filter (fun i => decide (getStatus .rehash old i = VALID))) acc := by
  intro l
  induction l with
  | nil => intro acc _; rfl
  | cons i rest ih =>
    intro acc hacc
    simp only [rehash_linear2]
    rcases getStatus_rehash_cases old i with h | h
    · rw [if_neg (show ¬ getStatus_2 old i ≠ 0 by
        rw [getStatus_2_eq, h]; decide)]
      have hpred : decide (getStatus .rehash old i = VALID) = false := by
        rw [h]
        decide
      rw [List.filter_cons, hpred, if_neg (by decide)]
      exact ih acc hacc
    · rw [if_pos (show getStatus_2 old i ≠ 0 by rw [getStatus_2_eq, h]; decide)]
      have hpred : decide (getStatus .rehash old i = VALID) = true := by
        rw [h]
        decide
      rw [List.filter_cons, hpred, if_pos rfl]
      rw [rehash_into]
      rw [add_new_loop2_eq acc _ _ hacc]
      cases hres : add_new_loop .rehash acc (old.key_table.getD i 0)
          (old.value_table.getD i 0) (acc.capacity_minus_1 + 1)
          (hash (old.key_table.getD i 0) &&& acc.capacity_minus_1)
          (hash (old.key_table.getD i 0) &&& acc.capacity_minus_1) with
      | placed acc' j =>
        dsimp only
        exact ih acc' (add_new_loop_words_lt .rehash acc _ _ hacc _ _ _ _ _ hres)
      | need_grow => rfl
      | exhausted => rfl

theorem increase_table_size2_eq (hash : Nat → Nat) (st : table_data_t) (n : Nat)
    (hwf : WF .rehash hash st) :
    increase_table_size2 hash st n = increase_table_size .rehash hash st n := by
  rw [increase_table_size2, increase_table_size, fresh_data2_eq]
  rw [rehash_linear2_eq hash st _ _ (fun w hw => by
    rw [List.eq_of_mem_replicate hw]
    decide)]
  rw [← iter_list_eq_filter .rehash hash st hwf]

theorem add_new_go2_eq (hash : Nat → Nat) (k v hsv : Nat) :
    ∀ gfuel st, WF .rehash hash st →
      add_new_go2 hash k v hsv gfuel st =
        add_new_go .rehash hash k v hsv gfuel st := by
  intro gfuel
  induction gfuel with
  | zero => intro st _; rfl
  | succ n ih =>
    intro st hwf
    simp only [add_new_go2, add_new_go]
    rw [add_new_loop2_eq st k v hwf.words_lt]
    cases hres : add_new_loop .rehash st k v (st.capacity_minus_1 + 1)
        (hsv &&& st.capacity_minus_1) (hsv &&& st.capacity_minus_1) with
    | placed st' i => rfl
    | exhausted => rfl
    | need_grow =>
      dsimp only
      rw [increase_table_size2_eq hash st _ hwf]
      obtain ⟨t, hc⟩ := hwf.cap_pow
      obtain ⟨st'', hrun, hwf'', _, _, _⟩ := increase_table_size_spec .rehash
        hash st ((st.capacity_minus_1 + 1) * 2) hwf ⟨t + 1, by rw [hc, pow_succ]⟩
        (by have := size_le_capacity .rehash hash st hwf; omega)
      rw [hrun]
      dsimp only
      exact ih st'' hwf''

theorem add_new2_eq (hash : Nat → Nat) (st : table_data_t) (k v hsv : Nat)
    (hwf : WF .rehash hash st) :
    add_new2 hash st k v hsv = add_new .rehash hash st k v hsv := by
  rw [add_new2, add_new, add_new_go2_eq hash k v hsv _ st hwf]

theorem insert2_eq (hash : Nat → Nat) (st : table_data_t) (k v : Nat)
    (hwf : WF .rehash hash st) :
    insert2 hash st k v = insert .rehash hash st k v := by
  simp only [insert2, insert]
  rw [get_index2_eq]
  cases hg : get_index .rehash st k (hash k) with
  | some i => rfl
  | none =>
    dsimp only
    rw [add_new2_eq hash st k v (hash k) hwf]

theorem reserve2_eq (hash : Nat → Nat) (st : table_data_t) (n : Nat)
    (hwf : WF .rehash hash st) :
    reserve2 hash st n = reserve .rehash hash st n := by
  rw [reserve2, reserve]
  by_cases h : n > st.capacity_minus_1 + 1
  · rw [if_pos h, if_pos h, increase_table_size2_eq hash st _ hwf]
  · rw [if_neg h, if_neg h]

theorem op_index2_eq (hash : Nat → Nat) (st : table_data_t) (k : Nat)
    (hwf : WF .rehash hash st) :
    op_index2 hash st k = op_index .rehash hash st k := by
  simp only [op_index2, op_index]
  rw [get_index2_eq]
  cases hg : get_index .rehash st k (hash k) with
  | some i => rfl
  | none =>
    dsimp only
    rw [add_new2_eq hash st k 0 (hash k) hwf]

/-!  Mutator operations preserve well-formedness and always succeed on
well-formed states (within the asserted input ranges). -/

theorem getStatus_clear (p : erase_policy) (st : table_data_t) (i : Nat) :
    getStatus p (clear p st) i = 0 := by
  rw [getStatus_def, clear]
  simp only []
  rw [getD_replicate_zero, extractF_zero]

theorem WF_clear (p : erase_policy) (hash : Nat → Nat) (st : table_data_t)
    (hwf : WF p hash st) : WF p hash (clear p st) := by
  have hstat := getStatus_clear p st
  have hcap : (clear p st).capacity_minus_1 = st.capacity_minus_1 := rfl
  refine ⟨?_, ?_, ?_, ?_, ?_, ?_, ?_, ?_, ?_, ?_⟩
  · rw [hcap]
    exact hwf.cap_pow
  · rw [hcap]
    exact hwf.keys_len
  · rw [hcap]
    exact hwf.vals_len
  · show (List.replicate ((capacity st + (META_ELEMENTS_PER_WORD p - 1)) /
      META_ELEMENTS_PER_WORD p) 0).length = num_valid_words p (clear p st)
    rw [List.length_replicate, num_valid_words, hcap, capacity]
    congr 1
    have := EPW_pos p
    omega
  · intro w hw
    have hw' : w ∈ List.replicate ((capacity st +
        (META_ELEMENTS_PER_WORD p - 1)) / META_ELEMENTS_PER_WORD p) (0 : Nat) :=
      hw
    rw [List.eq_of_mem_replicate hw']
    decide
  · intro i _
    rw [hstat i]
    decide
  · intro i _
    exact hstat i
  · show 0 = _
    symm
    rw [List.length_eq_zero]
    apply List.filter_eq_nil.mpr
    intro a _
    show ¬ (decide (getStatus p (clear p st) a = VALID) = true)
    rw [hstat a]
    decide
  · intro i j hi hj hvi hvj hk
    rw [hstat i] at hvi
    exact absurd hvi (by decide)
  · intro pos q hpos hq hv hinv
    rw [hstat pos] at hv
    exact absurd hv (by decide)

theorem insert_wf (p : erase_policy) (hash : Nat → Nat) (st : table_data_t)
    (k v : Nat) (hwf : WF p hash st) :
    ∃ b st', insert p hash st k v = some (b, st') ∧ WF p hash st' := by
  cases hg : get_index p st k (hash k) with
  | some i =>
    refine ⟨false, st, ?_, hwf⟩
    rw [insert, hg]
  | none =>
    obtain ⟨st', hins, hwf', _, _, _⟩ :=
      insert_absent p hash st k v hwf ((get_index_none_iff p hash st hwf k).mp hg)
    exact ⟨true, st', hins, hwf'⟩

theorem op_index_wf (p : erase_policy) (hash : Nat → Nat) (st : table_data_t)
    (k : Nat) (hwf : WF p hash st) :
    ∃ st' r, op_index p hash st k = some (st', r) ∧ WF p hash st' := by
  cases hg : get_index p st k (hash k) with
  | some i =>
    refine ⟨st, i, ?_, hwf⟩
    simp only [op_index]
    rw [hg]
  | none =>
    obtain ⟨st', idx, hrun, hwf', _, _, _, _, _, _⟩ :=
      add_new_spec p hash st k 0 hwf ((get_index_none_iff p hash st hwf k).mp hg)
    refine ⟨st', idx, ?_, hwf'⟩
    simp only [op_index]
    rw [hg]
    exact hrun

theorem erase_wf (hash : Nat → Nat) (st : table_data_t) (k : Nat)
    (hwf : WF .rehash hash st) : WF .rehash hash (erase .rehash hash st k) := by
  cases hg : get_index .rehash st k (hash k) with
  | none =>
    rw [erase, hg]
    exact hwf
  | some i =>
    obtain ⟨hi, hv, hk⟩ := get_index_some_of_eq .rehash hash st k (hash k) i hg
    exact (erase_present_rehash hash st k hwf hi hv hk).1

theorem reserve_wf (hash : Nat → Nat) (st : table_data_t) (n : Nat)
    (hwf : WF .rehash hash st) (hn : n ≤ 2 ^ 63) :
    ∃ st', reserve .rehash hash st n = some st' ∧ WF .rehash hash st' := by
  rw [reserve]
  by_cases h : n > st.capacity_minus_1 + 1
  · rw [if_pos h]
    obtain ⟨t, hc⟩ := hwf.cap_pow
    have hnpos : 0 < n := by omega
    have hru : round_up_to_next_power_of_2_u64 n = 2 ^ (n - 1).size :=
      round_up_value_u64 n hnpos hn
    have hmin := pow_size_min n hnpos
    have hge : 2 * (st.capacity_minus_1 + 1) ≤ 2 ^ (n - 1).size := by
      have h1 : 2 ^ t < 2 ^ (n - 1).size := by
        calc 2 ^ t = st.capacity_minus_1 + 1 := hc.symm
          _ < n := h
          _ ≤ 2 ^ (n - 1).size := hmin.1
      have h2 : t < (n - 1).size := (Nat.pow_lt_pow_iff_right (by omega)).mp h1
      calc 2 * (st.capacity_minus_1 + 1) = 2 ^ (t + 1) := by
            rw [hc, pow_succ]
            ring
        _ ≤ 2 ^ (n - 1).size := Nat.pow_le_pow_right (by omega) (by omega)
    have hsle := size_le_capacity .rehash hash st hwf
    obtain ⟨st', hrun, hwf', _, _, _⟩ := increase_table_size_spec .rehash hash st
      (round_up_to_next_power_of_2_u64 n) hwf ⟨(n - 1).size, hru⟩
      (by rw [hru]; omega)
    exact ⟨st', hrun, hwf'⟩
  · rw [if_neg h]
    exact ⟨st, rfl, hwf⟩


/-- The two implementations run any in-range operation sequence from a
well-formed state to identical results, and the reached state stays
well-formed. -/
theorem run2_eq (hash : Nat → Nat) :
    ∀ ops st, WF .rehash hash st → (∀ op ∈ ops, Op.ok op) →
      run2 hash st ops = run1 hash st ops ∧
      ∀ st', run1 hash st ops = some st' → WF .rehash hash st' := by
  intro ops
  induction ops with
  | nil =>
    intro st hwf _
    refine ⟨rfl, fun st' h => ?_⟩
    injection h with h1
    rw [← h1]
    exact hwf
  | cons op rest ih =>
    intro st hwf hops
    have hop := hops op (List.mem_cons_self _ _)
    have hrest : ∀ o ∈ rest, Op.ok o := fun o ho =>
      hops o (List.mem_cons_of_mem _ ho)
    cases op with
    | ins k v =>
      simp only [run2, run1]
      rw [insert2_eq hash st k v hwf]
      obtain ⟨b, st', hins, hwf'⟩ := insert_wf .rehash hash st k v hwf
      rw [hins]
      dsimp only
      exact ih st' hwf' hrest
    | del k =>
      simp only [run2, run1]
      rw [erase2_eq]
      exact ih _ (erase_wf hash st k hwf) hrest
    | sub k =>
      simp only [run2, run1]
      rw [op_index2_eq hash st k hwf]
      obtain ⟨st', r, hrun, hwf'⟩ := op_index_wf .rehash hash st k hwf
      rw [hrun]
      dsimp only
      exact ih st' hwf' hrest
    | res m =>
      simp only [run2, run1]
      rw [reserve2_eq hash st m hwf]
      obtain ⟨st', hrun, hwf'⟩ := reserve_wf hash st m hwf hop
      rw [hrun]
      dsimp only
      exact ih st' hwf' hrest
    | clr =>
      simp only [run2, run1]
      rw [clear2_eq]
      exact ih _ (WF_clear .rehash hash st hwf) hrest

/-- C10: starting from the same default size, every sequence of
`insert` / `erase` / `operator[]` / `reserve` / `clear` operations takes
the two rehash-on-delete implementations through identical states
(`none` exactly when the other hits an assert), every public operation
returns the same result on any well-formed state, and the reached states
are well-formed. -/
theorem claim_C10 (hash : Nat → Nat) (n : Nat) (ops : List Op)
    (hn : ∃ t, n = 2 ^ t) (hops : ∀ op ∈ ops, Op.ok op) :
    run2 hash (empty_table2 n) ops = run1 hash (empty_table .rehash n) ops ∧
    (∀ st, WF .rehash hash st →
      (∀ k v, insert2 hash st k v = insert .rehash hash st k v) ∧
      (∀ k, erase2 hash st k = erase .rehash hash st k) ∧
      (∀ k, op_index2 hash st k = op_index .rehash hash st k) ∧
      (∀ k, find2 hash st k = find .rehash hash st k) ∧
      (∀ k, count2 hash st k = count .rehash hash st k) ∧
      iter_list2 st = iter_list .rehash st ∧
      clear2 st = clear .rehash st ∧
      ∀ m, m ≤ 2 ^ 63 → reserve2 hash st m = reserve .rehash hash st m) ∧
    ∀ stf, run1 hash (empty_table .rehash n) ops = some stf →
      WF .rehash hash stf := by
  have hwf0 : WF .rehash hash (empty_table .rehash n) := WF_fresh .rehash hash n hn
  obtain ⟨h1, h2⟩ := run2_eq hash ops (empty_table .rehash n) hwf0 hops
  refine ⟨by rw [empty_table2_eq]; exact h1, ?_, h2⟩
  intro st hwf
  exact ⟨fun k v => insert2_eq hash st k v hwf, fun k => erase2_eq hash st k,
    fun k => op_index2_eq hash st k hwf, fun k => find2_eq hash st k,
    fun k => count2_eq hash st k, iter_list2_eq st, clear2_eq st,
    fun m _ => reserve2_eq hash st m hwf⟩

/-- C10 witness: a concrete operation sequence exercising every mutator
on the default capacity-2 tables with the identity hash. -/
theorem claim_C10_witness :
    run2 (fun x => x) (empty_table2 2)
        [.ins 1 5, .ins 2 6, .del 1, .sub 3, .res 8, .clr] =
      run1 (fun x => x) (empty_table .rehash 2)
        [.ins 1 5, .ins 2 6, .del 1, .sub 3, .res 8, .clr] ∧
    (∀ st, WF .rehash (fun x => x) st →
      (∀ k v, insert2 (fun x => x) st k v =
        insert .rehash (fun x => x) st k v) ∧
      (∀ k, erase2 (fun x => x) st k = erase .rehash (fun x => x) st k) ∧
      (∀ k, op_index2 (fun x => x) st k = op_index .rehash (fun x => x) st k) ∧
      (∀ k, find2 (fun x => x) st k = find .rehash (fun x => x) st k) ∧
      (∀ k, count2 (fun x => x) st k = count .rehash (fun x => x) st k) ∧
      iter_list2 st = iter_list .rehash st ∧
      clear2 st = clear .rehash st ∧
      ∀ m, m ≤ 2 ^ 63 → reserve2 (fun x => x) st m =
        reserve .rehash (fun x => x) st m) ∧
    ∀ stf, run1 (fun x => x) (empty_table .rehash 2)
        [.ins 1 5, .ins 2 6, .del 1, .sub 3, .res 8, .clr] = some stf →
      WF .rehash (fun x => x) stf :=
  claim_C10 (fun x => x) 2 [.ins 1 5, .ins 2 6, .del 1, .sub 3, .res 8, .clr]
    ⟨1, rfl⟩ (by intro op h; fin_cases h <;> norm_num [Op.ok])

end HashContainers
